import Mathlib

/-!
# Cross-process basic-block exchange: optimizer process and instrumentation client

A shallow embedding of `parentProgram.c` (the optimizer process),
`childProgramClient.c` (the DynamoRIO client) and the load scan of
`detectLoop.c` (the loop detector), together with the properties that hold
of the code.

Conventions of the embedding.

* A C `int` is an `Int` in `[-2^31, 2^31)`, an `int64_t` an `Int` in
  `[-2^63, 2^63)`, a pointer (`unsigned char*`, `app_pc`) a `Nat` below
  `2^64`; `NULL` is `0`.  Stores reduce modulo `2^32` resp. `2^64`.
* The transfer buffer is a list of bytes (`Nat` below `256`).  Words are
  laid out little-endian, as on the x86-64 target the programs are built
  for; both processes run on the same machine.
* A failed step of the C program (dereferencing `NULL`, indexing past an
  array, reading past the bytes at hand) is `none`.
-/

/-! ## Machine words and their bytes -/

/-- Range of a C `int`. -/
def isInt32 (v : Int) : Prop := -2147483648 ≤ v ∧ v < 2147483648

/-- Range of a C `int64_t`. -/
def isInt64 (v : Int) : Prop := -9223372036854775808 ≤ v ∧ v < 9223372036854775808

/-- Range of a 64-bit pointer. -/
def isPtr (p : Nat) : Prop := p < 18446744073709551616

instance (v : Int) : Decidable (isInt32 v) := by unfold isInt32; infer_instance
instance (v : Int) : Decidable (isInt64 v) := by unfold isInt64; infer_instance
instance (p : Nat) : Decidable (isPtr p) := by unfold isPtr; infer_instance

/-- The four bytes of a 32-bit word, least significant first. -/
def le32 (n : Nat) : List Nat :=
  [n % 256, n / 256 % 256, n / 65536 % 256, n / 16777216 % 256]

/-- The eight bytes of a 64-bit word, least significant first. -/
def le64 (n : Nat) : List Nat :=
  le32 (n % 4294967296) ++ le32 (n / 4294967296 % 4294967296)

/-- Bit pattern of a C `int`. -/
def intBits (v : Int) : Nat := (v % 4294967296).toNat

/-- Bit pattern of a C `int64_t`. -/
def longBits (v : Int) : Nat := (v % 18446744073709551616).toNat

/-- Signed reading of a 32-bit pattern. -/
def toInt32 (n : Nat) : Int :=
  if n % 4294967296 < 2147483648 then (n % 4294967296 : Nat) else (n % 4294967296 : Nat) - 4294967296

/-- Signed reading of a 64-bit pattern: the cast `(int64_t) p`. -/
def toInt64 (n : Nat) : Int :=
  if n % 18446744073709551616 < 9223372036854775808 then (n % 18446744073709551616 : Nat)
  else (n % 18446744073709551616 : Nat) - 18446744073709551616

/-- The word held in four consecutive bytes. -/
def word32 (b0 b1 b2 b3 : Nat) : Nat := b0 + 256 * b1 + 65536 * b2 + 16777216 * b3

/-- The load `*((int*) p)` together with `p += sizeof(int)`. -/
def readInt : List Nat → Option (Int × List Nat)
  | b0 :: b1 :: b2 :: b3 :: rest => some (toInt32 (word32 b0 b1 b2 b3), rest)
  | _ => none

/-- The load `*((unsigned char**) p)` together with `p += sizeof(unsigned char*)`. -/
def readPtr : List Nat → Option (Nat × List Nat)
  | b0 :: b1 :: b2 :: b3 :: b4 :: b5 :: b6 :: b7 :: rest =>
      some (word32 b0 b1 b2 b3 + 4294967296 * word32 b4 b5 b6 b7, rest)
  | _ => none

/-- The load `*((int64_t*) p)` together with `p += sizeof(int64_t)`. -/
def readLong (buf : List Nat) : Option (Int × List Nat) :=
  match readPtr buf with
  | some (n, rest) => some (toInt64 n, rest)
  | none => none

/-! ## Wire records (declared identically in both programs) -/

/-- The C struct `instr_opnd_t`: one operand as it travels between the processes. -/
structure instr_opnd_t where
  type : Int
  longParam : Int
  p1 : Int
  p2 : Int
deriving DecidableEq

/-- The C struct `instr_data_t`: the fixed header of an instruction record. -/
structure instr_data_t where
  app_pc : Nat
  opcode : Int
  numSrc : Int
  numDst : Int
  length : Int
deriving DecidableEq

/-- All fields of an operand record are representable in their C types. -/
def instr_opnd_t.inRange (o : instr_opnd_t) : Prop :=
  isInt32 o.type ∧ isInt64 o.longParam ∧ isInt32 o.p1 ∧ isInt32 o.p2

instance (o : instr_opnd_t) : Decidable o.inRange := by
  unfold instr_opnd_t.inRange; infer_instance

/-- All fields of a header are representable in their C types. -/
def instr_data_t.inRange (d : instr_data_t) : Prop :=
  isPtr d.app_pc ∧ isInt32 d.opcode ∧ isInt32 d.numSrc ∧ isInt32 d.numDst ∧ isInt32 d.length

instance (d : instr_data_t) : Decidable d.inRange := by
  unfold instr_data_t.inRange; infer_instance

/-- The 24 bytes `instr_data_t` occupies (x86-64: pointer, then four ints, no padding). -/
def dataBytes (d : instr_data_t) : List Nat :=
  le64 d.app_pc ++ le32 (intBits d.opcode) ++ le32 (intBits d.numSrc) ++
    le32 (intBits d.numDst) ++ le32 (intBits d.length)

/-- The 24 bytes `instr_opnd_t` occupies (x86-64): `type` at 0, four bytes of padding
that align the `int64_t`, `longParam` at 8, `p1` at 16, `p2` at 20.  The padding keeps
whatever the memory held. -/
def opndBytes (pad : Nat) (o : instr_opnd_t) : List Nat :=
  le32 (intBits o.type) ++ le32 (pad % 4294967296) ++ le64 (longBits o.longParam) ++
    le32 (intBits o.p1) ++ le32 (intBits o.p2)

/-- Reading a struct `instr_data_t` out of the buffer (the `memcpy` of `sizeof(instr_data_t)`
bytes), with the rest of the buffer. -/
def readData (buf : List Nat) : Option (instr_data_t × List Nat) :=
  match readPtr buf with
  | none => none
  | some (app_pc, b1) =>
    match readInt b1 with
    | none => none
    | some (opcode, b2) =>
      match readInt b2 with
      | none => none
      | some (numSrc, b3) =>
        match readInt b3 with
        | none => none
        | some (numDst, b4) =>
          match readInt b4 with
          | none => none
          | some (length, b5) =>
            some ({ app_pc := app_pc, opcode := opcode, numSrc := numSrc, numDst := numDst,
                    length := length }, b5)

/-- Reading one struct `instr_opnd_t` out of the buffer; the padding word is skipped. -/
def readOpnd (buf : List Nat) : Option (instr_opnd_t × List Nat) :=
  match readInt buf with
  | none => none
  | some (type, b1) =>
    match readInt b1 with
    | none => none
    | some (_, b2) =>
      match readLong b2 with
      | none => none
      | some (longParam, b3) =>
        match readInt b3 with
        | none => none
        | some (p1, b4) =>
          match readInt b4 with
          | none => none
          | some (p2, b5) =>
            some ({ type := type, longParam := longParam, p1 := p1, p2 := p2 }, b5)

/-- Reading an array of `n` operand structs (the `memcpy` of `n * sizeof(instr_opnd_t)` bytes). -/
def readOpnds : Nat → List Nat → Option (List instr_opnd_t × List Nat)
  | 0, buf => some ([], buf)
  | n + 1, buf =>
    match readOpnd buf with
    | none => none
    | some (o, b1) =>
      match readOpnds n b1 with
      | none => none
      | some (os, b2) => some (o :: os, b2)

/-! ## The optimizer process (`parentProgram.c`) -/

namespace parentProgram

/-- The C struct `Instr`.  `src` and `dst` stand for the two separately allocated operand
arrays, `dirtySrc` and `dirtyDst` for the two `int[8]` arrays; `next` and `prev` are
pointers into the node heap (`none` is `NULL`). -/
structure instr_t where
  iData : instr_data_t
  src : List instr_opnd_t
  dst : List instr_opnd_t
  origIndex : Int
  dirty : Int
  dirtyInst : Int
  dirtySrc : List Int
  dirtyDst : List Int
  next : Option Nat
  prev : Option Nat
deriving DecidableEq

/-- The C struct `instrlist_t`. -/
structure instrlist_t where
  first : Option Nat
  last : Option Nat
  fall_through : Nat
deriving DecidableEq

/-- The nodes allocated so far: the pointer `p` denotes the node `h[p]`, and `malloc`
extends the heap at its end. -/
abbrev Heap := List instr_t

/-- A store through the pointer `p`: `none` when `p` points to no node. -/
def updateNode (h : Heap) (p : Nat) (f : instr_t → instr_t) : Option Heap :=
  match h[p]? with
  | none => none
  | some n => some (h.set p (f n))

/-- The result of `malloc(sizeof(instr_t))` holding `node`: the new heap and the pointer. -/
def alloc (h : Heap) (node : instr_t) : Heap × Nat := (h ++ [node], h.length)

/-- The node `instr_create` returns; `fresh` is what the allocated memory happened to hold,
so every field the function does not assign keeps that content. -/
def instr_create (fresh : instr_t) : instr_t :=
  { fresh with
    dirty := 1
    dirtyInst := 1
    iData := { fresh.iData with numSrc := 0, numDst := 0 }
    next := none
    prev := none }

/-- The copy `malloc(n * sizeof(instr_opnd_t))` followed by `memcpy` of `n` operands takes:
the first `n` elements of the array; `none` when `n` is negative or exceeds the array. -/
def copyOpnds (n : Int) (a : List instr_opnd_t) : Option (List instr_opnd_t) :=
  if 0 ≤ n ∧ n.toNat ≤ a.length then some (a.take n.toNat) else none

/-- The node `instr_clone` builds from the node `orig` points to. -/
def cloneNode (orig : instr_t) : Option instr_t :=
  match copyOpnds orig.iData.numSrc orig.src, copyOpnds orig.iData.numDst orig.dst with
  | some s, some d => some { orig with next := none, prev := none, src := s, dst := d }
  | _, _ => none

/-- The function `instr_clone`: allocates the copy and returns its address. -/
def instr_clone (h : Heap) (orig : Nat) : Option (Heap × Nat) :=
  match h[orig]? with
  | none => none
  | some o =>
    match cloneNode o with
    | none => none
    | some c => some (alloc h c)

/-- The body of `instr_set_translation`, on the node `instr` points to. -/
def instr_set_translation (instr : instr_t) (pc : Nat) : instr_t :=
  { instr with iData := { instr.iData with app_pc := pc }, dirty := 1, dirtyInst := 1 }

/-- The body of `instr_set_opcode`, on the node `instr` points to. -/
def instr_set_opcode (instr : instr_t) (opcode : Int) : instr_t :=
  { instr with iData := { instr.iData with opcode := opcode }, dirty := 1, dirtyInst := 1 }

/-- The function `instr_is_cond_branch`. -/
def instr_is_cond_branch (instr : instr_t) : Bool :=
  let op := instr.iData.opcode
  if 152 ≤ op ∧ op ≤ 167 then true
  else if 26 ≤ op ∧ op ≤ 41 then true
  else false

/-- The function `instr_get_branch_target_pc`; `0` is `NULL`, and `none` is a read of
`src[0]` outside the operand array. -/
def instr_get_branch_target_pc (instr : instr_t) : Option Nat :=
  if instr.iData.numSrc = 0 then some 0
  else
    match instr.src[0]? with
    | none => none
    | some s0 =>
      if s0.type ≠ 7 then some 0
      else if !instr_is_cond_branch instr then some 0
      else some (longBits s0.longParam)

/-- The body of `instr_set_branch_target_pc`, on the node `instr` points to; `none` is an
access to `src[0]` or `dirtySrc[0]` outside the array. -/
def instr_set_branch_target_pc (instr : instr_t) (pc : Nat) : Option instr_t :=
  if instr.iData.numSrc = 0 then some instr
  else
    match instr.src[0]? with
    | none => none
    | some s0 =>
      if s0.type ≠ 7 then some instr
      else if !instr_is_cond_branch instr then some instr
      else if 0 < instr.dirtySrc.length then
        some { instr with
          src := instr.src.set 0 { s0 with longParam := toInt64 pc }
          dirty := 1
          dirtySrc := instr.dirtySrc.set 0 1 }
      else none

/-- The function `instrlist_create`. -/
def instrlist_create : instrlist_t := { first := none, last := none, fall_through := 0 }

/-- The function `instrlist_append`. -/
def instrlist_append (h : Heap) (ilist : instrlist_t) (instr : Nat) :
    Option (Heap × instrlist_t) :=
  match ilist.first with
  | none => some (h, { ilist with first := some instr, last := some instr })
  | some _ =>
    match ilist.last with
    | none => none
    | some l =>
      match updateNode h l (fun n => { n with next := some instr }) with
      | none => none
      | some h1 =>
        match updateNode h1 instr (fun n => { n with prev := some l }) with
        | none => none
        | some h2 => some (h2, { ilist with last := some instr })

/-- The search loop of `instrlist_postinsert`: whether following `next` from `current`
reaches `target` before `NULL`.  The outer `none` is an exhausted step budget or a
pointer to no node. -/
def reaches (h : Heap) (target : Nat) : Nat → Option Nat → Option Bool
  | 0, _ => none
  | _ + 1, none => some false
  | fuel + 1, some current =>
    if current = target then some true
    else
      match h[current]? with
      | none => none
      | some n => reaches h target fuel n.next

/-- The function `instrlist_postinsert(ilist, where, instr)`; `fuel` bounds the steps of its
search loop. -/
def instrlist_postinsert (fuel : Nat) (h : Heap) (ilist : instrlist_t) (anchor instr : Nat) :
    Option (Heap × instrlist_t) :=
  if some anchor = ilist.last then
    match updateNode h instr (fun n => { n with prev := some anchor }) with
    | none => none
    | some h1 =>
      match updateNode h1 anchor (fun n => { n with next := some instr }) with
      | none => none
      | some h2 => some (h2, { ilist with last := some instr })
  else
    match reaches h anchor fuel ilist.first with
    | none => none
    | some false => some (h, ilist)
    | some true =>
      match h[anchor]? with
      | none => none
      | some w =>
        match w.next with
        | none => none
        | some nx =>
          match updateNode h nx (fun n => { n with prev := some instr }) with
          | none => none
          | some h1 =>
            match h1[anchor]? with
            | none => none
            | some w1 =>
              match updateNode h1 instr (fun n => { n with next := w1.next, prev := some anchor }) with
              | none => none
              | some h2 =>
                match updateNode h2 anchor (fun n => { n with next := some instr }) with
                | none => none
                | some h3 => some (h3, ilist)

/-- The function `instrlist_replace`; the statements after its `if`/`else` are unreachable,
every branch returning before them.  The third component is the returned pointer. -/
def instrlist_replace (h : Heap) (ilist : instrlist_t) (oldinst newinst : Nat) :
    Option (Heap × instrlist_t × Nat) :=
  if some oldinst = ilist.first then
    if some oldinst = ilist.last then
      some (h, { ilist with first := some newinst, last := some newinst }, oldinst)
    else
      match h[oldinst]? with
      | none => none
      | some o =>
        match updateNode h newinst (fun n => { n with next := o.next }) with
        | none => none
        | some h1 =>
          match h1[oldinst]? with
          | none => none
          | some o1 =>
            match o1.next with
            | none => none
            | some nx =>
              match updateNode h1 nx (fun n => { n with prev := some newinst }) with
              | none => none
              | some h2 => some (h2, { ilist with first := some newinst }, oldinst)
  else
    match h[oldinst]? with
    | none => none
    | some o =>
      match updateNode h newinst (fun n => { n with prev := o.prev }) with
      | none => none
      | some h1 =>
        match h1[oldinst]? with
        | none => none
        | some o1 =>
          match o1.prev with
          | none => none
          | some pv =>
            match updateNode h1 pv (fun n => { n with next := some newinst }) with
            | none => none
            | some h2 => some (h2, { ilist with last := some newinst }, oldinst)

/-- The function `instrlist_set_fall_through_target`. -/
def instrlist_set_fall_through_target (bb : instrlist_t) (pc : Nat) : instrlist_t :=
  { bb with fall_through := pc }

/-- The function `optimize`: its body is empty. -/
def optimize (h : Heap) (bb : instrlist_t) : Option (Heap × instrlist_t) := some (h, bb)

/-- The function `writeIntToBuf`; `written` is the bytes between `buf` and the write
pointer, and the result the bytes up to the returned pointer. -/
def writeIntToBuf (written : List Nat) (value : Int) : List Nat :=
  written ++ le32 (intBits value)

/-- The function `writePtrToBuf`. -/
def writePtrToBuf (written : List Nat) (value : Nat) : List Nat :=
  written ++ le64 (value % 18446744073709551616)

/-- The loop `for (int s = 0; s < toSend->iData.numSrc; s++)` of the patch encoder, with
`k` iterations left; `none` is a read of `dirtySrc[s]` or `src[s]` outside its array. -/
def writeSrcs (toSend : instr_t) : Nat → Nat → List Nat → Option (List Nat)
  | 0, _, bufWrite => some bufWrite
  | k + 1, s, bufWrite =>
    match toSend.dirtySrc[s]? with
    | none => none
    | some d =>
      let bufWrite := writeIntToBuf bufWrite d
      if d ≠ 0 then
        match toSend.src[s]? with
        | none => none
        | some o =>
          let bufWrite := writeIntToBuf bufWrite o.type
          let bufWrite := writePtrToBuf bufWrite (longBits o.longParam)
          let bufWrite := writeIntToBuf bufWrite o.p1
          let bufWrite := writeIntToBuf bufWrite o.p2
          writeSrcs toSend k (s + 1) bufWrite
      else writeSrcs toSend k (s + 1) bufWrite

/-- The body of the sending loop of `main` for the node `toSend`: the bytes of its patch
entry, `buf[0 .. bufWrite - buf)`. -/
def encodePatch (toSend : instr_t) : Option (List Nat) :=
  let bufWrite := writeIntToBuf [] toSend.origIndex
  let bufWrite := writeIntToBuf bufWrite toSend.dirty
  if toSend.dirty ≠ 0 then
    let bufWrite := writeIntToBuf bufWrite toSend.dirtyInst
    let bufWrite :=
      if toSend.dirtyInst ≠ 0 then
        writeIntToBuf (writePtrToBuf bufWrite toSend.iData.app_pc) toSend.iData.opcode
      else bufWrite
    writeSrcs toSend toSend.iData.numSrc.toNat 0 bufWrite
  else some bufWrite

/-- The loop `while (toSend != NULL)` of `main`: the patch entries written, in order.
`fuel` bounds the number of nodes visited. -/
def sendLoop (h : Heap) : Nat → Option Nat → Option (List (List Nat))
  | 0, _ => none
  | _ + 1, none => some []
  | fuel + 1, some p =>
    match h[p]? with
    | none => none
    | some toSend =>
      match encodePatch toSend with
      | none => none
      | some msg =>
        match sendLoop h fuel toSend.next with
        | none => none
        | some msgs => some (msg :: msgs)

/-- Everything `main` writes after `optimize` returns: the patch entries, the sentinel
entry `-1`, and the fall-through address.  (The acknowledgments read in between land in
the buffer and are overwritten without being looked at.) -/
def sendPatches (fuel : Nat) (h : Heap) (bb : instrlist_t) : Option (List (List Nat)) :=
  match sendLoop h fuel bb.first with
  | none => none
  | some msgs => some (msgs ++ [writeIntToBuf [] (-1), writePtrToBuf [] bb.fall_through])

/-- The loops `for (op = 0; op < n; op++) flags[op] = 0`, with `k` iterations left;
`none` is a store outside the `int[8]` array. -/
def clearFlags : Nat → Nat → List Int → Option (List Int)
  | 0, _, flags => some flags
  | k + 1, op, flags =>
    if op < flags.length then clearFlags k (op + 1) (flags.set op 0) else none

/-- The three `memcpy`s that take an instruction record out of the buffer: the header, then
`numSrc` operands, then `numDst` operands.  A negative count makes the allocation size
wrap around and the copy fail. -/
def recvRecord (buf : List Nat) :
    Option (instr_data_t × List instr_opnd_t × List instr_opnd_t) :=
  match readData buf with
  | none => none
  | some (iData, oData) =>
    if iData.numSrc < 0 ∨ iData.numDst < 0 then none
    else
      match readOpnds iData.numSrc.toNat oData with
      | none => none
      | some (src, oData1) =>
        match readOpnds iData.numDst.toNat oData1 with
        | none => none
        | some (dst, _) => some (iData, src, dst)

/-- The node `main` builds from the record in `buf` as the `j`-th of a block; `fresh` is
the content of the memory `instr_create` allocated. -/
def recvInstr (fresh : instr_t) (buf : List Nat) (j : Int) : Option instr_t :=
  let newInst := instr_create fresh
  match recvRecord buf with
  | none => none
  | some (iData, src, dst) =>
    match clearFlags iData.numSrc.toNat 0 newInst.dirtySrc with
    | none => none
    | some dirtySrc =>
      match clearFlags iData.numDst.toNat 0 newInst.dirtyDst with
      | none => none
      | some dirtyDst =>
        some { newInst with
          iData := iData
          src := src
          dst := dst
          dirtySrc := dirtySrc
          dirtyDst := dirtyDst
          dirty := 0
          dirtyInst := 0
          origIndex := j }

/-- The loop `for (int j = 0; j < numInstrs; j++)` of `main`, with `k` iterations left:
`reads` are the buffer contents after each `busy_read_loop`, `fresh j` the memory the
`j`-th `instr_create` obtains. -/
def receiveLoop (fresh : Nat → instr_t) :
    Nat → Nat → List (List Nat) → Heap → instrlist_t → Option (Heap × instrlist_t)
  | 0, _, _, h, bb => some (h, bb)
  | _ + 1, _, [], _, _ => none
  | k + 1, j, buf :: reads, h, bb =>
    match recvInstr (fresh j) buf j with
    | none => none
    | some newInst =>
      match instrlist_append (alloc h newInst).1 bb (alloc h newInst).2 with
      | none => none
      | some (h1, bb1) => receiveLoop fresh k (j + 1) reads h1 bb1

/-- The nodes visited by `instrlist_first_app` / `instr_get_next_app` from `current` until
`NULL`, in order; `fuel` bounds the number of steps. -/
def nodesFrom (h : Heap) : Nat → Option Nat → Option (List Nat)
  | 0, _ => none
  | _ + 1, none => some []
  | fuel + 1, some p =>
    match h[p]? with
    | none => none
    | some n =>
      match nodesFrom h fuel n.next with
      | none => none
      | some ps => some (p :: ps)

/-- The nodes `ps`, in this order, are what the `next` pointers lead through from `cur`
to `NULL`, each node pointing back to its predecessor (the first one to `prev`). -/
def linked (h : Heap) : Option Nat → Option Nat → List Nat → Prop
  | _, cur, [] => cur = none
  | prev, cur, p :: ps =>
    cur = some p ∧
      match h[p]? with
      | none => False
      | some n => n.prev = prev ∧ linked h (some p) n.next ps

/-- A well-formed list with the nodes `ps`: `first` starts the chain, `last` is its final
node, and no node occurs twice. -/
def isList (h : Heap) (ilist : instrlist_t) (ps : List Nat) : Prop :=
  linked h none ilist.first ps ∧ ilist.last = ps.getLast? ∧ ps.Nodup

/-- The node has the shape the struct declares: eight flags per side, operand counts
within them, and operand arrays of the counted sizes. -/
def instr_t.shaped (n : instr_t) : Prop :=
  n.dirtySrc.length = 8 ∧ n.dirtyDst.length = 8 ∧
  0 ≤ n.iData.numSrc ∧ n.iData.numSrc ≤ 8 ∧ 0 ≤ n.iData.numDst ∧ n.iData.numDst ≤ 8 ∧
  n.src.length = n.iData.numSrc.toNat ∧ n.dst.length = n.iData.numDst.toNat

instance (n : instr_t) : Decidable n.shaped := by
  unfold instr_t.shaped; infer_instance

/-- Whether `linked` holds can be computed. -/
def linked.decide (h : Heap) : (prev cur : Option Nat) → (ps : List Nat) →
    Decidable (linked h prev cur ps)
  | _, cur, [] => by unfold linked; infer_instance
  | prev, cur, p :: ps => by
    unfold linked
    cases h[p]? with
    | none => exact isFalse (fun hh => hh.2)
    | some n =>
      have := linked.decide h (some p) n.next ps
      exact inferInstanceAs (Decidable (cur = some p ∧ n.prev = prev ∧ linked h (some p) n.next ps))

instance (h : Heap) (prev cur : Option Nat) (ps : List Nat) : Decidable (linked h prev cur ps) :=
  linked.decide h prev cur ps

instance (h : Heap) (ilist : instrlist_t) (ps : List Nat) : Decidable (isList h ilist ps) := by
  unfold isList; infer_instance

/-- The node without its links. -/
def instr_t.payload (n : instr_t) : instr_t := { n with next := none, prev := none }

/-- The node holds the record `r` as the `j`-th of its block: header and operands are the
record's, `origIndex` is `j`, and `dirty`, `dirtyInst` and the flags below the operand
counts are clear. -/
def instr_t.receivedAs (n : instr_t)
    (r : instr_data_t × List instr_opnd_t × List instr_opnd_t) (j : Int) : Prop :=
  n.iData = r.1 ∧ n.src = r.2.1 ∧ n.dst = r.2.2 ∧ n.origIndex = j ∧ n.dirty = 0 ∧
  n.dirtyInst = 0 ∧ n.shaped ∧
  (∀ s : Nat, (s : Int) < n.iData.numSrc → n.dirtySrc[s]? = some 0) ∧
  (∀ s : Nat, (s : Int) < n.iData.numDst → n.dirtyDst[s]? = some 0)

/-- The bytes the encoder's source loop appends for the flags `ds` of the operands `os`:
each flag, followed by the twenty bytes of the operand when the flag is set. -/
def srcFlagBytes : List Int → List instr_opnd_t → List Nat
  | d :: ds, o :: os =>
    le32 (intBits d) ++
      ((if d ≠ 0 then
          le32 (intBits o.type) ++ (le64 (longBits o.longParam) ++
            (le32 (intBits o.p1) ++ le32 (intBits o.p2)))
        else []) ++ srcFlagBytes ds os)
  | _, _ => []

/-- The bytes of the patch entry of a node behind its index, written out: `dirty`, and for
a dirty node `dirtyInst`, address and opcode when that is set, and the flags of the
`numSrc` sources with the operands of the flagged ones. -/
def patchTail (n : instr_t) : List Nat :=
  le32 (intBits n.dirty) ++
    (if n.dirty ≠ 0 then
      le32 (intBits n.dirtyInst) ++
        ((if n.dirtyInst ≠ 0 then
            le64 (n.iData.app_pc % 18446744073709551616) ++ le32 (intBits n.iData.opcode)
          else []) ++
          srcFlagBytes (n.dirtySrc.take n.iData.numSrc.toNat) n.src)
    else [])

/-- The bytes of the patch entry of a node, written out: the index `origIndex`, then
`patchTail`. -/
def patchBytes (n : instr_t) : List Nat :=
  le32 (intBits n.origIndex) ++ patchTail n

/-- All fields of the node are representable in their C types. -/
def instr_t.inRange (n : instr_t) : Prop :=
  isInt32 n.origIndex ∧ isInt32 n.dirty ∧ isInt32 n.dirtyInst ∧ n.iData.inRange ∧
  (∀ o ∈ n.src, o.inRange) ∧ (∀ o ∈ n.dst, o.inRange) ∧
  (∀ d ∈ n.dirtySrc, isInt32 d) ∧ (∀ d ∈ n.dirtyDst, isInt32 d)

instance (n : instr_t) : Decidable n.inRange := by
  unfold instr_t.inRange; infer_instance

/-- A call the optimizer can make on the nodes and the list of the block it was given. -/
inductive Edit
  | clone (orig : Nat)
  | append (instr : Nat)
  | postinsert (anchor instr : Nat)
  | replace (oldinst newinst : Nat)
  | set_translation (instr pc : Nat)
  | set_opcode (instr : Nat) (opcode : Int)
  | set_branch_target_pc (instr pc : Nat)
deriving DecidableEq

/-- The effect of one call on the heap and the list.  (The pointer `instr_clone` returns is
the next free address, `h.length`.) -/
def applyEdit (fuel : Nat) (h : Heap) (bb : instrlist_t) : Edit → Option (Heap × instrlist_t)
  | .clone orig =>
    match instr_clone h orig with
    | none => none
    | some (h1, _) => some (h1, bb)
  | .append instr => instrlist_append h bb instr
  | .postinsert anchor instr => instrlist_postinsert fuel h bb anchor instr
  | .replace oldinst newinst =>
    match instrlist_replace h bb oldinst newinst with
    | none => none
    | some (h1, bb1, _) => some (h1, bb1)
  | .set_translation instr pc =>
    match updateNode h instr (fun n => instr_set_translation n pc) with
    | none => none
    | some h1 => some (h1, bb)
  | .set_opcode instr opcode =>
    match updateNode h instr (fun n => instr_set_opcode n opcode) with
    | none => none
    | some h1 => some (h1, bb)
  | .set_branch_target_pc instr pc =>
    match h[instr]? with
    | none => none
    | some n =>
      match instr_set_branch_target_pc n pc with
      | none => none
      | some n1 => some (h.set instr n1, bb)

/-- The effect of a sequence of calls. -/
def applyEdits (fuel : Nat) : List Edit → Heap → instrlist_t → Option (Heap × instrlist_t)
  | [], h, bb => some (h, bb)
  | e :: es, h, bb =>
    match applyEdit fuel h bb e with
    | none => none
    | some (h1, bb1) => applyEdits fuel es h1 bb1

/-- Bookkeeping beside the heap: for every address, the arrival position of the record the
node there was received as or cloned from (`none` for a node that descends from no record
of the block).  Only `instr_clone` adds an address; the new node inherits the entry of the
node it copies. -/
def traceOrigin : List Edit → List (Option Int) → List (Option Int)
  | [], origin => origin
  | .clone orig :: es, origin => traceOrigin es (origin ++ [(origin[orig]?).join])
  | _ :: es, origin => traceOrigin es origin

/-- The bookkeeping right after a block of `N` records has been received on top of the
heap `h`: the node at `h.length + j` was received as record `j`. -/
def receivedOrigin (h : Heap) (N : Nat) : List (Option Int) :=
  List.replicate h.length (none : Option Int) ++
    List.map (fun j : Nat => (some (j : Int) : Option Int)) (List.range N)

/-- Every node of `h` is still present in `h1` with the same `origIndex`, and no address
was added. -/
def stable (h h1 : Heap) : Prop :=
  h1.length = h.length ∧
    ∀ (q : Nat) (n : instr_t), h[q]? = some n → ∃ n1, h1[q]? = some n1 ∧ n1.origIndex = n.origIndex

/-- The bookkeeping `origin` describes the heap `h`: it has an entry per address, and a
node whose entry is `j` has `origIndex = j`. -/
def tracked (h : Heap) (origin : List (Option Int)) : Prop :=
  origin.length = h.length ∧
    ∀ (p : Nat) (j : Int), origin[p]? = some (some j) → ∃ n, h[p]? = some n ∧ n.origIndex = j

/-- A call the optimizer can make on a single node. -/
inductive NodeEdit
  | clone
  | set_translation (pc : Nat)
  | set_opcode (opcode : Int)
  | set_branch_target_pc (pc : Nat)
deriving DecidableEq

/-- The arguments of the call are representable in their C types. -/
def NodeEdit.inRange : NodeEdit → Prop
  | .clone => True
  | .set_translation pc => isPtr pc
  | .set_opcode opcode => isInt32 opcode
  | .set_branch_target_pc pc => isPtr pc

/-- The node after one call (for `clone`, the copy). -/
def applyNodeEdit (n : instr_t) : NodeEdit → Option instr_t
  | .clone => cloneNode n
  | .set_translation pc => some (instr_set_translation n pc)
  | .set_opcode opcode => some (instr_set_opcode n opcode)
  | .set_branch_target_pc pc => instr_set_branch_target_pc n pc

/-- The node after a sequence of calls. -/
def applyNodeEdits : List NodeEdit → instr_t → Option instr_t
  | [], n => some n
  | e :: es, n =>
    match applyNodeEdit n e with
    | none => none
    | some n1 => applyNodeEdits es n1

/-- What holds of a node that was received as the record with header `d` at position `j` and
then changed only by the calls of `NodeEdit`: it keeps its shape, index and source count;
`dirtyInst` implies `dirty`; with `dirtyInst` clear, address and opcode are the received
ones; the flags of the sources behind the first are clear; and a set flag of the first
source implies `dirty` and a first source of type 7. -/
def instr_t.editedFrom (n : instr_t) (d : instr_data_t) (j : Int) : Prop :=
  n.shaped ∧ n.inRange ∧ n.origIndex = j ∧ n.iData.numSrc = d.numSrc ∧
  (n.dirtyInst ≠ 0 → n.dirty ≠ 0) ∧
  (n.dirtyInst = 0 → n.iData.app_pc = d.app_pc ∧ n.iData.opcode = d.opcode) ∧
  (∀ s : Nat, 1 ≤ s → (s : Int) < n.iData.numSrc → n.dirtySrc[s]? = some 0) ∧
  (0 < n.iData.numSrc → n.dirtySrc[0]? ≠ some 0 →
    n.dirty ≠ 0 ∧ ∃ s0, n.src[0]? = some s0 ∧ s0.type = 7)

/-- The number of sources of the node whose flag is set. -/
def dirtySources (n : instr_t) : Nat :=
  ((n.dirtySrc.take n.iData.numSrc.toNat).filter (fun d => d ≠ 0)).length

/-- The dirty flags of the node cover its edits with respect to the record `r` it was
received as: `dirtyInst` or the flag of one of its sources set implies `dirty` set, and
with `dirty` clear the node still has the address, the opcode and the source operands of
the record. -/
def instr_t.flagsCover (n : instr_t)
    (r : instr_data_t × List instr_opnd_t × List instr_opnd_t) : Prop :=
  (n.dirtyInst ≠ 0 → n.dirty ≠ 0) ∧
  (∀ s : Nat, (s : Int) < n.iData.numSrc → n.dirtySrc[s]? ≠ some 0 → n.dirty ≠ 0) ∧
  (n.dirty = 0 →
    n.iData.app_pc = r.1.app_pc ∧ n.iData.opcode = r.1.opcode ∧ n.src = r.2.1)

/-- One block cycle of `main` after the announced count `numInstrs` has been read: build
the list from the records, run the optimizer, send the patches.  The optimizer is a
parameter; the program links `optimize`. -/
def serveBlock (opt : Heap → instrlist_t → Option (Heap × instrlist_t)) (fuel : Nat)
    (fresh : Nat → instr_t) (h : Heap) (numInstrs : Int) (reads : List (List Nat)) :
    Option (List (List Nat)) :=
  match receiveLoop fresh numInstrs.toNat 0 reads h instrlist_create with
  | none => none
  | some (h1, bb) =>
    match opt h1 bb with
    | none => none
    | some (h2, bb2) => sendPatches fuel h2 bb2

/-- The body of `if (bytesRead > 0)` in `main`, for the announce message in `buf`: the count
`-1` closes the connection and nothing but the acknowledgment is written; any other count
starts a block cycle. -/
def serveCycle (opt : Heap → instrlist_t → Option (Heap × instrlist_t)) (fuel : Nat)
    (fresh : Nat → instr_t) (h : Heap) (buf : List Nat) (reads : List (List Nat)) :
    Option (List (List Nat)) :=
  match readInt buf with
  | none => none
  | some (numInstrs, _) =>
    if numInstrs = -1 then some []
    else serveBlock opt fuel fresh h numInstrs reads

/-! ### The polling loop of `main` -/

/-- What one `read(childReadPipes[i], buf, 2000)` of the polling loop comes back with: `-1`
with `errno` `EAGAIN` or `EWOULDBLOCK`; `-1` with another `errno`; `0`; or a positive
count, `numInstrs` being the `int` then found at the start of `buf`. -/
inductive Polled
  | wouldBlock
  | failed
  | nothing
  | message (numInstrs : Int)
deriving DecidableEq

/-- What the polling loop does towards child `i`: a read; the write of `sizeof(int)` bytes
that answers an announcement; the block cycle that follows it for a count other than `-1`. -/
inductive Event
  | read (i : Nat)
  | ack (i : Nat)
  | block (i : Nat) (numInstrs : Int)
deriving DecidableEq

/-- The variables `isRunning` and `childrenLeft` of `main`, and what the loop has done so
far. -/
structure Reactor where
  isRunning : List Int
  childrenLeft : Int
  events : List Event
deriving DecidableEq

/-- The state in which `main` enters `while (1)`. -/
def Reactor.start (numChildren : Nat) : Reactor :=
  { isRunning := List.replicate numChildren 1, childrenLeft := numChildren, events := [] }

/-- The body of `for (int i = 0; i < numChildren; i++)` for child `i`; `r` is what the read
comes back with if one is made.  `Except.error` is `return 1`.  The block cycle is taken to
complete; it touches neither `isRunning` nor `childrenLeft`. -/
def pollChild (st : Reactor) (i : Nat) (r : Polled) : Except Reactor Reactor :=
  match st.isRunning[i]? with
  | none => .ok st
  | some running =>
    if running = 0 then .ok st
    else
      let st1 : Reactor := { st with events := st.events ++ [Event.read i] }
      match r with
      | .wouldBlock => .ok st1
      | .failed => .error st1
      | .nothing => .ok st1
      | .message numInstrs =>
        if numInstrs = -1 then
          .ok { isRunning := st1.isRunning.set i 0, childrenLeft := st1.childrenLeft - 1,
                events := st1.events ++ [Event.ack i] }
        else
          .ok { st1 with events := st1.events ++ [Event.ack i, Event.block i numInstrs] }

/-- The loop `for (int i = 0; i < numChildren; i++)` with `k` iterations left; `reads i` is
what a read from child `i` comes back with in this pass. -/
def pollAll (reads : Nat → Polled) : Nat → Nat → Reactor → Except Reactor Reactor
  | 0, _, st => .ok st
  | k + 1, i, st =>
    match pollChild st i (reads i) with
    | .error st1 => .error st1
    | .ok st1 => pollAll reads k (i + 1) st1

/-- How `main` leaves `while (1)`: by `break` (and then `return 0`), or by `return 1`. -/
inductive Outcome
  | finished (st : Reactor)
  | readFailed (st : Reactor)
deriving DecidableEq

/-- The loop `while (1)` of `main`: `reads t i` is what a read from child `i` comes back
with in pass `t`; `fuel` bounds the number of passes. -/
def reactorLoop (reads : Nat → Nat → Polled) : Nat → Nat → Reactor → Option Outcome
  | 0, _, _ => none
  | fuel + 1, t, st =>
    match pollAll (reads t) st.isRunning.length 0 st with
    | .error st1 => some (.readFailed st1)
    | .ok st1 =>
      if st1.childrenLeft = 0 then some (.finished st1)
      else reactorLoop reads fuel (t + 1) st1

/-- The number of children whose `isRunning` flag is set. -/
def running (flags : List Int) : Nat := (flags.filter (fun f => f ≠ 0)).length

/-- The counter `childrenLeft` is the number of children whose `isRunning` flag is set. -/
def Reactor.counted (st : Reactor) : Prop := st.childrenLeft = (running st.isRunning : Int)

instance (st : Reactor) : Decidable st.counted := by
  unfold Reactor.counted; infer_instance

end parentProgram

/-! ### The nodes as they lie in memory

In `parentProgram.instr_t` the operand arrays are part of the node.  In the C struct they
are pointers to arrays allocated apart from it.  This section keeps the pointers, so that
it can be told which store reaches which node. -/

namespace parentProgram.mem

/-- The C struct `Instr` with `src` and `dst` as the pointers they are: the addresses of
two operand arrays. -/
structure Instr where
  iData : instr_data_t
  src : Nat
  dst : Nat
  origIndex : Int
  dirty : Int
  dirtyInst : Int
  dirtySrc : List Int
  dirtyDst : List Int
  next : Option Nat
  prev : Option Nat
deriving DecidableEq

/-- The memory of the process: the nodes and the operand arrays allocated so far, each
addressed by its position; `malloc` adds at the end. -/
structure Memory where
  nodes : List Instr
  arrays : List (List instr_opnd_t)
deriving DecidableEq

/-- The node at `p` together with the arrays its pointers lead to; `none` when `p` or one
of the two pointers leads nowhere. -/
def view (m : Memory) (p : Nat) : Option instr_t :=
  match m.nodes[p]? with
  | none => none
  | some n =>
    match m.arrays[n.src]?, m.arrays[n.dst]? with
    | some s, some d =>
      some { iData := n.iData, src := s, dst := d, origIndex := n.origIndex, dirty := n.dirty,
             dirtyInst := n.dirtyInst, dirtySrc := n.dirtySrc, dirtyDst := n.dirtyDst,
             next := n.next, prev := n.prev }
    | _, _ => none

/-- The function `instr_clone`: the struct is copied as a whole, the links are cleared,
two new arrays are allocated for `numSrc` and `numDst` operands and filled from the arrays
of the original.  Returns the memory and the address of the copy. -/
def instr_clone (m : Memory) (orig : Nat) : Option (Memory × Nat) :=
  match m.nodes[orig]? with
  | none => none
  | some o =>
    let result : Instr :=
      { o with next := none, prev := none, src := m.arrays.length, dst := m.arrays.length + 1 }
    match m.arrays[o.src]?, m.arrays[o.dst]? with
    | some s, some d =>
      match copyOpnds result.iData.numSrc s, copyOpnds result.iData.numDst d with
      | some s1, some d1 =>
        some ({ nodes := m.nodes ++ [result], arrays := m.arrays ++ [s1, d1] }, m.nodes.length)
      | _, _ => none
    | _, _ => none

/-- The function `instr_set_translation`. -/
def instr_set_translation (m : Memory) (instr pc : Nat) : Option Memory :=
  match m.nodes[instr]? with
  | none => none
  | some n =>
    let n1 : Instr := { n with iData := { n.iData with app_pc := pc }, dirty := 1, dirtyInst := 1 }
    some { m with nodes := m.nodes.set instr n1 }

/-- The function `instr_set_opcode`. -/
def instr_set_opcode (m : Memory) (instr : Nat) (opcode : Int) : Option Memory :=
  match m.nodes[instr]? with
  | none => none
  | some n =>
    let n1 : Instr :=
      { n with iData := { n.iData with opcode := opcode }, dirty := 1, dirtyInst := 1 }
    some { m with nodes := m.nodes.set instr n1 }

/-- The function `instr_is_cond_branch`. -/
def instr_is_cond_branch (instr : Instr) : Bool :=
  let op := instr.iData.opcode
  if 152 ≤ op ∧ op ≤ 167 then true
  else if 26 ≤ op ∧ op ≤ 41 then true
  else false

/-- The function `instr_set_branch_target_pc`: the store to `src[0].longParam` goes through
the pointer `src`. -/
def instr_set_branch_target_pc (m : Memory) (instr pc : Nat) : Option Memory :=
  match m.nodes[instr]? with
  | none => none
  | some n =>
    if n.iData.numSrc = 0 then some m
    else
      match m.arrays[n.src]? with
      | none => none
      | some a =>
        match a[0]? with
        | none => none
        | some s0 =>
          if s0.type ≠ 7 then some m
          else if !instr_is_cond_branch n then some m
          else if 0 < n.dirtySrc.length then
            let n1 : Instr := { n with dirty := 1, dirtySrc := n.dirtySrc.set 0 1 }
            some { nodes := m.nodes.set instr n1
                   arrays := m.arrays.set n.src (a.set 0 { s0 with longParam := toInt64 pc }) }
          else none

/-- The memory after one call on the node at `p`. -/
def applyNodeEdit (m : Memory) (p : Nat) : NodeEdit → Option Memory
  | .clone =>
    match instr_clone m p with
    | none => none
    | some (m1, _) => some m1
  | .set_translation pc => instr_set_translation m p pc
  | .set_opcode opcode => instr_set_opcode m p opcode
  | .set_branch_target_pc pc => instr_set_branch_target_pc m p pc

end parentProgram.mem

/-! ## The instrumentation client (`childProgramClient.c`) -/

namespace childProgramClient

/-! ### The DynamoRIO interface the client is written against

The client includes `dr_api.h`; the operand, instruction and instruction-list types and the
functions on them belong to DynamoRIO.  They are represented by what the client can observe
through the calls it makes. -/

/-- A DynamoRIO operand `opnd_t`: the answers to the queries `parse_opnd` puts to it. -/
structure opnd_t where
  isNull : Bool
  isReg : Bool
  reg : Int
  isRegPart : Bool
  isImmedInt : Bool
  immedInt : Int
  isImmedInt64 : Bool
  immedInt64 : Int
  isImmedFloat : Bool
  isNearPc : Bool
  pc : Nat
  isFarPc : Bool
  isAbsAddr : Bool
deriving DecidableEq

/-- The operand `opnd_create_pc(pc)`: a direct near address and nothing else. -/
def opnd_create_pc (pc : Nat) : opnd_t :=
  { isNull := false, isReg := false, reg := 0, isRegPart := false, isImmedInt := false,
    immedInt := 0, isImmedInt64 := false, immedInt64 := 0, isImmedFloat := false,
    isNearPc := true, pc := pc, isFarPc := false, isAbsAddr := false }

/-- A DynamoRIO instruction `instr_t`: the address `instr_get_app_pc` reports (set by
`instr_set_translation`), the opcode, the operands, and the encoded length. -/
structure instr_t where
  app_pc : Nat
  opcode : Int
  srcs : List opnd_t
  dsts : List opnd_t
  length : Int
deriving DecidableEq

/-- A DynamoRIO `instrlist_t`: the application instructions in order, and the fall-through
target. -/
structure instrlist_t where
  instrs : List instr_t
  fall_through : Nat
deriving DecidableEq

/-- The call `instr_num_srcs`. -/
def instr_num_srcs (instr : instr_t) : Int := instr.srcs.length

/-- The call `instr_num_dsts`. -/
def instr_num_dsts (instr : instr_t) : Int := instr.dsts.length

/-- The call `instr_clone`: a copy that shares nothing with the original. -/
def instr_clone (instr : instr_t) : instr_t := instr

/-- The call `instr_set_translation`. -/
def instr_set_translation (instr : instr_t) (pc : Nat) : instr_t := { instr with app_pc := pc }

/-- The call `instr_set_opcode`. -/
def instr_set_opcode (instr : instr_t) (opcode : Int) : instr_t := { instr with opcode := opcode }

/-- The call `instr_set_src(instr, pos, opnd)`; DynamoRIO requires `pos` to be a source
position of the instruction. -/
def instr_set_src (instr : instr_t) (pos : Int) (opnd : opnd_t) : Option instr_t :=
  if 0 ≤ pos ∧ pos < instr_num_srcs instr then
    some { instr with srcs := instr.srcs.set pos.toNat opnd }
  else none

/-- The instruction reached from `instrlist_first_app` by `n` calls of
`instr_get_next_app`; `none` when the walk arrives at `NULL`. -/
def nthApp : List instr_t → Nat → Option instr_t
  | [], _ => none
  | i :: _, 0 => some i
  | _ :: rest, n + 1 => nthApp rest n

/-- The 64-bit immediate of the operand is representable as an `int64_t`. -/
def opnd_t.inRange (o : opnd_t) : Prop := isInt64 o.immedInt64

instance (o : opnd_t) : Decidable o.inRange := by
  unfold opnd_t.inRange; infer_instance

/-- Address, opcode and length of the instruction are representable in their C types, and so
are its operands. -/
def instr_t.inRange (i : instr_t) : Prop :=
  isPtr i.app_pc ∧ isInt32 i.opcode ∧ isInt32 i.length ∧
    (∀ o ∈ i.srcs, o.inRange) ∧ (∀ o ∈ i.dsts, o.inRange)

instance (i : instr_t) : Decidable i.inRange := by
  unfold instr_t.inRange; infer_instance

/-! ### The client's own code -/

/-- The assignment of a wider integer to an `int` field. -/
def toInt (v : Int) : Int := toInt32 (intBits v)

/-- The function `parse_opnd(dest, src)`: `dest` is the record as the buffer held it, and
only the fields assigned on the branch taken change. -/
def parse_opnd (dest : instr_opnd_t) (src : opnd_t) : instr_opnd_t :=
  if src.isNull then { dest with type := 0 }
  else if src.isReg then { dest with type := 1, p1 := toInt src.reg }
  else if src.isRegPart then { dest with type := 2 }
  else if src.isImmedInt then { dest with type := 4, p1 := toInt src.immedInt }
  else if src.isImmedInt64 then { dest with type := 5, longParam := src.immedInt64 }
  else if src.isImmedFloat then { dest with type := 6 }
  else if src.isNearPc then { dest with type := 7, longParam := toInt64 src.pc }
  else if src.isFarPc then { dest with type := 8 }
  else if src.isAbsAddr then { dest with type := 9 }
  else { dest with type := -1 }

/-- The function `replace_src`. -/
def replace_src (instr : instr_t) (index : Int) (type : Int) (longParam : Int) (_p1 _p2 : Int) :
    Option instr_t :=
  if type ≠ 7 then some instr
  else instr_set_src instr index (opnd_create_pc (longBits longParam))

/-- The operand records the loops over `instr_get_src` (resp. `instr_get_dst`) leave in the
buffer slots `slot, slot + 1, ...`; `stale k` is what slot `k` held before, padding second. -/
def parseOpnds (stale : Nat → instr_opnd_t × Nat) : Nat → List opnd_t → List instr_opnd_t
  | _, [] => []
  | slot, o :: ops => parse_opnd (stale slot).1 o :: parseOpnds stale (slot + 1) ops

/-- The bytes of the buffer slots `slot, slot + 1, ...` after the same loops. -/
def slotBytes (stale : Nat → instr_opnd_t × Nat) : Nat → List opnd_t → List Nat
  | _, [] => []
  | slot, o :: ops =>
    opndBytes (stale slot).2 (parse_opnd (stale slot).1 o) ++ slotBytes stale (slot + 1) ops

/-- The header `event_instruction_change` writes at the start of the buffer for `instr`. -/
def headerOf (instr : instr_t) : instr_data_t :=
  { app_pc := instr.app_pc, opcode := instr.opcode, numSrc := instr_num_srcs instr,
    numDst := instr_num_dsts instr, length := instr.length }

/-- The message `event_instruction_change` writes for `instr`: the first
`sizeof(instr_data_t) + totalOps * sizeof(instr_opnd_t)` bytes of the buffer. -/
def encodeInstr (stale : Nat → instr_opnd_t × Nat) (instr : instr_t) : List Nat :=
  dataBytes (headerOf instr) ++ slotBytes stale 0 instr.srcs ++
    slotBytes stale instr.srcs.length instr.dsts

/-- The messages of the sending loop over the block; `stale j` is the state of the operand
slots when the `j`-th instruction is encoded. -/
def encodeInstrs (stale : Nat → Nat → instr_opnd_t × Nat) : Nat → List instr_t → List (List Nat)
  | _, [] => []
  | j, instr :: rest => encodeInstr (stale j) instr :: encodeInstrs stale (j + 1) rest

/-- The record in the buffer when the message for `instr` is written: header, source
operand records, destination operand records. -/
def recordOf (stale : Nat → instr_opnd_t × Nat) (instr : instr_t) :
    instr_data_t × List instr_opnd_t × List instr_opnd_t :=
  (headerOf instr, parseOpnds stale 0 instr.srcs, parseOpnds stale instr.srcs.length instr.dsts)

/-- The records of the messages `encodeInstrs` produces. -/
def recordsOf (stale : Nat → Nat → instr_opnd_t × Nat) :
    Nat → List instr_t → List (instr_data_t × List instr_opnd_t × List instr_opnd_t)
  | _, [] => []
  | j, instr :: rest => recordOf (stale j) instr :: recordsOf stale (j + 1) rest

/-- What the patch decoder loaded for one source: the flag, and the operand record that
follows a set flag. -/
structure SrcRead where
  temp : Int
  opnd : Option instr_opnd_t
deriving DecidableEq

/-- What the patch decoder loaded from one patch entry. -/
structure PatchRead where
  baseIndex : Int
  dirty : Int
  instDirty : Option Int
  pcOpcode : Option (Nat × Int)
  srcs : List SrcRead
deriving DecidableEq

/-- The four loads `type`, `longParam`, `p1`, `p2` the patch decoder makes for a flagged
source, each followed by the advance of the read pointer. -/
def readPatchOpnd (bufRead : List Nat) : Option (instr_opnd_t × List Nat) :=
  match readInt bufRead with
  | none => none
  | some (type, b1) =>
    match readLong b1 with
    | none => none
    | some (longParam, b2) =>
      match readInt b2 with
      | none => none
      | some (p1, b3) =>
        match readInt b3 with
        | none => none
        | some (p2, b4) =>
          some ({ type := type, longParam := longParam, p1 := p1, p2 := p2 }, b4)

/-- The loop `for (int s = 0; s < instr_num_srcs(newInst); s++)` of the patch decoder, with
`k` iterations left (`instr_set_src` leaves the number of sources as it is).  Returns the
instruction, the values loaded, and the read pointer. -/
def patchSrcs : Nat → Int → instr_t → List Nat → Option (instr_t × List SrcRead × List Nat)
  | 0, _, newInst, bufRead => some (newInst, [], bufRead)
  | k + 1, s, newInst, bufRead =>
    match readInt bufRead with
    | none => none
    | some (temp, b1) =>
      if temp ≠ 0 then
        match readPatchOpnd b1 with
        | none => none
        | some (o, b5) =>
          match replace_src newInst s o.type o.longParam o.p1 o.p2 with
          | none => none
          | some newInst1 =>
            match patchSrcs k (s + 1) newInst1 b5 with
            | none => none
            | some (r, log, b) => some (r, { temp := temp, opnd := some o } :: log, b)
      else
        match patchSrcs k (s + 1) newInst b1 with
        | none => none
        | some (r, log, b) => some (r, { temp := temp, opnd := none } :: log, b)

/-- The instruction the decoder's source loop produces from `inst` when it reads, from
source `s` on, the flags `ds` with the operands `os`: a flagged source whose operand has
type 7 becomes the direct address of the operand's wide value. -/
def applySrcs : Nat → List Int → List instr_opnd_t → instr_t → instr_t
  | s, d :: ds, o :: os, inst =>
    applySrcs (s + 1) ds os
      (if d ≠ 0 ∧ o.type = 7 then
        { inst with srcs := inst.srcs.set s (opnd_create_pc (longBits o.longParam)) }
      else inst)
  | _, _, _, inst => inst

/-- What the decoder's source loop loads for the flags `ds` with the operands `os`. -/
def srcReads (ds : List Int) (os : List instr_opnd_t) : List SrcRead :=
  List.zipWith (fun d o => { temp := d, opnd := if d ≠ 0 then some o else none }) ds os

/-- The part of the body of `while (1)` that works on the clone `newInst`: apply the entry
that starts at `bufRead` (just behind the index `baseIndex`).  Returns the patched clone,
the values loaded, and the read pointer. -/
def applyEntry (newInst : instr_t) (baseIndex : Int) (bufRead : List Nat) :
    Option (instr_t × PatchRead × List Nat) :=
  match readInt bufRead with
  | none => none
  | some (temp, b1) =>
    if temp ≠ 0 then
      match readInt b1 with
      | none => none
      | some (temp1, b2) =>
        if temp1 ≠ 0 then
          match readPtr b2 with
          | none => none
          | some (pc, b3) =>
            match readInt b3 with
            | none => none
            | some (opcode, b4) =>
              let newInst := instr_set_opcode (instr_set_translation newInst pc) opcode
              match patchSrcs newInst.srcs.length 0 newInst b4 with
              | none => none
              | some (r, log, b) =>
                some (r, { baseIndex := baseIndex, dirty := temp, instDirty := some temp1,
                           pcOpcode := some (pc, opcode), srcs := log }, b)
        else
          match patchSrcs newInst.srcs.length 0 newInst b2 with
          | none => none
          | some (r, log, b) =>
            some (r, { baseIndex := baseIndex, dirty := temp, instDirty := some temp1,
                       pcOpcode := none, srcs := log }, b)
    else
      some (newInst, { baseIndex := baseIndex, dirty := temp, instDirty := none,
                       pcOpcode := none, srcs := [] }, b1)

/-- The index resolution of the patch loop: `baseInst = instrlist_first_app(bb)` followed by
`while (baseIndex > 0) { baseInst = instr_get_next_app(baseInst); baseIndex--; }`.  The
list holds the instructions from `baseInst` on (none left: `baseInst` is `NULL`), `steps`
counts the calls of `instr_get_next_app` made so far.  `none` is such a call on `NULL`. -/
def walkBase : List instr_t → Int → Nat → Option (List instr_t × Nat)
  | [], baseIndex, steps => if baseIndex > 0 then none else some ([], steps)
  | i :: rest, baseIndex, steps =>
    if baseIndex > 0 then walkBase rest (baseIndex - 1) (steps + 1) else some (i :: rest, steps)

/-- The instruction `instr_clone` is given after the walk; `none` when the walk failed or
ended at `NULL`. -/
def baseInstOf (bb : List instr_t) (baseIndex : Int) : Option instr_t :=
  match walkBase bb baseIndex 0 with
  | none => none
  | some (cur, _) => cur.head?

/-- One pass of the body of `while (1)` after the sentinel test: walk `baseIndex` steps
from the first instruction of the block (none for a negative index), clone the instruction
reached, and apply the entry to the clone. -/
def patchEntry (bb : List instr_t) (baseIndex : Int) (bufRead : List Nat) :
    Option (instr_t × PatchRead × List Nat) :=
  match nthApp bb baseIndex.toNat with
  | none => none
  | some baseInst => applyEntry (instr_clone baseInst) baseIndex bufRead

/-- The loop `while (1)` of `event_instruction_change`: `reads` are the buffer contents
after each `read`, `newInsts` the list built so far.  Returns the finished `newInsts` and
the reads not yet made. -/
def patchLoop (bb : List instr_t) :
    List (List Nat) → List instr_t → Option (List instr_t × List (List Nat))
  | [], _ => none
  | buf :: reads, newInsts =>
    match readInt buf with
    | none => none
    | some (baseIndex, bufRead) =>
      if baseIndex = -1 then some (newInsts, reads)
      else
        match patchEntry bb baseIndex bufRead with
        | none => none
        | some (newInst, _, _) => patchLoop bb reads (newInsts ++ [newInst])

/-- The call `instrlist_clear`. -/
def instrlist_clear (bb : instrlist_t) : instrlist_t := { bb with instrs := [] }

/-- The call `instrlist_append`. -/
def instrlist_append (bb : instrlist_t) (instr : instr_t) : instrlist_t :=
  { bb with instrs := bb.instrs ++ [instr] }

/-- The call `instrlist_set_fall_through_target`. -/
def instrlist_set_fall_through_target (bb : instrlist_t) (pc : Nat) : instrlist_t :=
  { bb with fall_through := pc }

/-- The loop `while (copyInst != NULL)` that refills the block with clones. -/
def copyBack : List instr_t → instrlist_t → instrlist_t
  | [], bb => bb
  | copyInst :: rest, bb => copyBack rest (instrlist_append bb (instr_clone copyInst))

/-- The second half of `event_instruction_change`, from `instrlist_create` on: apply the
patch entries up to the sentinel, read the fall-through address, and replace the block. -/
def applyPatches (bb : instrlist_t) (reads : List (List Nat)) : Option instrlist_t :=
  match patchLoop bb.instrs reads [] with
  | none => none
  | some (newInsts, reads1) =>
    match reads1 with
    | [] => none
    | buf :: _ =>
      match readPtr buf with
      | none => none
      | some (new_fallthrough, _) =>
        let bb1 := copyBack newInsts (instrlist_clear bb)
        if new_fallthrough ≠ 0 then
          some (instrlist_set_fall_through_target bb1 new_fallthrough)
        else some bb1

/-- The first half of `event_instruction_change`: the message announcing the count
(`write(writePipe, &numInstrs, sizeof(int))`) and one record per instruction.  The end
marker written after the last record is four bytes of whatever the buffer holds. -/
def sendBlock (stale : Nat → Nat → instr_opnd_t × Nat) (bb : instrlist_t) :
    List Nat × List (List Nat) :=
  (le32 (intBits bb.instrs.length), encodeInstrs stale 0 bb.instrs)

/-- The function `event_instruction_change`: the records it writes and the block it leaves.
`patchReads` are the buffer contents after each `read` of the patch phase; the
acknowledgments it reads and writes besides carry no information. -/
def event_instruction_change (for_trace enable : Bool) (stale : Nat → Nat → instr_opnd_t × Nat)
    (bb : instrlist_t) (patchReads : List (List Nat)) : Option (List (List Nat) × instrlist_t) :=
  if !for_trace || !enable then some ([], bb)
  else
    match applyPatches bb patchReads with
    | none => none
    | some bb1 => some ((sendBlock stale bb).2, bb1)

end childProgramClient

/-! ### The client's instructions as they lie in memory

In `childProgramClient` an instruction is a value.  In the program the block and the list
`newInsts` hold pointers to instructions DynamoRIO has allocated, and every call that
changes an instruction stores through such a pointer.  This section keeps the pointers, so
that it can be told which instruction a store of the patch loop reaches. -/

namespace childProgramClient.mem

/-- The instructions allocated so far: the pointer `p` denotes `h[p]`, and an allocation
extends the heap at its end. -/
abbrev Heap := List instr_t

/-- The call `instr_clone(drcontext, orig)`: a newly allocated copy of the instruction
`orig` points to, and its address.  `none` is a call on `NULL`. -/
def instr_clone (h : Heap) (orig : Option Nat) : Option (Heap × Nat) :=
  match orig with
  | none => none
  | some p =>
    match h[p]? with
    | none => none
    | some i => some (h ++ [childProgramClient.instr_clone i], h.length)

/-- The call `instr_set_translation(instr, pc)`. -/
def instr_set_translation (h : Heap) (instr pc : Nat) : Option Heap :=
  match h[instr]? with
  | none => none
  | some i => some (h.set instr (childProgramClient.instr_set_translation i pc))

/-- The call `instr_set_opcode(instr, opcode)`. -/
def instr_set_opcode (h : Heap) (instr : Nat) (opcode : Int) : Option Heap :=
  match h[instr]? with
  | none => none
  | some i => some (h.set instr (childProgramClient.instr_set_opcode i opcode))

/-- The call `instr_set_src(instr, pos, opnd)`. -/
def instr_set_src (h : Heap) (instr : Nat) (pos : Int) (opnd : opnd_t) : Option Heap :=
  match h[instr]? with
  | none => none
  | some i =>
    match childProgramClient.instr_set_src i pos opnd with
    | none => none
    | some i1 => some (h.set instr i1)

/-- The function `replace_src`. -/
def replace_src (h : Heap) (instr : Nat) (index : Int) (type : Int) (longParam : Int)
    (_p1 _p2 : Int) : Option Heap :=
  if type ≠ 7 then some h
  else instr_set_src h instr index (opnd_create_pc (longBits longParam))

/-- The loop `for (int s = 0; s < instr_num_srcs(newInst); s++)` of the patch decoder, with
`k` iterations left.  Returns the heap and the read pointer. -/
def patchSrcs : Nat → Int → Heap → Nat → List Nat → Option (Heap × List Nat)
  | 0, _, h, _, bufRead => some (h, bufRead)
  | k + 1, s, h, newInst, bufRead =>
    match readInt bufRead with
    | none => none
    | some (temp, b1) =>
      if temp ≠ 0 then
        match readPatchOpnd b1 with
        | none => none
        | some (o, b5) =>
          match replace_src h newInst s o.type o.longParam o.p1 o.p2 with
          | none => none
          | some h1 => patchSrcs k (s + 1) h1 newInst b5
      else patchSrcs k (s + 1) h newInst b1

/-- The part of the body of `while (1)` that works on the clone at `newInst`: apply the
entry that starts at `bufRead`, just behind the index. -/
def applyEntry (h : Heap) (newInst : Nat) (bufRead : List Nat) : Option (Heap × List Nat) :=
  match h[newInst]? with
  | none => none
  | some i =>
    match readInt bufRead with
    | none => none
    | some (temp, b1) =>
      if temp ≠ 0 then
        match readInt b1 with
        | none => none
        | some (temp1, b2) =>
          if temp1 ≠ 0 then
            match readPtr b2 with
            | none => none
            | some (pc, b3) =>
              match instr_set_translation h newInst pc with
              | none => none
              | some h1 =>
                match readInt b3 with
                | none => none
                | some (opcode, b4) =>
                  match instr_set_opcode h1 newInst opcode with
                  | none => none
                  | some h2 => patchSrcs i.srcs.length 0 h2 newInst b4
          else patchSrcs i.srcs.length 0 h newInst b2
      else some (h, b1)

/-- The index resolution `baseInst = instrlist_first_app(bb); while (baseIndex > 0)
{ baseInst = instr_get_next_app(baseInst); baseIndex--; }` on the pointers of the block;
the outer `none` is a call of `instr_get_next_app` on `NULL`, the inner one `NULL`. -/
def walkBase : List Nat → Int → Option (Option Nat)
  | [], baseIndex => if baseIndex > 0 then none else some none
  | p :: rest, baseIndex => if baseIndex > 0 then walkBase rest (baseIndex - 1) else some (some p)

/-- One pass of the body of `while (1)` after the sentinel test: resolve the index, clone
the instruction reached, apply the entry to the clone.  Returns the heap, the address of
the clone, and the read pointer. -/
def patchEntry (h : Heap) (bb : List Nat) (baseIndex : Int) (bufRead : List Nat) :
    Option (Heap × Nat × List Nat) :=
  match walkBase bb baseIndex with
  | none => none
  | some baseInst =>
    match instr_clone h baseInst with
    | none => none
    | some (h1, newInst) =>
      match applyEntry h1 newInst bufRead with
      | none => none
      | some (h2, rest) => some (h2, newInst, rest)

/-- The loop `while (1)` of `event_instruction_change` on the block with the pointers `bb`:
`reads` are the buffer contents after each `read`, `newInsts` the pointers appended so
far.  Returns the heap, the finished `newInsts`, and the reads not yet made. -/
def patchLoop (bb : List Nat) :
    List (List Nat) → Heap → List Nat → Option (Heap × List Nat × List (List Nat))
  | [], _, _ => none
  | buf :: reads, h, newInsts =>
    match readInt buf with
    | none => none
    | some (baseIndex, bufRead) =>
      if baseIndex = -1 then some (h, newInsts, reads)
      else
        match patchEntry h bb baseIndex bufRead with
        | none => none
        | some (h1, newInst, _) => patchLoop bb reads h1 (newInsts ++ [newInst])

end childProgramClient.mem

/-- The index a patch message starts with. -/
def entryIndex (msg : List Nat) : Option Int :=
  match readInt msg with
  | none => none
  | some (i, _) => some i

/-- The instruction the client makes of `orig` under the patch entry of the optimizer node
`n`: for a dirty node, address and opcode of `n` when `dirtyInst` is set, and the flagged
sources replaced. -/
def patched (n : parentProgram.instr_t) (orig : childProgramClient.instr_t) :
    childProgramClient.instr_t :=
  if n.dirty ≠ 0 then
    childProgramClient.applySrcs 0 (n.dirtySrc.take n.src.length) n.src
      (if n.dirtyInst ≠ 0 then
        childProgramClient.instr_set_opcode
          (childProgramClient.instr_set_translation orig n.iData.app_pc) n.iData.opcode
      else orig)
  else orig

/-- What the decoder is expected to load from the patch entry of the node `n`. -/
def patchReadOf (n : parentProgram.instr_t) : childProgramClient.PatchRead :=
  { baseIndex := n.origIndex
    dirty := n.dirty
    instDirty := if n.dirty ≠ 0 then some n.dirtyInst else none
    pcOpcode := if n.dirty ≠ 0 ∧ n.dirtyInst ≠ 0 then some (n.iData.app_pc, n.iData.opcode)
                else none
    srcs := if n.dirty ≠ 0 then
              childProgramClient.srcReads (n.dirtySrc.take n.src.length) n.src
            else [] }

/-- The patch entry of a node with index `j` that is not dirty: the index and a zero word. -/
def cleanEntry (j : Nat) : List Nat := le32 (intBits j) ++ le32 (intBits 0)

/-! ## The loop detector (`detectLoop.c`)

The detector is a DynamoRIO client as well; its block is the list of application
instructions of `childProgramClient`, and a pointer to an instruction of the block is the
position of the instruction, `none` being `NULL`. -/

namespace detectLoop

/-- The call `instrlist_first_app(bb)`. -/
def instrlist_first_app (bb : List childProgramClient.instr_t) : Option Nat :=
  if 0 < bb.length then some 0 else none

/-- The call `instr_get_next_app(instr)`; the outer `none` is a call on `NULL`. -/
def instr_get_next_app (bb : List childProgramClient.instr_t) (instr : Option Nat) :
    Option (Option Nat) :=
  match instr with
  | none => none
  | some p =>
    if p < bb.length then some (if p + 1 < bb.length then some (p + 1) else none) else none

/-- The call `instr_get_opcode(instr)`; `none` is a call on `NULL`. -/
def instr_get_opcode (bb : List childProgramClient.instr_t) (instr : Option Nat) : Option Int :=
  match instr with
  | none => none
  | some p =>
    match bb[p]? with
    | none => none
    | some i => some i.opcode

/-- The local variables of `event_instruction_change` the load scan works on.  Beside them,
`examined` lists the instructions the loop body was run for, and `counts` the value of
`numLoads` after each run of the body. -/
structure Scan where
  currentInstr : Option Nat
  prevInstr : Option Nat
  loads : List (Option Nat)
  validLoads : List Int
  numLoads : Int
  examined : List Nat
  counts : List Int
deriving DecidableEq

/-- The statement `if (numLoads < 5) { loads[numLoads] = currentInstr;
validLoads[numLoads] = 1; numLoads++; }`; `none` is a store outside one of the arrays. -/
def recordLoad (s : Scan) : Option Scan :=
  if s.numLoads < 5 then
    if 0 ≤ s.numLoads ∧ s.numLoads.toNat < s.loads.length ∧
        s.numLoads.toNat < s.validLoads.length then
      some { s with
        loads := s.loads.set s.numLoads.toNat s.currentInstr
        validLoads := s.validLoads.set s.numLoads.toNat 1
        numLoads := s.numLoads + 1 }
    else none
  else some s

/-- The body of `while (instr_get_next_app(currentInstr) != NULL)`. -/
def scanBody (bb : List childProgramClient.instr_t) (s : Scan) : Option Scan :=
  match s.currentInstr, instr_get_opcode bb s.currentInstr with
  | some p, some opcode =>
    match (if opcode = 57 then recordLoad s else some s) with
    | none => none
    | some s1 =>
      match instr_get_next_app bb s1.prevInstr with
      | none => none
      | some next =>
        some { s1 with
          currentInstr := next
          prevInstr := s.currentInstr
          examined := s1.examined ++ [p]
          counts := s1.counts ++ [s1.numLoads] }
  | _, _ => none

/-- The loop `while (instr_get_next_app(currentInstr) != NULL)`; `fuel` bounds the number
of times its condition is evaluated. -/
def scanLoop (bb : List childProgramClient.instr_t) : Nat → Scan → Option Scan
  | 0, _ => none
  | fuel + 1, s =>
    match instr_get_next_app bb s.currentInstr with
    | none => none
    | some none => some s
    | some (some _) =>
      match scanBody bb s with
      | none => none
      | some s1 => scanLoop bb fuel s1

/-- The variables when the loop is entered: `prevInstr` and `currentInstr` at the first
instruction, `numLoads` 0; `loads` and `validLoads` are what the two arrays of five hold. -/
def scanStart (first : Nat) (loads : List (Option Nat)) (validLoads : List Int) : Scan :=
  { currentInstr := some first
    prevInstr := some first
    loads := loads
    validLoads := validLoads
    numLoads := 0
    examined := []
    counts := [] }

/-- The load scan of `event_instruction_change`: the assignments before the loop (the
address of the first instruction is read, so it must not be `NULL`), then the loop. -/
def loadScan (fuel : Nat) (bb : List childProgramClient.instr_t) (loads : List (Option Nat))
    (validLoads : List Int) : Option Scan :=
  match instrlist_first_app bb with
  | none => none
  | some first => scanLoop bb fuel (scanStart first loads validLoads)

/-- The positions `p, p, p + 1, p + 1, ...`: `k` positions from `p` on, each twice. -/
def doubled : Nat → Nat → List Nat
  | _, 0 => []
  | p, k + 1 => p :: p :: doubled (p + 1) k

/-- The order of examination stated for a block of `n` instructions: the first once, then
every instruction strictly between the first and the last twice; nothing for `n < 2`. -/
def scanOrder (n : Nat) : List Nat :=
  if n < 2 then [] else 0 :: doubled 1 (n - 2)

/-- Whether the instruction at position `p` has opcode 57. -/
def isLoad (bb : List childProgramClient.instr_t) (p : Nat) : Bool :=
  decide (instr_get_opcode bb (some p) = some 57)

/-- The first five examinations of an instruction with opcode 57, in order. -/
def recordedLoads (bb : List childProgramClient.instr_t) (examined : List Nat) : List Nat :=
  (examined.filter (isLoad bb)).take 5

/-- The arrays and the counter agree with the examinations made so far: `numLoads` is the
number of recorded loads, the first `numLoads` entries of `loads` point to them in order
and their `validLoads` entries are 1; and `counts` has an entry for every run of the loop
body, each between 0 and 5. -/
def Scan.recorded (bb : List childProgramClient.instr_t) (s : Scan) : Prop :=
  s.loads.length = 5 ∧ s.validLoads.length = 5 ∧
  s.numLoads = ((recordedLoads bb s.examined).length : Int) ∧
  (∀ i : Nat, i < (recordedLoads bb s.examined).length →
    s.loads[i]? = some ((recordedLoads bb s.examined)[i]?) ∧ s.validLoads[i]? = some 1) ∧
  (∀ c ∈ s.counts, 0 ≤ c ∧ c ≤ 5) ∧ s.counts.length = s.examined.length

end detectLoop

/-! ## Sample data -/

/-- A conditional branch (opcode 30) with a near-address source and no destination. -/
def sampleBranch : childProgramClient.instr_t :=
  { app_pc := 4096, opcode := 30, srcs := [childProgramClient.opnd_create_pc 8192], dsts := [],
    length := 2 }

/-- A replacement operand of type 7 (near address) for the address `0x1000`. -/
def sampleNear : instr_opnd_t := { type := 7, longParam := 4096, p1 := 0, p2 := 0 }

/-- An optimizer node without operands, carrying index `i` and the given links. -/
def sampleNode (i : Int) (prev next : Option Nat) : parentProgram.instr_t :=
  { iData := { app_pc := 4096, opcode := 10, numSrc := 0, numDst := 0, length := 1 },
    src := [], dst := [], origIndex := i, dirty := 0, dirtyInst := 0,
    dirtySrc := List.replicate 8 0, dirtyDst := List.replicate 8 0, next := next, prev := prev }

/-- A heap with the three-node list 0, 1, 2 and the unlinked node 3. -/
def sampleHeap : parentProgram.Heap :=
  [sampleNode 0 none (some 1), sampleNode 1 (some 0) (some 2), sampleNode 2 (some 1) none,
   sampleNode 7 none none]

/-- The list whose nodes are 0, 1, 2 of `sampleHeap`. -/
def sampleList : parentProgram.instrlist_t := { first := some 0, last := some 2, fall_through := 0 }

/-- Operand slots of the client's buffer that hold zeros. -/
def sampleStale : Nat → instr_opnd_t × Nat :=
  fun _ => ({ type := 0, longParam := 0, p1 := 0, p2 := 0 }, 0)

/-- Memory handed out by `malloc` that still holds an old node. -/
def sampleFresh : Nat → parentProgram.instr_t :=
  fun _ => sampleNode 99 (some 5) (some 6)

/-- The record the client encodes for `sampleBranch`: its header, one near-address source,
no destination. -/
def sampleRecord : instr_data_t × List instr_opnd_t × List instr_opnd_t :=
  ({ app_pc := 4096, opcode := 30, numSrc := 1, numDst := 0, length := 2 },
   [{ type := 7, longParam := 8192, p1 := 0, p2 := 0 }], [])

/-- The heap and list after `sampleBranch` has been received as the only record of a block
into an empty heap. -/
def sampleReceived : parentProgram.Heap × parentProgram.instrlist_t :=
  (parentProgram.receiveLoop sampleFresh 1 0
    [childProgramClient.encodeInstr sampleStale sampleBranch] []
    parentProgram.instrlist_create).getD ([], parentProgram.instrlist_create)

/-- Calls of an optimizer on that block: clone node 0, retarget and move the clone, and
append it. -/
def sampleEdits : List parentProgram.Edit :=
  [.clone 0, .set_branch_target_pc 1 12288, .set_translation 1 4100, .append 1]

/-- The heap and list after `sampleEdits`. -/
def sampleEdited : parentProgram.Heap × parentProgram.instrlist_t :=
  (parentProgram.applyEdits 4 sampleEdits sampleReceived.1 sampleReceived.2).getD
    ([], parentProgram.instrlist_create)

/-- The node received for `sampleBranch` at position 0, before any edit. -/
def sampleClean : parentProgram.instr_t :=
  { iData := sampleRecord.1, src := sampleRecord.2.1, dst := sampleRecord.2.2, origIndex := 0,
    dirty := 0, dirtyInst := 0, dirtySrc := List.replicate 8 0, dirtyDst := List.replicate 8 0,
    next := none, prev := none }

/-- The node `sampleClean` with a new opcode, `dirtyInst` and `dirtySrc[0]` set, but `dirty`
left clear. -/
def sampleHalfFlagged : parentProgram.instr_t :=
  { sampleClean with
    iData := { sampleClean.iData with opcode := 31 }
    dirtyInst := 1
    dirtySrc := [1, 0, 0, 0, 0, 0, 0, 0] }

/-- The node `sampleClean` after `instr_set_opcode(31)` and an effective
`instr_set_branch_target_pc(0x3000)`. -/
def sampleDirty : parentProgram.instr_t :=
  { sampleClean with
    iData := { sampleClean.iData with opcode := 31 }
    src := [{ type := 7, longParam := 12288, p1 := 0, p2 := 0 }]
    dirty := 1
    dirtyInst := 1
    dirtySrc := [1, 0, 0, 0, 0, 0, 0, 0] }

/-- The client's block holding `sampleBranch` only, with fall-through target `0x9000`. -/
def sampleBlock : childProgramClient.instrlist_t :=
  { instrs := [sampleBranch], fall_through := 36864 }

/-- The instruction `sampleBranch` with opcode 31 and its source retargeted to `0x3000`. -/
def sampleRetargeted : childProgramClient.instr_t :=
  { sampleBranch with opcode := 31, srcs := [childProgramClient.opnd_create_pc 12288] }

/-- Calls of an optimizer on one node: copy it, change the opcode to 31, retarget the
branch to `0x3000`. -/
def sampleNodeEdits : List parentProgram.NodeEdit :=
  [.clone, .set_opcode 31, .set_branch_target_pc 12288]

/-- Two buffers of the client after reading patch entries: the entry of `sampleDirty`, then
the entry of `sampleClean` (both for index 0), each followed by the rest of the buffer. -/
def sampleEntries : List (List Nat) :=
  [parentProgram.patchBytes sampleDirty ++ List.replicate 216 0,
   parentProgram.patchBytes sampleClean ++ List.replicate 216 0]

/-- Buffers of the client after reading, for the one-instruction block `sampleBlock`: a patch
entry for index 1, the sentinel, and the fall-through address. -/
def sampleStray : List (List Nat) :=
  [cleanEntry 1 ++ List.replicate 216 0, le32 (intBits (-1)) ++ List.replicate 216 0,
   le64 36864]

/-- A buffer holding a patch entry for index `-2` of a node that is not dirty. -/
def sampleNegative : List Nat :=
  le32 (intBits (-2)) ++ le32 (intBits 0)

/-- An instruction like `sampleBranch` with nine sources. -/
def sampleWide : childProgramClient.instr_t :=
  { sampleBranch with srcs := List.replicate 9 (childProgramClient.opnd_create_pc 8192) }

/-- A memory with one node, a conditional branch with one near-address source, and its two
operand arrays. -/
def sampleMemory : parentProgram.mem.Memory :=
  { nodes := [{ iData := sampleRecord.1, src := 0, dst := 1, origIndex := 0, dirty := 0,
                dirtyInst := 0, dirtySrc := List.replicate 8 0, dirtyDst := List.replicate 8 0,
                next := some 5, prev := none }]
    arrays := [sampleRecord.2.1, sampleRecord.2.2] }

/-- Reads of a run with two children: the first announces `-1` in pass 0; the second has
nothing to read in pass 0 and its read fails in pass 1. -/
def sampleReads : Nat → Nat → parentProgram.Polled :=
  fun t i =>
    if i = 0 then .message (-1)
    else if t = 0 then .wouldBlock
    else .failed

/-- Reads of a run with two children: the read from the first fails at once, the second
has a block of three instructions to announce. -/
def sampleBroken : Nat → Nat → parentProgram.Polled :=
  fun _ i => if i = 0 then .failed else .message 3

/-- Reads of a run with two children that each announce one block of two instructions and
then `-1`, the second child one pass later than the first. -/
def sampleQuiet : Nat → Nat → parentProgram.Polled :=
  fun t i =>
    if t = i then .message 2
    else if t = i + 1 then .message (-1)
    else .wouldBlock

/-- The state after the first pass of the run `sampleReads`: the first child is closed, the
second has been read once. -/
def sampleHalfway : parentProgram.Reactor :=
  { isRunning := [0, 1]
    childrenLeft := 1
    events := [.read 0, .ack 0, .read 1] }

/-- The state in which the run `sampleQuiet` ends: both children closed. -/
def sampleClosed : parentProgram.Reactor :=
  { isRunning := [0, 0]
    childrenLeft := 0
    events := [.read 0, .ack 0, .block 0 2, .read 1, .read 0, .ack 0, .read 1, .ack 1,
               .block 1 2, .read 1, .ack 1] }

/-- An instruction with the given opcode and no operands. -/
def sampleInstr (opcode : Int) : childProgramClient.instr_t :=
  { app_pc := 4096, opcode := opcode, srcs := [], dsts := [], length := 1 }

/-- A block of five instructions; the three between the first and the last have opcode 57. -/
def sampleLoads : List childProgramClient.instr_t :=
  [sampleInstr 10, sampleInstr 57, sampleInstr 57, sampleInstr 57, sampleInstr 10]

/-- The state in which the load scan of `sampleLoads` ends. -/
def sampleScanned : detectLoop.Scan :=
  { currentInstr := some 4
    prevInstr := some 3
    loads := [some 1, some 1, some 2, some 2, some 3]
    validLoads := [1, 1, 1, 1, 1]
    numLoads := 5
    examined := [0, 1, 1, 2, 2, 3, 3]
    counts := [0, 1, 2, 3, 4, 5, 5] }

/-! # Properties -/

/-! ## Words and bytes -/

theorem toInt32_intBits (v : Int) (h : isInt32 v) : toInt32 (intBits v) = v := by
  unfold isInt32 at h
  unfold toInt32 intBits
  split <;> omega

theorem toInt64_longBits (v : Int) (h : isInt64 v) : toInt64 (longBits v) = v := by
  unfold isInt64 at h
  unfold toInt64 longBits
  split <;> omega

theorem isPtr_longBits (v : Int) : isPtr (longBits v) := by
  unfold isPtr longBits
  omega

theorem longBits_toInt64 (p : Nat) (h : isPtr p) : longBits (toInt64 p) = p := by
  unfold isPtr at h
  unfold toInt64 longBits
  split <;> omega

theorem isInt32_toInt32 (n : Nat) : isInt32 (toInt32 n) := by
  unfold isInt32 toInt32
  split <;> omega

theorem isInt64_toInt64 (n : Nat) : isInt64 (toInt64 n) := by
  unfold isInt64 toInt64
  split <;> omega

theorem word32_le32 (n : Nat) (h : n < 4294967296) :
    word32 (n % 256) (n / 256 % 256) (n / 65536 % 256) (n / 16777216 % 256) = n := by
  unfold word32
  omega

theorem readInt_le32 (v : Int) (h : isInt32 v) (rest : List Nat) :
    readInt (le32 (intBits v) ++ rest) = some (v, rest) := by
  have hb : intBits v < 4294967296 := by unfold intBits; omega
  simp only [le32, List.cons_append, List.nil_append, readInt, word32_le32 _ hb,
    toInt32_intBits v h]

theorem readPtr_le64 (p : Nat) (h : isPtr p) (rest : List Nat) :
    readPtr (le64 p ++ rest) = some (p, rest) := by
  unfold isPtr at h
  have h1 : p % 4294967296 < 4294967296 := by omega
  have h2 : p / 4294967296 % 4294967296 < 4294967296 := by omega
  simp only [le64, le32, List.cons_append, List.nil_append, readPtr, word32_le32 _ h1,
    word32_le32 _ h2, Option.some.injEq, Prod.mk.injEq, and_true]
  omega

theorem readLong_le64 (v : Int) (h : isInt64 v) (rest : List Nat) :
    readLong (le64 (longBits v) ++ rest) = some (v, rest) := by
  simp only [readLong, readPtr_le64 _ (isPtr_longBits v), toInt64_longBits v h]

/-! ## Patch operands on the wire -/

/-- The twenty bytes the patch encoder writes for a flagged source operand. -/
theorem writeOpnd_eq (w : List Nat) (o : instr_opnd_t) :
    parentProgram.writeIntToBuf (parentProgram.writeIntToBuf
      (parentProgram.writePtrToBuf (parentProgram.writeIntToBuf w o.type) (longBits o.longParam))
      o.p1) o.p2
    = w ++ (le32 (intBits o.type) ++ (le64 (longBits o.longParam) ++
        (le32 (intBits o.p1) ++ le32 (intBits o.p2)))) := by
  have hp : longBits o.longParam % 18446744073709551616 = longBits o.longParam := by
    have := isPtr_longBits o.longParam
    unfold isPtr at this
    omega
  simp only [parentProgram.writeIntToBuf, parentProgram.writePtrToBuf, hp, List.append_assoc]

theorem readPatchOpnd_bytes (o : instr_opnd_t) (ho : o.inRange) (rest : List Nat) :
    childProgramClient.readPatchOpnd
      (le32 (intBits o.type) ++ (le64 (longBits o.longParam) ++
        (le32 (intBits o.p1) ++ (le32 (intBits o.p2) ++ rest)))) = some (o, rest) := by
  obtain ⟨h1, h2, h3, h4⟩ := ho
  simp only [childProgramClient.readPatchOpnd, readInt_le32 _ h1, readLong_le64 _ h2,
    readInt_le32 _ h3, readInt_le32 _ h4]

theorem replace_src_eq (instr : childProgramClient.instr_t) (index : Nat) (type longParam p1 p2 : Int)
    (hidx : index < instr.srcs.length) :
    childProgramClient.replace_src instr index type longParam p1 p2 =
      if type = 7 then
        some { instr with
          srcs := instr.srcs.set index (childProgramClient.opnd_create_pc (longBits longParam)) }
      else some instr := by
  unfold childProgramClient.replace_src childProgramClient.instr_set_src
    childProgramClient.instr_num_srcs
  by_cases h : type = 7
  · have : (0 : Int) ≤ index ∧ (index : Int) < instr.srcs.length := by omega
    simp [h, this]
  · simp [h]

/-- C9: for an instruction, one of its source positions and a replacement operand
(type, wide value, p1, p2), `replace_src` puts the direct-address operand of the wide value
at that position when the type is 7 and returns the instruction unchanged for every other
type; in both cases the patch decoder, on a flagged source, reads the flag and the twenty
bytes of the operand and stops right behind them. -/
theorem C9_replace_src_near_address_only (instr : childProgramClient.instr_t) (index : Nat)
    (o : instr_opnd_t) (flag : Int) (rest : List Nat)
    (hidx : index < instr.srcs.length) (ho : o.inRange) (hflag : isInt32 flag)
    (hset : flag ≠ 0) :
    (o.type = 7 →
      childProgramClient.replace_src instr index o.type o.longParam o.p1 o.p2 =
        some { instr with
          srcs := instr.srcs.set index
            (childProgramClient.opnd_create_pc (longBits o.longParam)) }) ∧
    (o.type ≠ 7 →
      childProgramClient.replace_src instr index o.type o.longParam o.p1 o.p2 = some instr) ∧
    ∃ r, childProgramClient.replace_src instr index o.type o.longParam o.p1 o.p2 = some r ∧
      childProgramClient.patchSrcs 1 index instr
        (le32 (intBits flag) ++ (le32 (intBits o.type) ++ (le64 (longBits o.longParam) ++
          (le32 (intBits o.p1) ++ (le32 (intBits o.p2) ++ rest)))))
        = some (r, [{ temp := flag, opnd := some o }], rest) := by
  have hrep := replace_src_eq instr index o.type o.longParam o.p1 o.p2 hidx
  refine ⟨fun h => by rw [hrep, if_pos h], fun h => by rw [hrep, if_neg h], ?_⟩
  by_cases h : o.type = 7
  · rw [if_pos h] at hrep
    refine ⟨_, hrep, ?_⟩
    simp only [childProgramClient.patchSrcs, readInt_le32 _ hflag, readPatchOpnd_bytes o ho,
      hrep, ne_eq, hset, not_false_eq_true, if_true]
  · rw [if_neg h] at hrep
    refine ⟨_, hrep, ?_⟩
    simp only [childProgramClient.patchSrcs, readInt_le32 _ hflag, readPatchOpnd_bytes o ho,
      hrep, ne_eq, hset, not_false_eq_true, if_true]

/-- C9 on `sampleBranch` with the near-address operand `sampleNear`. -/
theorem C9_replace_src_near_address_only_witness :
    (0 < sampleBranch.srcs.length ∧ sampleNear.inRange ∧ isInt32 1 ∧ (1 : Int) ≠ 0) ∧
    childProgramClient.replace_src sampleBranch 0 7 4096 0 0 =
      some { sampleBranch with srcs := [childProgramClient.opnd_create_pc 4096] } :=
  ⟨⟨by decide, by decide, by decide, by decide⟩,
    (C9_replace_src_near_address_only sampleBranch 0 sampleNear 1 []
      (by decide) (by decide) (by decide) (by decide)).1 rfl⟩

/-! ## `instrlist_replace` -/

/-- C10 (the code at the failing input): replacing the middle node 1 of the list 0, 1, 2 by
the unlinked node 3 returns 1 but leaves the list 0, 3: `last` is moved to the new node,
whose `next` stays `NULL`, and node 2 is no longer reachable, where the claim requires the
list 0, 3, 2. -/
theorem C10_replace_middle_drops_tail :
    (parentProgram.instrlist_replace sampleHeap sampleList 1 3).map
        (fun r => (parentProgram.nodesFrom r.1 4 r.2.1.first, r.2.1.last, r.2.2))
      = some (some [0, 3], some 3, 1) := by
  decide

/-! ## The patch encoder -/

namespace parentProgram

theorem writeSrcs_eq (toSend : instr_t) :
    ∀ (k s : Nat) (w : List Nat), s + k ≤ toSend.dirtySrc.length → s + k ≤ toSend.src.length →
      writeSrcs toSend k s w =
        some (w ++ srcFlagBytes ((toSend.dirtySrc.drop s).take k) ((toSend.src.drop s).take k)) := by
  intro k
  induction k with
  | zero => intro s w _ _; simp [writeSrcs, srcFlagBytes]
  | succ k ih =>
    intro s w h1 h2
    have hs1 : s < toSend.dirtySrc.length := by omega
    have hs2 : s < toSend.src.length := by omega
    rw [List.drop_eq_getElem_cons hs1, List.drop_eq_getElem_cons hs2]
    simp only [writeSrcs, List.getElem?_eq_getElem hs1, List.getElem?_eq_getElem hs2,
      List.take_succ_cons, srcFlagBytes]
    by_cases hd : toSend.dirtySrc[s] = 0
    · simp only [hd, ne_eq, not_true_eq_false, if_false]
      rw [ih (s + 1) _ (by omega) (by omega)]
      simp [writeIntToBuf, intBits]
    · simp only [ne_eq, hd, not_false_eq_true, if_true]
      rw [writeOpnd_eq, ih (s + 1) _ (by omega) (by omega)]
      simp [writeIntToBuf]

end parentProgram

namespace parentProgram

theorem encodePatch_eq (n : instr_t) (hs : n.shaped) : encodePatch n = some (patchBytes n) := by
  obtain ⟨h1, _, h3, h4, _, _, h7, _⟩ := hs
  have hk1 : 0 + n.iData.numSrc.toNat ≤ n.dirtySrc.length := by omega
  have hk2 : 0 + n.iData.numSrc.toNat ≤ n.src.length := by omega
  have htake : List.take n.iData.numSrc.toNat n.src = n.src := by
    rw [List.take_of_length_le]; omega
  unfold encodePatch patchBytes patchTail
  by_cases hd : n.dirty = 0
  · simp [hd, writeIntToBuf]
  · by_cases hi : n.dirtyInst = 0
    · simp only [ne_eq, hd, not_false_eq_true, if_true, hi, not_true_eq_false, if_false]
      rw [writeSrcs_eq n _ 0 _ hk1 hk2]
      simp [writeIntToBuf, htake]
    · simp only [ne_eq, hd, not_false_eq_true, if_true, hi]
      rw [writeSrcs_eq n _ 0 _ hk1 hk2]
      simp [writeIntToBuf, writePtrToBuf, htake]

theorem entryIndex_patchBytes (n : instr_t) (hi : isInt32 n.origIndex) :
    entryIndex (patchBytes n) = some n.origIndex := by
  simp only [entryIndex, patchBytes, readInt_le32 _ hi]

theorem sendLoop_linked (h : Heap) :
    ∀ (ps : List Nat) (prev cur : Option Nat) (fuel : Nat),
      linked h prev cur ps → ps.length < fuel →
      (∀ p ∈ ps, ∀ n, h[p]? = some n → n.shaped) →
      ∃ nodes, List.Forall₂ (fun p n => h[p]? = some n) ps nodes ∧
        sendLoop h fuel cur = some (nodes.map patchBytes) := by
  intro ps
  induction ps with
  | nil =>
    intro prev cur fuel hl hf _
    cases fuel with
    | zero => simp at hf
    | succ f =>
      simp only [linked] at hl
      subst hl
      exact ⟨[], List.Forall₂.nil, by simp [sendLoop]⟩
  | cons p ps ih =>
    intro prev cur fuel hl hf hsh
    cases fuel with
    | zero => simp at hf
    | succ f =>
      simp only [linked] at hl
      obtain ⟨hc, hl⟩ := hl
      subst hc
      cases hp : h[p]? with
      | none => simp [hp] at hl
      | some n =>
        simp only [hp] at hl
        obtain ⟨nodes, hn, hsend⟩ := ih (some p) n.next f hl.2 (by simpa using hf)
          (fun q hq m hm => hsh q (List.mem_cons_of_mem _ hq) m hm)
        refine ⟨n :: nodes, List.Forall₂.cons hp hn, ?_⟩
        simp [sendLoop, hp, encodePatch_eq n (hsh p (List.mem_cons_self _ _) n hp), hsend]

end parentProgram

/-- C6: for a list whose nodes are `ps` in list order, the sending phase writes exactly one
patch entry per node, in that order, each being the encoding of its node and starting with
that node's `origIndex`, then one sentinel entry `-1` (and the fall-through address); the
emitted index sequence is the `origIndex` values in list order followed by `-1`. -/
theorem C6_patches_addressed_by_origIndex (fuel : Nat) (h : parentProgram.Heap)
    (bb : parentProgram.instrlist_t) (ps : List Nat)
    (hl : parentProgram.linked h none bb.first ps) (hfuel : ps.length < fuel)
    (hsh : ∀ p ∈ ps, ∀ n, h[p]? = some n → n.shaped ∧ isInt32 n.origIndex) :
    ∃ nodes entries,
      List.Forall₂ (fun p n => h[p]? = some n) ps nodes ∧
      List.Forall₂ (fun n e => parentProgram.encodePatch n = some e) nodes entries ∧
      parentProgram.sendPatches fuel h bb =
        some (entries ++ [parentProgram.writeIntToBuf [] (-1),
                          parentProgram.writePtrToBuf [] bb.fall_through]) ∧
      (entries ++ [parentProgram.writeIntToBuf [] (-1)]).map entryIndex =
        nodes.map (fun n => some n.origIndex) ++ [some (-1)] := by
  obtain ⟨nodes, hn, hsend⟩ := parentProgram.sendLoop_linked h ps none bb.first fuel hl hfuel
    (fun p hp n hpn => (hsh p hp n hpn).1)
  have hall : ∀ n ∈ nodes, n.shaped ∧ isInt32 n.origIndex := by
    intro n hmem
    obtain ⟨i, hi, rfl⟩ := List.getElem_of_mem hmem
    have hlen := hn.length_eq
    have hpi : h[ps[i]]? = some nodes[i] := by
      have := List.forall₂_iff_get.mp hn
      exact this.2 i (by omega) hi
    exact hsh _ (List.getElem_mem _) _ hpi
  refine ⟨nodes, nodes.map parentProgram.patchBytes, hn, ?_, ?_, ?_⟩
  · rw [List.forall₂_map_right_iff]
    exact List.forall₂_same.mpr (fun n hmem => parentProgram.encodePatch_eq n (hall n hmem).1)
  · simp [parentProgram.sendPatches, hsend]
  · rw [List.map_append, List.map_map]
    congr 1
    exact List.map_congr_left
      (fun n hmem => parentProgram.entryIndex_patchBytes n (hall n hmem).2)

theorem sampleHeap_shaped :
    ∀ p ∈ [0, 1, 2], ∀ n, sampleHeap[p]? = some n → n.shaped ∧ isInt32 n.origIndex := by
  intro p hp n hn
  simp only [List.mem_cons, List.mem_singleton, List.not_mem_nil, or_false] at hp
  rcases hp with rfl | rfl | rfl <;>
    · simp only [sampleHeap, List.getElem?_cons_zero, List.getElem?_cons_succ,
        Option.some.injEq] at hn
      subst hn
      decide

/-- C6 on the three-node list of `sampleHeap`. -/
theorem C6_patches_addressed_by_origIndex_witness :
    (parentProgram.linked sampleHeap none sampleList.first [0, 1, 2] ∧ [0, 1, 2].length < 4) ∧
    ∃ nodes entries,
      List.Forall₂ (fun p n => sampleHeap[p]? = some n) [0, 1, 2] nodes ∧
      List.Forall₂ (fun n e => parentProgram.encodePatch n = some e) nodes entries ∧
      parentProgram.sendPatches 4 sampleHeap sampleList =
        some (entries ++ [parentProgram.writeIntToBuf [] (-1),
                          parentProgram.writePtrToBuf [] sampleList.fall_through]) ∧
      (entries ++ [parentProgram.writeIntToBuf [] (-1)]).map entryIndex =
        nodes.map (fun n => some n.origIndex) ++ [some (-1)] :=
  ⟨⟨by decide, by decide⟩,
    C6_patches_addressed_by_origIndex 4 sampleHeap sampleList [0, 1, 2] (by decide) (by decide)
      sampleHeap_shaped⟩

/-! ## Receiving a block -/

namespace parentProgram

theorem clearFlags_spec :
    ∀ (k op : Nat) (flags : List Int), op + k ≤ flags.length →
      ∃ r, clearFlags k op flags = some r ∧ r.length = flags.length ∧
        ∀ i, r[i]? = if op ≤ i ∧ i < op + k then some 0 else flags[i]? := by
  intro k
  induction k with
  | zero =>
    intro op flags _
    refine ⟨flags, rfl, rfl, fun i => ?_⟩
    have : ¬ (op ≤ i ∧ i < op + 0) := by omega
    rw [if_neg this]
  | succ k ih =>
    intro op flags hlen
    have hop : op < flags.length := by omega
    obtain ⟨r, hr, hrl, hri⟩ := ih (op + 1) (flags.set op 0) (by simp; omega)
    refine ⟨r, by simp [clearFlags, hop, hr], by simpa using hrl, fun i => ?_⟩
    rw [hri i, List.getElem?_set]
    by_cases h1 : op = i
    · subst h1
      have : ¬ (op + 1 ≤ op ∧ op < op + 1 + k) := by omega
      simp [this, hop]
    · by_cases h2 : op + 1 ≤ i ∧ i < op + 1 + k
      · have : op ≤ i ∧ i < op + (k + 1) := by omega
        simp [h2, this]
      · have : ¬ (op ≤ i ∧ i < op + (k + 1)) := by omega
        simp [h2, this, h1]

theorem readOpnds_length :
    ∀ (n : Nat) (buf : List Nat) (os : List instr_opnd_t) (rest : List Nat),
      readOpnds n buf = some (os, rest) → os.length = n := by
  intro n
  induction n with
  | zero =>
    intro buf os rest h
    simp only [readOpnds, Option.some.injEq, Prod.mk.injEq] at h
    rw [← h.1]; rfl
  | succ n ih =>
    intro buf os rest h
    simp only [readOpnds] at h
    split at h
    · exact absurd h (by simp)
    · split at h
      · exact absurd h (by simp)
      · rename_i o b1 _ os1 b2 heq
        simp only [Option.some.injEq, Prod.mk.injEq] at h
        rw [← h.1, List.length_cons, ih _ _ _ heq]

theorem recvRecord_shape (buf : List Nat) (r : instr_data_t × List instr_opnd_t × List instr_opnd_t)
    (h : recvRecord buf = some r) :
    0 ≤ r.1.numSrc ∧ 0 ≤ r.1.numDst ∧ r.2.1.length = r.1.numSrc.toNat ∧
      r.2.2.length = r.1.numDst.toNat := by
  unfold recvRecord at h
  split at h
  · exact absurd h (by simp)
  · rename_i iData oData _
    split at h
    · exact absurd h (by simp)
    · rename_i hneg
      split at h
      · exact absurd h (by simp)
      · rename_i src oData1 hsrc
        split at h
        · exact absurd h (by simp)
        · rename_i dst _ hdst
          simp only [Option.some.injEq] at h
          subst h
          simp only
          exact ⟨by omega, by omega, readOpnds_length _ _ _ _ hsrc, readOpnds_length _ _ _ _ hdst⟩

theorem recvInstr_spec (fresh : instr_t) (buf : List Nat) (j : Int)
    (r : instr_data_t × List instr_opnd_t × List instr_opnd_t)
    (hr : recvRecord buf = some r) (hs : r.1.numSrc ≤ 8) (hd : r.1.numDst ≤ 8)
    (hf : fresh.dirtySrc.length = 8 ∧ fresh.dirtyDst.length = 8) :
    ∃ node, recvInstr fresh buf j = some node ∧
      node.iData = r.1 ∧ node.src = r.2.1 ∧ node.dst = r.2.2 ∧ node.origIndex = j ∧
      node.dirty = 0 ∧ node.dirtyInst = 0 ∧ node.next = none ∧ node.prev = none ∧
      node.shaped ∧
      (∀ s : Nat, (s : Int) < node.iData.numSrc → node.dirtySrc[s]? = some 0) ∧
      (∀ s : Nat, (s : Int) < node.iData.numDst → node.dirtyDst[s]? = some 0) := by
  obtain ⟨h0s, h0d, hls, hld⟩ := recvRecord_shape buf r hr
  obtain ⟨ds, hds, hdsl, hdsi⟩ := clearFlags_spec r.1.numSrc.toNat 0 fresh.dirtySrc (by omega)
  obtain ⟨dd, hdd, hddl, hddi⟩ := clearFlags_spec r.1.numDst.toNat 0 fresh.dirtyDst (by omega)
  obtain ⟨iData, src, dst⟩ := r
  simp only at h0s h0d hls hld hs hd hds hdd hdsi hddi
  refine ⟨{ iData := iData, src := src, dst := dst, origIndex := j, dirty := 0, dirtyInst := 0,
            dirtySrc := ds, dirtyDst := dd, next := none, prev := none },
    by simp only [recvInstr, hr, instr_create, hds, hdd], rfl, rfl, rfl, rfl, rfl, rfl,
    rfl, rfl, ?_, ?_, ?_⟩
  · exact ⟨by simpa [hf.1] using hdsl, by simpa [hf.2] using hddl, h0s, hs, h0d, hd, hls, hld⟩
  · intro s hlt
    simp only at hlt ⊢
    have : 0 ≤ s ∧ s < 0 + iData.numSrc.toNat := by omega
    rw [hdsi s, if_pos this]
  · intro s hlt
    simp only at hlt ⊢
    have : 0 ≤ s ∧ s < 0 + iData.numDst.toNat := by omega
    rw [hddi s, if_pos this]

end parentProgram

namespace parentProgram

theorem linked_mem (h : Heap) :
    ∀ (ps : List Nat) (prev cur : Option Nat), linked h prev cur ps →
      ∀ p ∈ ps, ∃ n, h[p]? = some n := by
  intro ps
  induction ps with
  | nil => intro _ _ _ p hp; simp at hp
  | cons a ps ih =>
    intro prev cur hl p hp
    simp only [linked] at hl
    cases ha : h[a]? with
    | none => simp [ha] at hl
    | some n =>
      simp only [ha] at hl
      rcases List.mem_cons.mp hp with rfl | hmem
      · exact ⟨n, ha⟩
      · exact ih (some a) n.next hl.2.2 p hmem

theorem linked_snoc (h : Heap) (q : Nat) (nq : instr_t) (hq : h[q]? = some nq)
    (hqn : nq.next = none) :
    ∀ (ps : List Nat) (prev cur : Option Nat) (l : Nat) (nl : instr_t),
      linked h prev cur ps → ps.getLast? = some l → q ∉ ps → ps.Nodup → h[l]? = some nl →
      linked ((h.set l { nl with next := some q }).set q { nq with prev := some l })
        prev cur (ps ++ [q]) := by
  have hqlt : q < h.length := (List.getElem?_eq_some.mp hq).1
  intro ps
  induction ps with
  | nil => intro _ _ l _ _ hlast; simp at hlast
  | cons p ps ih =>
    intro prev cur l nl hl hlast hnot hnd hnl
    have hllt : l < h.length := (List.getElem?_eq_some.mp hnl).1
    simp only [linked] at hl
    obtain ⟨hcur, hl⟩ := hl
    have hpq : p ≠ q := fun e => hnot (e ▸ List.mem_cons_self _ _)
    cases hp : h[p]? with
    | none => simp [hp] at hl
    | some n =>
      simp only [hp] at hl
      obtain ⟨hprev, hrest⟩ := hl
      cases ps with
      | nil =>
        simp only [List.getLast?_singleton, Option.some.injEq] at hlast
        subst hlast
        simp only [linked] at hrest
        rw [hp] at hnl
        simp only [Option.some.injEq] at hnl
        subst hnl
        have e1 : ((h.set p { n with next := some q }).set q { nq with prev := some p })[p]?
            = some { n with next := some q } := by
          rw [List.getElem?_set_ne (Ne.symm hpq), List.getElem?_set_self hllt]
        have e2 : ((h.set p { n with next := some q }).set q { nq with prev := some p })[q]?
            = some { nq with prev := some p } := by
          rw [List.getElem?_set_self (by simpa using hqlt)]
        simp only [List.nil_append, List.cons_append, linked, e1, e2]
        exact ⟨hcur, hprev, trivial, trivial, hqn⟩
      | cons p' ps' =>
        have hlast' : (p' :: ps').getLast? = some l := by
          simpa [List.getLast?_cons_cons] using hlast
        have hlmem : l ∈ p' :: ps' := List.mem_of_getLast?_eq_some hlast'
        have hpl : p ≠ l := fun e => (List.nodup_cons.mp hnd).1 (e ▸ hlmem)
        have hnot' : q ∉ p' :: ps' := fun hm => hnot (List.mem_cons_of_mem _ hm)
        have e1 : ((h.set l { nl with next := some q }).set q { nq with prev := some l })[p]?
            = some n := by
          rw [List.getElem?_set_ne (Ne.symm hpq), List.getElem?_set_ne (Ne.symm hpl), hp]
        have := ih (some p) n.next l nl hrest hlast' hnot' (List.nodup_cons.mp hnd).2 hnl
        simp only [List.cons_append, linked, e1]
        exact ⟨hcur, hprev, this⟩

theorem instrlist_append_spec (h : Heap) (bb : instrlist_t) (ps : List Nat) (q : Nat)
    (nq : instr_t) (hl : isList h bb ps) (hq : h[q]? = some nq) (hqn : nq.next = none)
    (hqp : nq.prev = none) (hnot : q ∉ ps) :
    ∃ h2 bb2, instrlist_append h bb q = some (h2, bb2) ∧ isList h2 bb2 (ps ++ [q]) ∧
      h2.length = h.length ∧ (∀ p : Nat, (h2[p]?).map instr_t.payload = (h[p]?).map instr_t.payload) ∧
      bb2.fall_through = bb.fall_through := by
  obtain ⟨hlink, hlast, hnd⟩ := hl
  have hnd2 : (ps ++ [q]).Nodup := by
    rw [List.nodup_append]
    exact ⟨hnd, List.nodup_singleton q, by
      intro a ha hb
      rw [List.mem_singleton] at hb
      exact hnot (hb ▸ ha)⟩
  cases ps with
  | nil =>
    simp only [linked] at hlink
    refine ⟨h, { bb with first := some q, last := some q }, ?_, ⟨?_, ?_, hnd2⟩, rfl, ?_, rfl⟩
    · simp [instrlist_append, hlink]
    · simp only [List.nil_append, linked, hq]
      exact ⟨trivial, hqp, hqn⟩
    · simp
    · intro x; rfl
  | cons p ps' =>
    have hfirst : bb.first = some p := by
      simp only [linked] at hlink
      exact hlink.1
    obtain ⟨l, hl⟩ : ∃ l, (p :: ps').getLast? = some l := by
      cases hg : (p :: ps').getLast? with
      | none => simp at hg
      | some l => exact ⟨l, rfl⟩
    rw [hl] at hlast
    have hlmem : l ∈ p :: ps' := List.mem_of_getLast?_eq_some hl
    obtain ⟨nl, hnl⟩ := linked_mem h _ _ _ hlink l hlmem
    have hlq : l ≠ q := fun e => hnot (e ▸ hlmem)
    have hqlt : q < h.length := (List.getElem?_eq_some.mp hq).1
    have hllt : l < h.length := (List.getElem?_eq_some.mp hnl).1
    have e1 : (h.set l { nl with next := some q })[q]? = some nq := by
      rw [List.getElem?_set_ne hlq, hq]
    refine ⟨(h.set l { nl with next := some q }).set q { nq with prev := some l },
      { bb with last := some q }, ?_,
      ⟨?_, (List.getLast?_concat (p :: ps')).symm, hnd2⟩, by simp, ?_, rfl⟩
    · simp only [instrlist_append, hfirst, hlast, updateNode, hnl, e1]
    · exact linked_snoc h q nq hq hqn _ _ _ l nl hlink hl hnot hnd hnl
    · intro x
      rw [List.getElem?_set, List.getElem?_set]
      by_cases hx : q = x
      · subst hx
        simp [hqlt, hq, instr_t.payload, hqp]
      · by_cases hx2 : l = x
        · subst hx2
          simp [hx, hllt, hnl, instr_t.payload]
        · simp [hx, hx2]

end parentProgram

namespace parentProgram

theorem receivedAs_of_payload (n m : instr_t)
    (r : instr_data_t × List instr_opnd_t × List instr_opnd_t) (j : Int)
    (hp : n.payload = m.payload) (hm : m.receivedAs r j) : n.receivedAs r j := by
  have hn : n = { m with next := n.next, prev := n.prev } := by
    cases n; cases m
    simp only [instr_t.payload, instr_t.mk.injEq, and_true] at hp
    simp only [instr_t.mk.injEq, and_true]
    exact hp
  rw [hn]
  exact hm

theorem linked_heap_append (h t : Heap) :
    ∀ (ps : List Nat) (prev cur : Option Nat), linked h prev cur ps →
      linked (h ++ t) prev cur ps := by
  intro ps
  induction ps with
  | nil => intro _ _ hl; simpa [linked] using hl
  | cons p ps ih =>
    intro prev cur hl
    simp only [linked] at hl ⊢
    cases hp : h[p]? with
    | none => simp [hp] at hl
    | some n =>
      have hlt : p < h.length := (List.getElem?_eq_some.mp hp).1
      simp only [hp] at hl
      rw [List.getElem?_append_left hlt, hp]
      exact ⟨hl.1, hl.2.1, ih _ _ hl.2.2⟩

theorem receiveLoop_spec (fresh : Nat → instr_t)
    (hfresh : ∀ j, (fresh j).dirtySrc.length = 8 ∧ (fresh j).dirtyDst.length = 8) :
    ∀ (reads : List (List Nat))
      (recs : List (instr_data_t × List instr_opnd_t × List instr_opnd_t)),
      List.Forall₂ (fun buf r => recvRecord buf = some r) reads recs →
      (∀ r ∈ recs, r.1.numSrc ≤ 8 ∧ r.1.numDst ≤ 8) →
      ∀ (j : Nat) (h : Heap) (bb : instrlist_t) (ps : List Nat),
        isList h bb ps → (∀ p ∈ ps, p < h.length) →
        ∃ h1 bb1, receiveLoop fresh recs.length j reads h bb = some (h1, bb1) ∧
          isList h1 bb1 (ps ++ List.range' h.length recs.length) ∧
          h1.length = h.length + recs.length ∧
          bb1.fall_through = bb.fall_through ∧
          (∀ p : Nat, p < h.length →
            (h1[p]?).map instr_t.payload = (h[p]?).map instr_t.payload) ∧
          (∀ (i : Nat) (hi : i < recs.length), ∃ n, h1[h.length + i]? = some n ∧
            n.receivedAs recs[i] ((j + i : Nat) : Int)) := by
  intro reads recs hrel
  induction hrel with
  | nil =>
    intro _ j h bb ps hl _
    refine ⟨h, bb, rfl, by simpa using hl, rfl, rfl, fun _ _ => rfl, ?_⟩
    intro i hi
    simp at hi
  | @cons buf r reads recs hbuf _ ih =>
    intro hcount j h bb ps hl hlt
    obtain ⟨node, hnode, hrecv⟩ : ∃ node, recvInstr (fresh j) buf j = some node ∧
        node.receivedAs r j ∧ node.next = none ∧ node.prev = none := by
      obtain ⟨node, h1, h2, h3, h4, h5, h6, h7, h8, h9, h10, h11, h12⟩ :=
        recvInstr_spec (fresh j) buf j r hbuf (hcount r (List.mem_cons_self _ _)).1
          (hcount r (List.mem_cons_self _ _)).2 (hfresh j)
      exact ⟨node, h1, ⟨h2, h3, h4, h5, h6, h7, h10, h11, h12⟩, h8, h9⟩
    obtain ⟨hrec, hnext, hprev⟩ := hrecv
    have hq : (h ++ [node])[h.length]? = some node := List.getElem?_concat_length h node
    have hnot : h.length ∉ ps := fun hm => Nat.lt_irrefl _ (hlt _ hm)
    have hl' : isList (h ++ [node]) bb ps :=
      ⟨linked_heap_append h [node] ps _ _ hl.1, hl.2.1, hl.2.2⟩
    obtain ⟨h2, bb2, happ, hl2, hlen2, hpay2, hft2⟩ :=
      instrlist_append_spec (h ++ [node]) bb ps h.length node hl' hq hnext hprev hnot
    have hlen2' : h2.length = h.length + 1 := by simpa using hlen2
    obtain ⟨h1, bb1, hloop, hl1, hlen1, hft1, hpay1, hnew1⟩ :=
      ih (fun r hr => hcount r (List.mem_cons_of_mem _ hr)) (j + 1) h2 bb2 (ps ++ [h.length]) hl2
        (by
          intro p hp
          rcases List.mem_append.mp hp with hp | hp
          · have := hlt p hp; omega
          · simp at hp; omega)
    refine ⟨h1, bb1, ?_, ?_, ?_, ?_, ?_, ?_⟩
    · simp only [List.length_cons, receiveLoop, hnode, alloc, happ, hloop]
    · rw [hlen2'] at hl1
      simpa [List.range'_succ, List.append_assoc] using hl1
    · simp only [List.length_cons]; omega
    · rw [hft1, hft2]
    · intro p hp
      rw [hpay1 p (by omega), hpay2 p, List.getElem?_append_left hp]
    · intro i hi
      cases i with
      | zero =>
        have := hpay1 h.length (by omega)
        rw [hpay2, hq] at this
        cases hh : h1[h.length]? with
        | none => simp [hh] at this
        | some n =>
          simp only [hh, Option.map_some', Option.some.injEq] at this
          exact ⟨n, by simpa using hh, receivedAs_of_payload n node r _ this (by simpa using hrec)⟩
      | succ i =>
        obtain ⟨n, hn, hr⟩ := hnew1 i (by simpa using hi)
        refine ⟨n, ?_, ?_⟩
        · rw [← hn, hlen2']
          congr 1
          omega
        · have e : ((j + 1 + i : Nat) : Int) = ((j + (i + 1) : Nat) : Int) := by
            congr 1; omega
          simpa [e] using hr

end parentProgram

namespace parentProgram

theorem nodesFrom_linked (h : Heap) :
    ∀ (ps : List Nat) (prev cur : Option Nat) (fuel : Nat),
      linked h prev cur ps → ps.length < fuel → nodesFrom h fuel cur = some ps := by
  intro ps
  induction ps with
  | nil =>
    intro prev cur fuel hl hf
    cases fuel with
    | zero => simp at hf
    | succ f =>
      simp only [linked] at hl
      subst hl
      rfl
  | cons p ps ih =>
    intro prev cur fuel hl hf
    cases fuel with
    | zero => simp at hf
    | succ f =>
      simp only [linked] at hl
      obtain ⟨hc, hl⟩ := hl
      subst hc
      cases hp : h[p]? with
      | none => simp [hp] at hl
      | some n =>
        simp only [hp] at hl
        simp [nodesFrom, hp, ih (some p) n.next f hl.2 (by simpa using hf)]

end parentProgram

/-- C7: after the receive loop has taken the `N` records of a block (each with at most 8
sources and 8 destinations), the list consists of exactly the `N` nodes allocated for
them, linked in arrival order; the `j`-th node holds the `j`-th record (header, sources,
destinations), has `origIndex = j`, `dirty = 0`, `dirtyInst = 0`, and every `dirtySrc` /
`dirtyDst` flag below its operand counts is 0. -/
theorem C7_block_construction (fresh : Nat → parentProgram.instr_t) (h : parentProgram.Heap)
    (reads : List (List Nat))
    (recs : List (instr_data_t × List instr_opnd_t × List instr_opnd_t))
    (hfresh : ∀ j, (fresh j).dirtySrc.length = 8 ∧ (fresh j).dirtyDst.length = 8)
    (hrecs : List.Forall₂ (fun buf r => parentProgram.recvRecord buf = some r) reads recs)
    (hcount : ∀ r ∈ recs, r.1.numSrc ≤ 8 ∧ r.1.numDst ≤ 8) :
    ∃ h1 bb,
      parentProgram.receiveLoop fresh recs.length 0 reads h parentProgram.instrlist_create
        = some (h1, bb) ∧
      parentProgram.isList h1 bb (List.range' h.length recs.length) ∧
      parentProgram.nodesFrom h1 (recs.length + 1) bb.first
        = some (List.range' h.length recs.length) ∧
      ∀ (j : Nat) (hj : j < recs.length), ∃ n, h1[h.length + j]? = some n ∧
        n.iData = recs[j].1 ∧ n.src = recs[j].2.1 ∧ n.dst = recs[j].2.2 ∧
        n.origIndex = (j : Int) ∧ n.dirty = 0 ∧ n.dirtyInst = 0 ∧
        (∀ s : Nat, (s : Int) < n.iData.numSrc → n.dirtySrc[s]? = some 0) ∧
        (∀ s : Nat, (s : Int) < n.iData.numDst → n.dirtyDst[s]? = some 0) := by
  obtain ⟨h1, bb, hloop, hl, _, _, _, hnew⟩ :=
    parentProgram.receiveLoop_spec fresh hfresh reads recs hrecs hcount 0 h
      parentProgram.instrlist_create []
      ⟨by simp [parentProgram.linked, parentProgram.instrlist_create],
       by simp [parentProgram.instrlist_create], List.nodup_nil⟩
      (by intro p hp; simp at hp)
  rw [List.nil_append] at hl
  refine ⟨h1, bb, hloop, hl, ?_, ?_⟩
  · exact parentProgram.nodesFrom_linked h1 _ none bb.first _ hl.1 (by simp)
  · intro j hj
    obtain ⟨n, hn, h1', h2, h3, h4, h5, h6, _, h8, h9⟩ := hnew j hj
    exact ⟨n, hn, h1', h2, h3, by simpa using h4, h5, h6, h8, h9⟩

/-- C7 for a block of the single record of `sampleBranch`, received into an empty heap. -/
theorem C7_block_construction_witness :
    ((∀ j, (sampleFresh j).dirtySrc.length = 8 ∧ (sampleFresh j).dirtyDst.length = 8) ∧
      List.Forall₂ (fun buf r => parentProgram.recvRecord buf = some r)
        [childProgramClient.encodeInstr sampleStale sampleBranch] [sampleRecord] ∧
      ∀ r ∈ [sampleRecord], r.1.numSrc ≤ 8 ∧ r.1.numDst ≤ 8) ∧
    ∃ h1 bb,
      parentProgram.receiveLoop sampleFresh 1 0
        [childProgramClient.encodeInstr sampleStale sampleBranch] []
        parentProgram.instrlist_create = some (h1, bb) ∧
      parentProgram.isList h1 bb [0] :=
  ⟨⟨fun _ => ⟨rfl, rfl⟩, List.Forall₂.cons (by decide) List.Forall₂.nil, by decide⟩,
    (C7_block_construction sampleFresh [] [childProgramClient.encodeInstr sampleStale sampleBranch]
      [sampleRecord] (fun _ => ⟨rfl, rfl⟩) (List.Forall₂.cons (by decide) List.Forall₂.nil)
      (by decide)).imp fun _ hh => hh.imp fun _ hb => ⟨hb.1, hb.2.1⟩⟩

/-! ## Stability of `origIndex` -/

namespace parentProgram

theorem stable_refl (h : Heap) : stable h h := ⟨rfl, fun _ n hn => ⟨n, hn, rfl⟩⟩

theorem stable_trans {h h1 h2 : Heap} (a : stable h h1) (b : stable h1 h2) : stable h h2 := by
  refine ⟨by rw [b.1, a.1], fun q n hn => ?_⟩
  obtain ⟨n1, hn1, e1⟩ := a.2 q n hn
  obtain ⟨n2, hn2, e2⟩ := b.2 q n1 hn1
  exact ⟨n2, hn2, by rw [e2, e1]⟩

theorem stable_set (h : Heap) (p : Nat) (n m : instr_t) (hp : h[p]? = some n)
    (hm : m.origIndex = n.origIndex) : stable h (h.set p m) := by
  refine ⟨by simp, fun q k hk => ?_⟩
  have hplt : p < h.length := (List.getElem?_eq_some.mp hp).1
  by_cases hq : p = q
  · subst hq
    rw [hp] at hk
    simp only [Option.some.injEq] at hk
    subst hk
    exact ⟨m, List.getElem?_set_self hplt, hm⟩
  · exact ⟨k, by rw [List.getElem?_set_ne hq, hk], rfl⟩

theorem stable_updateNode {h h1 : Heap} {p : Nat} {f : instr_t → instr_t}
    (hu : updateNode h p f = some h1) (hf : ∀ n, (f n).origIndex = n.origIndex) :
    stable h h1 := by
  unfold updateNode at hu
  split at hu
  · exact absurd hu (by simp)
  · rename_i n hn
    simp only [Option.some.injEq] at hu
    subst hu
    exact stable_set h p n (f n) hn (hf n)

theorem instrlist_append_stable {h h1 : Heap} {bb bb1 : instrlist_t} {instr : Nat}
    (hh : instrlist_append h bb instr = some (h1, bb1)) : stable h h1 := by
  unfold instrlist_append at hh
  repeat' split at hh
  all_goals first
    | (simp at hh; done)
    | (simp only [Option.some.injEq, Prod.mk.injEq] at hh
       obtain ⟨rfl, _⟩ := hh
       first
         | exact stable_refl _
         | exact stable_trans (stable_updateNode (by assumption) (by intro _; rfl))
             (stable_updateNode (by assumption) (by intro _; rfl)))

theorem instrlist_postinsert_stable {fuel : Nat} {h h1 : Heap} {bb bb1 : instrlist_t}
    {anchor instr : Nat}
    (hh : instrlist_postinsert fuel h bb anchor instr = some (h1, bb1)) : stable h h1 := by
  unfold instrlist_postinsert at hh
  repeat' split at hh
  all_goals first
    | (simp at hh; done)
    | (simp only [Option.some.injEq, Prod.mk.injEq] at hh
       obtain ⟨rfl, _⟩ := hh
       first
         | exact stable_refl _
         | exact stable_trans (stable_updateNode (by assumption) (by intro _; rfl))
             (stable_updateNode (by assumption) (by intro _; rfl))
         | exact stable_trans (stable_updateNode (by assumption) (by intro _; rfl))
             (stable_trans (stable_updateNode (by assumption) (by intro _; rfl))
               (stable_updateNode (by assumption) (by intro _; rfl))))

theorem instrlist_replace_stable {h h1 : Heap} {bb bb1 : instrlist_t} {oldinst newinst r : Nat}
    (hh : instrlist_replace h bb oldinst newinst = some (h1, bb1, r)) : stable h h1 := by
  unfold instrlist_replace at hh
  repeat' split at hh
  all_goals first
    | (simp at hh; done)
    | (simp only [Option.some.injEq, Prod.mk.injEq] at hh
       obtain ⟨rfl, _⟩ := hh
       first
         | exact stable_refl _
         | exact stable_trans (stable_updateNode (by assumption) (by intro _; rfl))
             (stable_updateNode (by assumption) (by intro _; rfl)))

theorem instr_set_branch_target_pc_origIndex {n n1 : instr_t} {pc : Nat}
    (hh : instr_set_branch_target_pc n pc = some n1) : n1.origIndex = n.origIndex := by
  unfold instr_set_branch_target_pc at hh
  repeat' split at hh
  all_goals first
    | (simp at hh; done)
    | (simp only [Option.some.injEq] at hh
       subst hh
       rfl)

end parentProgram

namespace parentProgram

theorem instr_clone_spec {h h1 : Heap} {orig c : Nat} (hh : instr_clone h orig = some (h1, c)) :
    ∃ o n, h[orig]? = some o ∧ h1 = h ++ [n] ∧ c = h.length ∧ n.origIndex = o.origIndex := by
  unfold instr_clone at hh
  split at hh
  · simp at hh
  · rename_i o ho
    split at hh
    · simp at hh
    · rename_i n hn
      simp only [alloc, Option.some.injEq, Prod.mk.injEq] at hh
      refine ⟨o, n, ho, hh.1.symm, hh.2.symm, ?_⟩
      unfold cloneNode at hn
      split at hn
      · simp only [Option.some.injEq] at hn
        subst hn
        rfl
      · simp at hn

theorem tracked_stable {h h1 : Heap} {origin : List (Option Int)} (ht : tracked h origin)
    (hs : stable h h1) : tracked h1 origin := by
  refine ⟨by rw [ht.1, hs.1], fun p j hp => ?_⟩
  obtain ⟨n, hn, e⟩ := ht.2 p j hp
  obtain ⟨n1, hn1, e1⟩ := hs.2 p n hn
  exact ⟨n1, hn1, by rw [e1, e]⟩

theorem applyEdit_tracked {fuel : Nat} {h h1 : Heap} {bb bb1 : instrlist_t} {e : Edit}
    {origin : List (Option Int)} (ht : tracked h origin)
    (hh : applyEdit fuel h bb e = some (h1, bb1)) : tracked h1 (traceOrigin [e] origin) := by
  cases e with
  | clone orig =>
    simp only [applyEdit] at hh
    split at hh
    · simp at hh
    · rename_i h2 c hc
      simp only [Option.some.injEq, Prod.mk.injEq] at hh
      obtain ⟨rfl, _⟩ := hh
      obtain ⟨o, n, ho, rfl, _, hno⟩ := instr_clone_spec hc
      simp only [traceOrigin]
      refine ⟨by simp [ht.1], fun p j hp => ?_⟩
      by_cases hlt : p < h.length
      · rw [List.getElem?_append_left (by rw [ht.1]; exact hlt)] at hp
        obtain ⟨m, hm, e⟩ := ht.2 p j hp
        exact ⟨m, by rw [List.getElem?_append_left hlt, hm], e⟩
      · have hge : origin.length ≤ p := by rw [ht.1]; omega
        rw [List.getElem?_append_right hge] at hp
        have hp0 : p - origin.length = 0 := by
          by_contra hne
          have : ([(origin[orig]?).join] : List (Option Int))[p - origin.length]? = none := by
            apply List.getElem?_eq_none
            simp only [List.length_singleton]
            omega
          rw [this] at hp
          simp at hp
        rw [hp0] at hp
        simp only [List.getElem?_cons_zero, Option.some.injEq] at hp
        have hpe : p = h.length := by rw [← ht.1]; omega
        have hor : origin[orig]? = some (some j) := by
          cases ho' : origin[orig]? with
          | none => simp [ho'] at hp
          | some v => simpa [ho'] using hp
        obtain ⟨m, hm, e⟩ := ht.2 orig j hor
        rw [ho] at hm
        simp only [Option.some.injEq] at hm
        subst hm
        exact ⟨n, by rw [hpe, List.getElem?_concat_length], by rw [hno, e]⟩
  | append instr => exact tracked_stable ht (instrlist_append_stable hh)
  | postinsert anchor instr => exact tracked_stable ht (instrlist_postinsert_stable hh)
  | replace oldinst newinst =>
    simp only [applyEdit] at hh
    split at hh
    · simp at hh
    · rename_i h2 bb2 r hr
      simp only [Option.some.injEq, Prod.mk.injEq] at hh
      obtain ⟨rfl, _⟩ := hh
      exact tracked_stable ht (instrlist_replace_stable hr)
  | set_translation instr pc =>
    simp only [applyEdit] at hh
    split at hh
    · simp at hh
    · rename_i h2 hu
      simp only [Option.some.injEq, Prod.mk.injEq] at hh
      obtain ⟨rfl, _⟩ := hh
      exact tracked_stable ht (stable_updateNode hu (fun _ => rfl))
  | set_opcode instr opcode =>
    simp only [applyEdit] at hh
    split at hh
    · simp at hh
    · rename_i h2 hu
      simp only [Option.some.injEq, Prod.mk.injEq] at hh
      obtain ⟨rfl, _⟩ := hh
      exact tracked_stable ht (stable_updateNode hu (fun _ => rfl))
  | set_branch_target_pc instr pc =>
    simp only [applyEdit] at hh
    split at hh
    · simp at hh
    · rename_i n hn
      split at hh
      · simp at hh
      · rename_i n1 hn1
        simp only [Option.some.injEq, Prod.mk.injEq] at hh
        obtain ⟨rfl, _⟩ := hh
        exact tracked_stable ht
          (stable_set h instr n n1 hn (instr_set_branch_target_pc_origIndex hn1))

theorem traceOrigin_cons (e : Edit) (es : List Edit) (origin : List (Option Int)) :
    traceOrigin (e :: es) origin = traceOrigin es (traceOrigin [e] origin) := by
  cases e <;> rfl

theorem applyEdits_tracked (fuel : Nat) :
    ∀ (edits : List Edit) (h : Heap) (bb : instrlist_t) (origin : List (Option Int))
      (h2 : Heap) (bb2 : instrlist_t), tracked h origin →
      applyEdits fuel edits h bb = some (h2, bb2) → tracked h2 (traceOrigin edits origin) := by
  intro edits
  induction edits with
  | nil =>
    intro h bb origin h2 bb2 ht hh
    simp only [applyEdits, Option.some.injEq, Prod.mk.injEq] at hh
    obtain ⟨rfl, _⟩ := hh
    exact ht
  | cons e es ih =>
    intro h bb origin h2 bb2 ht hh
    simp only [applyEdits] at hh
    split at hh
    · simp at hh
    · rename_i h1 bb1 he
      rw [traceOrigin_cons]
      exact ih h1 bb1 _ h2 bb2 (applyEdit_tracked ht he) hh

end parentProgram

namespace parentProgram

theorem applyEdit_keeps {fuel : Nat} {h h1 : Heap} {bb bb1 : instrlist_t} {e : Edit}
    (hh : applyEdit fuel h bb e = some (h1, bb1)) (p : Nat) (n : instr_t) (hn : h[p]? = some n) :
    ∃ n1, h1[p]? = some n1 ∧ n1.origIndex = n.origIndex := by
  have ht : tracked h (h.map fun m => some m.origIndex) := by
    refine ⟨by simp, fun q j hq => ?_⟩
    rw [List.getElem?_map] at hq
    cases hm : h[q]? with
    | none => simp [hm] at hq
    | some m =>
      simp only [hm, Option.map_some', Option.some.injEq] at hq
      exact ⟨m, rfl, hq⟩
  have h1t := applyEdit_tracked ht hh
  have hlt : p < h.length := (List.getElem?_eq_some.mp hn).1
  have horigin : (traceOrigin [e] (h.map fun m => some m.origIndex))[p]?
      = some (some n.origIndex) := by
    have hbase : (h.map fun m => some m.origIndex)[p]? = some (some n.origIndex) := by
      rw [List.getElem?_map, hn]; rfl
    cases e <;> first
      | exact hbase
      | (simp only [traceOrigin]
         rw [List.getElem?_append_left (by simpa using hlt)]
         exact hbase)
  exact h1t.2 p _ horigin

theorem tracked_received (h0 h1 : Heap)
    (recs : List (instr_data_t × List instr_opnd_t × List instr_opnd_t))
    (hlen : h1.length = h0.length + recs.length)
    (hnew : ∀ (i : Nat) (hi : i < recs.length), ∃ n, h1[h0.length + i]? = some n ∧
      n.receivedAs recs[i] ((0 + i : Nat) : Int)) :
    tracked h1 (receivedOrigin h0 recs.length) := by
  refine ⟨by simp [receivedOrigin, hlen], fun p j hp => ?_⟩
  unfold receivedOrigin at hp
  by_cases hlt : p < h0.length
  · rw [List.getElem?_append_left (by simpa using hlt)] at hp
    simp [List.getElem?_replicate, hlt] at hp
  · rw [List.getElem?_append_right (by simpa using hlt)] at hp
    simp only [List.length_replicate, List.getElem?_map] at hp
    cases hr : (List.range recs.length)[p - h0.length]? with
    | none => simp [hr] at hp
    | some i =>
      simp only [hr, Option.map_some', Option.some.injEq] at hp
      have hi := List.getElem?_eq_some.mp hr
      obtain ⟨hi1, hi2⟩ := hi
      simp only [List.length_range] at hi1
      simp only [List.getElem_range] at hi2
      obtain ⟨n, hn, hrec⟩ := hnew (p - h0.length) hi1
      refine ⟨n, ?_, ?_⟩
      · rw [← hn]; congr 1; omega
      · rw [hrec.2.2.2.1, ← hp, ← hi2]; simp

end parentProgram

/-- C8: (1) `instr_clone` returns a node with the `origIndex` of its argument; (2) each of
`instr_clone`, `instrlist_append`, `instrlist_postinsert`, `instrlist_replace`,
`instr_set_translation`, `instr_set_opcode`, `instr_set_branch_target_pc` leaves the
`origIndex` of every existing node as it was; (3) hence after a block has been received and
any sequence of these calls has been made, every node that was received as or cloned from
the record that arrived at position `j` has `origIndex = j`. -/
theorem C8_index_stability :
    (∀ (h h1 : parentProgram.Heap) (orig c : Nat),
      parentProgram.instr_clone h orig = some (h1, c) →
      ∃ o n, h[orig]? = some o ∧ h1[c]? = some n ∧ n.origIndex = o.origIndex) ∧
    (∀ (fuel : Nat) (h h1 : parentProgram.Heap) (bb bb1 : parentProgram.instrlist_t)
      (e : parentProgram.Edit), parentProgram.applyEdit fuel h bb e = some (h1, bb1) →
      ∀ (p : Nat) (n : parentProgram.instr_t), h[p]? = some n →
        ∃ n1, h1[p]? = some n1 ∧ n1.origIndex = n.origIndex) ∧
    (∀ (fuel : Nat) (fresh : Nat → parentProgram.instr_t) (h0 : parentProgram.Heap)
      (reads : List (List Nat))
      (recs : List (instr_data_t × List instr_opnd_t × List instr_opnd_t)),
      (∀ j, (fresh j).dirtySrc.length = 8 ∧ (fresh j).dirtyDst.length = 8) →
      List.Forall₂ (fun buf r => parentProgram.recvRecord buf = some r) reads recs →
      (∀ r ∈ recs, r.1.numSrc ≤ 8 ∧ r.1.numDst ≤ 8) →
      ∃ h1 bb1,
        parentProgram.receiveLoop fresh recs.length 0 reads h0 parentProgram.instrlist_create
          = some (h1, bb1) ∧
        ∀ (edits : List parentProgram.Edit) (h2 : parentProgram.Heap)
          (bb2 : parentProgram.instrlist_t),
          parentProgram.applyEdits fuel edits h1 bb1 = some (h2, bb2) →
          ∀ (p : Nat) (j : Int),
            (parentProgram.traceOrigin edits
              (parentProgram.receivedOrigin h0 recs.length))[p]? = some (some j) →
            ∃ n, h2[p]? = some n ∧ n.origIndex = j) := by
  refine ⟨?_, ?_, ?_⟩
  · intro h h1 orig c hh
    obtain ⟨o, n, ho, rfl, rfl, hn⟩ := parentProgram.instr_clone_spec hh
    exact ⟨o, n, ho, List.getElem?_concat_length h n, hn⟩
  · intro fuel h h1 bb bb1 e hh p n hn
    exact parentProgram.applyEdit_keeps hh p n hn
  · intro fuel fresh h0 reads recs hfresh hrecs hcount
    obtain ⟨h1, bb1, hloop, _, hlen, _, _, hnew⟩ :=
      parentProgram.receiveLoop_spec fresh hfresh reads recs hrecs hcount 0 h0
        parentProgram.instrlist_create []
        ⟨by simp [parentProgram.linked, parentProgram.instrlist_create],
         by simp [parentProgram.instrlist_create], List.nodup_nil⟩
        (by intro p hp; simp at hp)
    refine ⟨h1, bb1, hloop, fun edits h2 bb2 hrun p j hp => ?_⟩
    have ht := parentProgram.tracked_received h0 h1 recs hlen hnew
    exact (parentProgram.applyEdits_tracked fuel edits h1 bb1 _ h2 bb2 ht hrun).2 p j hp

/-- C8 on the received `sampleBranch` and the calls `sampleEdits`: the clone at address 1 keeps
index 0. -/
theorem C8_index_stability_witness :
    (List.Forall₂ (fun buf r => parentProgram.recvRecord buf = some r)
        [childProgramClient.encodeInstr sampleStale sampleBranch] [sampleRecord] ∧
      parentProgram.applyEdits 4 sampleEdits sampleReceived.1 sampleReceived.2
        = some sampleEdited ∧
      (parentProgram.traceOrigin sampleEdits (parentProgram.receivedOrigin [] 1))[1]?
        = some (some 0)) ∧
    ∃ h1 bb1,
      parentProgram.receiveLoop sampleFresh 1 0
        [childProgramClient.encodeInstr sampleStale sampleBranch] []
        parentProgram.instrlist_create = some (h1, bb1) ∧
      ∀ h2 bb2, parentProgram.applyEdits 4 sampleEdits h1 bb1 = some (h2, bb2) →
        ∃ n, h2[1]? = some n ∧ n.origIndex = 0 :=
  ⟨⟨List.Forall₂.cons (by decide) List.Forall₂.nil, by decide, by decide⟩,
    (C8_index_stability.2.2 4 sampleFresh []
      [childProgramClient.encodeInstr sampleStale sampleBranch] [sampleRecord]
      (fun _ => ⟨rfl, rfl⟩) (List.Forall₂.cons (by decide) List.Forall₂.nil) (by decide)).imp
      fun _ h => h.imp fun _ hb => ⟨hb.1, fun h2 bb2 hrun => hb.2 sampleEdits h2 bb2 hrun 1 0
        (by decide)⟩⟩

/-! ## Instruction records on the wire -/

theorem readData_dataBytes (d : instr_data_t) (hd : d.inRange) (rest : List Nat) :
    readData (dataBytes d ++ rest) = some (d, rest) := by
  obtain ⟨h1, h2, h3, h4, h5⟩ := hd
  simp only [readData, dataBytes, List.append_assoc, readPtr_le64 _ h1, readInt_le32 _ h2,
    readInt_le32 _ h3, readInt_le32 _ h4, readInt_le32 _ h5]

theorem readInt_le32_pad (pad : Nat) (rest : List Nat) :
    ∃ v, readInt (le32 (pad % 4294967296) ++ rest) = some (v, rest) := by
  simp only [le32, List.cons_append, List.nil_append, readInt, Option.some.injEq, Prod.mk.injEq,
    and_true, exists_eq']

theorem readOpnd_opndBytes (pad : Nat) (o : instr_opnd_t) (ho : o.inRange) (rest : List Nat) :
    readOpnd (opndBytes pad o ++ rest) = some (o, rest) := by
  obtain ⟨h1, h2, h3, h4⟩ := ho
  obtain ⟨v, hv⟩ := readInt_le32_pad pad
    (le64 (longBits o.longParam) ++ (le32 (intBits o.p1) ++ (le32 (intBits o.p2) ++ rest)))
  simp only [readOpnd, opndBytes, List.append_assoc, readInt_le32 _ h1, hv, readLong_le64 _ h2,
    readInt_le32 _ h3, readInt_le32 _ h4]

theorem parse_opnd_inRange (dest : instr_opnd_t) (src : childProgramClient.opnd_t)
    (hd : dest.inRange) (hs : src.inRange) : (childProgramClient.parse_opnd dest src).inRange := by
  obtain ⟨h1, h2, h3, h4⟩ := hd
  unfold childProgramClient.opnd_t.inRange at hs
  unfold childProgramClient.parse_opnd
  repeat' split
  all_goals
    refine ⟨?_, ?_, ?_, ?_⟩ <;>
      first
        | assumption
        | exact isInt32_toInt32 _
        | exact isInt64_toInt64 _
        | (simp only [isInt32]; omega)

theorem readOpnds_slotBytes (stale : Nat → instr_opnd_t × Nat)
    (hstale : ∀ k, (stale k).1.inRange) :
    ∀ (ops : List childProgramClient.opnd_t) (slot : Nat) (rest : List Nat),
      (∀ o ∈ ops, o.inRange) →
      readOpnds ops.length (childProgramClient.slotBytes stale slot ops ++ rest)
        = some (childProgramClient.parseOpnds stale slot ops, rest) := by
  intro ops
  induction ops with
  | nil => intro slot rest _; rfl
  | cons o ops ih =>
    intro slot rest hin
    have ho : (childProgramClient.parse_opnd (stale slot).1 o).inRange :=
      parse_opnd_inRange _ _ (hstale slot) (hin o (List.mem_cons_self _ _))
    simp only [List.length_cons, readOpnds, childProgramClient.slotBytes, List.append_assoc,
      readOpnd_opndBytes _ _ ho, ih (slot + 1) rest (fun x hx => hin x (List.mem_cons_of_mem _ hx)),
      childProgramClient.parseOpnds]

theorem headerOf_inRange (instr : childProgramClient.instr_t) (hin : instr.inRange)
    (hs : instr.srcs.length ≤ 8) (hd : instr.dsts.length ≤ 8) :
    (childProgramClient.headerOf instr).inRange := by
  obtain ⟨h1, h2, h3, _, _⟩ := hin
  refine ⟨h1, h2, ?_, ?_, h3⟩
  · simp only [childProgramClient.headerOf, childProgramClient.instr_num_srcs, isInt32]
    omega
  · simp only [childProgramClient.headerOf, childProgramClient.instr_num_dsts, isInt32]
    omega

theorem recvRecord_encodeInstr (stale : Nat → instr_opnd_t × Nat)
    (instr : childProgramClient.instr_t) (rest : List Nat)
    (hs : instr.srcs.length ≤ 8) (hd : instr.dsts.length ≤ 8) (hin : instr.inRange)
    (hstale : ∀ k, (stale k).1.inRange) :
    parentProgram.recvRecord (childProgramClient.encodeInstr stale instr ++ rest) =
      some (childProgramClient.headerOf instr,
            childProgramClient.parseOpnds stale 0 instr.srcs,
            childProgramClient.parseOpnds stale instr.srcs.length instr.dsts) := by
  have hn1 : ¬ ((instr.srcs.length : Int) < 0 ∨ (instr.dsts.length : Int) < 0) := by omega
  have e1 : (childProgramClient.headerOf instr).numSrc.toNat = instr.srcs.length := by
    simp [childProgramClient.headerOf, childProgramClient.instr_num_srcs]
  have e2 : (childProgramClient.headerOf instr).numDst.toNat = instr.dsts.length := by
    simp [childProgramClient.headerOf, childProgramClient.instr_num_dsts]
  unfold parentProgram.recvRecord childProgramClient.encodeInstr
  simp only [List.append_assoc, readData_dataBytes _ (headerOf_inRange instr hin hs hd), e1, e2,
    readOpnds_slotBytes stale hstale _ _ _ hin.2.2.2.1,
    readOpnds_slotBytes stale hstale _ _ _ hin.2.2.2.2]
  simp [childProgramClient.headerOf, childProgramClient.instr_num_srcs,
    childProgramClient.instr_num_dsts]

/-- C5: the client encodes an instruction with at most 8 sources and 8 destinations as its
header followed by the source operand records and then the destination operand records; the
node the optimizer process builds from that message has the same address, opcode, numSrc,
numDst and encoded length, the same source operand records in the same order and the same
destination operand records in the same order. -/
theorem C5_record_round_trip (stale : Nat → instr_opnd_t × Nat)
    (instr : childProgramClient.instr_t) (fresh : parentProgram.instr_t) (j : Int)
    (rest : List Nat)
    (hs : instr.srcs.length ≤ 8) (hd : instr.dsts.length ≤ 8) (hin : instr.inRange)
    (hstale : ∀ k, (stale k).1.inRange)
    (hfresh : fresh.dirtySrc.length = 8 ∧ fresh.dirtyDst.length = 8) :
    ∃ node,
      parentProgram.recvInstr fresh (childProgramClient.encodeInstr stale instr ++ rest) j
        = some node ∧
      node.iData.app_pc = instr.app_pc ∧ node.iData.opcode = instr.opcode ∧
      node.iData.numSrc = instr.srcs.length ∧ node.iData.numDst = instr.dsts.length ∧
      node.iData.length = instr.length ∧
      node.src = childProgramClient.parseOpnds stale 0 instr.srcs ∧
      node.dst = childProgramClient.parseOpnds stale instr.srcs.length instr.dsts := by
  have hrec := recvRecord_encodeInstr stale instr rest hs hd hin hstale
  obtain ⟨node, hnode, h1, h2, h3, _⟩ :=
    parentProgram.recvInstr_spec fresh _ j _ hrec
      (by simp only [childProgramClient.headerOf, childProgramClient.instr_num_srcs]; omega)
      (by simp only [childProgramClient.headerOf, childProgramClient.instr_num_dsts]; omega)
      hfresh
  refine ⟨node, hnode, ?_, ?_, ?_, ?_, ?_, h2, h3⟩ <;> rw [h1] <;> rfl

theorem sampleStale_inRange : ∀ k, (sampleStale k).1.inRange := by
  intro k
  show instr_opnd_t.inRange { type := 0, longParam := 0, p1 := 0, p2 := 0 }
  decide

/-- C5 on `sampleBranch`, with three more bytes in the buffer behind the message. -/
theorem C5_record_round_trip_witness :
    (sampleBranch.srcs.length ≤ 8 ∧ sampleBranch.dsts.length ≤ 8 ∧ sampleBranch.inRange ∧
      (∀ k, (sampleStale k).1.inRange) ∧
      (sampleFresh 0).dirtySrc.length = 8 ∧ (sampleFresh 0).dirtyDst.length = 8) ∧
    ∃ node,
      parentProgram.recvInstr (sampleFresh 0)
        (childProgramClient.encodeInstr sampleStale sampleBranch ++ [1, 2, 3]) 0 = some node ∧
      node.iData.app_pc = 4096 ∧ node.iData.opcode = 30 ∧
      node.src = [{ type := 7, longParam := 8192, p1 := 0, p2 := 0 }] ∧ node.dst = [] :=
  ⟨⟨by decide, by decide, by decide, sampleStale_inRange, rfl, rfl⟩,
    (C5_record_round_trip sampleStale sampleBranch (sampleFresh 0) 0 [1, 2, 3] (by decide)
      (by decide) (by decide) (sampleStale_inRange) ⟨rfl, rfl⟩).imp
      fun _ hn => ⟨hn.1, hn.2.1, hn.2.2.1, hn.2.2.2.2.2.2.1, hn.2.2.2.2.2.2.2⟩⟩

/-! ## Patch entries on the wire -/

theorem applySrcs_length :
    ∀ (ds : List Int) (os : List instr_opnd_t) (s : Nat) (inst : childProgramClient.instr_t),
      (childProgramClient.applySrcs s ds os inst).srcs.length = inst.srcs.length := by
  intro ds
  induction ds with
  | nil => intro os s inst; simp [childProgramClient.applySrcs]
  | cons d ds ih =>
    intro os s inst
    cases os with
    | nil => simp [childProgramClient.applySrcs]
    | cons o os =>
      simp only [childProgramClient.applySrcs]
      rw [ih]
      split <;> simp

theorem patchSrcs_srcFlagBytes :
    ∀ (ds : List Int) (os : List instr_opnd_t) (s : Nat) (inst : childProgramClient.instr_t)
      (rest : List Nat), ds.length = os.length → (∀ d ∈ ds, isInt32 d) →
      (∀ o ∈ os, o.inRange) → s + ds.length ≤ inst.srcs.length →
      childProgramClient.patchSrcs ds.length (s : Int) inst (parentProgram.srcFlagBytes ds os ++ rest) =
        some (childProgramClient.applySrcs s ds os inst, childProgramClient.srcReads ds os,
              rest) := by
  intro ds
  induction ds with
  | nil =>
    intro os s inst rest hlen _ _ _
    cases os with
    | nil => rfl
    | cons o os => simp at hlen
  | cons d ds ih =>
    intro os s inst rest hlen hd ho hs
    cases os with
    | nil => simp at hlen
    | cons o os =>
      have hlen' : ds.length = os.length := by simpa using hlen
      have hd0 := hd d (List.mem_cons_self _ _)
      have ho0 := ho o (List.mem_cons_self _ _)
      have hcast : ((s : Int) + 1) = ((s + 1 : Nat) : Int) := by push_cast; rfl
      have hslt : s < inst.srcs.length := by simp only [List.length_cons] at hs; omega
      by_cases hz : d = 0
      · subst hz
        have := ih os (s + 1) inst rest hlen' (fun x hx => hd x (List.mem_cons_of_mem _ hx))
          (fun x hx => ho x (List.mem_cons_of_mem _ hx))
          (by simp only [List.length_cons] at hs; omega)
        simp only [List.length_cons, childProgramClient.patchSrcs, parentProgram.srcFlagBytes,
          List.append_assoc, readInt_le32 _ hd0, ne_eq, not_true_eq_false, if_false,
          List.nil_append, hcast, this, childProgramClient.applySrcs,
          childProgramClient.srcReads, List.zipWith_cons_cons, false_and]
      · have hrep := replace_src_eq inst s o.type o.longParam o.p1 o.p2 hslt
        by_cases h7 : o.type = 7
        · rw [if_pos h7] at hrep
          have := ih os (s + 1)
            { inst with
              srcs := inst.srcs.set s (childProgramClient.opnd_create_pc (longBits o.longParam)) }
            rest hlen'
            (fun x hx => hd x (List.mem_cons_of_mem _ hx))
            (fun x hx => ho x (List.mem_cons_of_mem _ hx))
            (by simp only [List.length_cons, List.length_set] at hs ⊢; omega)
          simp only [List.length_cons, childProgramClient.patchSrcs, parentProgram.srcFlagBytes,
            List.append_assoc, readInt_le32 _ hd0, ne_eq, hz, not_false_eq_true, if_true,
            readPatchOpnd_bytes o ho0, hrep, hcast, this, childProgramClient.applySrcs,
            childProgramClient.srcReads, List.zipWith_cons_cons]
          simp only [h7, and_self, if_true]
        · rw [if_neg h7] at hrep
          have := ih os (s + 1) inst rest hlen' (fun x hx => hd x (List.mem_cons_of_mem _ hx))
            (fun x hx => ho x (List.mem_cons_of_mem _ hx))
            (by simp only [List.length_cons] at hs; omega)
          simp only [List.length_cons, childProgramClient.patchSrcs, parentProgram.srcFlagBytes,
            List.append_assoc, readInt_le32 _ hd0, ne_eq, hz, not_false_eq_true, if_true,
            readPatchOpnd_bytes o ho0, hrep, hcast, this, childProgramClient.applySrcs,
            childProgramClient.srcReads, List.zipWith_cons_cons]
          simp only [h7, and_false, if_false]

theorem patchEntry_patchBytes (node : parentProgram.instr_t)
    (bb : List childProgramClient.instr_t) (orig : childProgramClient.instr_t) (rest : List Nat)
    (hshape : node.shaped) (hrange : node.inRange)
    (hn : orig.srcs.length = node.src.length)
    (hres : childProgramClient.nthApp bb node.origIndex.toNat = some orig) :
    readInt (parentProgram.patchBytes node ++ rest)
        = some (node.origIndex, parentProgram.patchTail node ++ rest) ∧
      childProgramClient.patchEntry bb node.origIndex (parentProgram.patchTail node ++ rest)
        = some (patched node orig, patchReadOf node, rest) := by
  obtain ⟨hs1, _, hs3, hs4, _, _, hs7, _⟩ := hshape
  obtain ⟨hr1, hr2, hr3, ⟨hp, hop, _, _, _⟩, hr5, _, hr7, _⟩ := hrange
  have hk : node.iData.numSrc.toNat = node.src.length := hs7.symm
  have hds : (node.dirtySrc.take node.src.length).length = node.src.length := by
    rw [List.length_take]; omega
  have hdr : ∀ d ∈ node.dirtySrc.take node.src.length, isInt32 d :=
    fun d hd => hr7 d (List.mem_of_mem_take hd)
  have hpc : node.iData.app_pc % 18446744073709551616 = node.iData.app_pc := by
    unfold isPtr at hp; omega
  refine ⟨by simp only [parentProgram.patchBytes, List.append_assoc, readInt_le32 _ hr1], ?_⟩
  unfold childProgramClient.patchEntry childProgramClient.applyEntry parentProgram.patchTail
  simp only [hres, childProgramClient.instr_clone, List.append_assoc, readInt_le32 _ hr2]
  by_cases hd : node.dirty = 0
  · simp [hd, patched, patchReadOf]
  · simp only [ne_eq, hd, not_false_eq_true, if_true, List.append_assoc, readInt_le32 _ hr3]
    by_cases hi : node.dirtyInst = 0
    · have key := patchSrcs_srcFlagBytes (node.dirtySrc.take node.src.length) node.src 0 orig
        rest hds hdr hr5 (by rw [hds, hn]; omega)
      rw [hds] at key
      simp only [hi, not_true_eq_false, if_false, List.nil_append, hk]
      simp only [Nat.cast_zero] at key
      rw [hn, key]
      simp [patched, patchReadOf, hd, hi]
    · have key := patchSrcs_srcFlagBytes (node.dirtySrc.take node.src.length) node.src 0
        (childProgramClient.instr_set_opcode
          (childProgramClient.instr_set_translation orig node.iData.app_pc) node.iData.opcode)
        rest hds hdr hr5
        (by
          rw [hds]
          simp only [childProgramClient.instr_set_opcode, childProgramClient.instr_set_translation]
          omega)
      rw [hds] at key
      simp only [hi, not_false_eq_true, if_true, List.append_assoc, hpc, readPtr_le64 _ hp,
        readInt_le32 _ hop, hk]
      simp only [Nat.cast_zero] at key
      have hlen : (childProgramClient.instr_set_opcode
          (childProgramClient.instr_set_translation orig node.iData.app_pc)
          node.iData.opcode).srcs.length = node.src.length := hn
      rw [hlen, key]
      simp [patched, patchReadOf, hd, hi]

/-- C4 (the claim as stated fails): for a node whose `dirty` flag is clear while `dirtyInst`
and `dirtySrc[0]` are set, the encoder writes the index and the `dirty` flag only (8
bytes); the decoder loads no `instructionDirty` flag and no source flag from them, so these
settings are not recovered. -/
theorem C4_flags_of_clean_node_not_sent :
    parentProgram.encodePatch sampleHalfFlagged = some [0, 0, 0, 0, 0, 0, 0, 0] ∧
    ∃ r log, childProgramClient.patchEntry [sampleBranch] 0 [0, 0, 0, 0] = some (r, log, []) ∧
      log.instDirty ≠ some sampleHalfFlagged.dirtyInst ∧
      log.srcs.map (fun x => x.temp) ≠ sampleHalfFlagged.dirtySrc.take 1 :=
  ⟨by decide, sampleBranch,
    { baseIndex := 0, dirty := 0, instDirty := none, pcOpcode := none, srcs := [] },
    by decide, by decide, by decide⟩

/-- C4 (amended): for an optimizer node with `n ≤ 8` sources and any setting of its flags,
decoding the bytes the encoder writes, against an original instruction with `n` sources,
recovers the same index and `dirty` flag and, when `dirty` is set, the same `dirtyInst`
flag, the same address and opcode when `dirtyInst` is set, and for each source the same
flag and, when set, the same operand fields; for a node whose `dirty` is clear nothing
else is loaded.  The decoder stops exactly behind the bytes the encoder produced. -/
theorem C4_patch_wire_round_trip (node : parentProgram.instr_t)
    (bb : List childProgramClient.instr_t) (orig : childProgramClient.instr_t) (rest : List Nat)
    (hshape : node.shaped) (hrange : node.inRange)
    (hn : orig.srcs.length = node.src.length)
    (hres : childProgramClient.nthApp bb node.origIndex.toNat = some orig) :
    ∃ msg tail r log,
      parentProgram.encodePatch node = some msg ∧
      readInt (msg ++ rest) = some (node.origIndex, tail) ∧
      childProgramClient.patchEntry bb node.origIndex tail = some (r, log, rest) ∧
      log.baseIndex = node.origIndex ∧ log.dirty = node.dirty ∧
      (node.dirty ≠ 0 →
        log.instDirty = some node.dirtyInst ∧
        (node.dirtyInst ≠ 0 → log.pcOpcode = some (node.iData.app_pc, node.iData.opcode)) ∧
        (node.dirtyInst = 0 → log.pcOpcode = none) ∧
        log.srcs = List.zipWith
          (fun d o => { temp := d, opnd := if d ≠ 0 then some o else none })
          (node.dirtySrc.take node.src.length) node.src) ∧
      (node.dirty = 0 → log.instDirty = none ∧ log.pcOpcode = none ∧ log.srcs = []) := by
  obtain ⟨h1, h2⟩ := patchEntry_patchBytes node bb orig rest hshape hrange hn hres
  refine ⟨_, _, _, _, parentProgram.encodePatch_eq node hshape, h1, h2, rfl, rfl, ?_, ?_⟩
  · intro hd
    refine ⟨by simp [patchReadOf, hd], fun hi => by simp [patchReadOf, hd, hi],
      fun hi => by simp [patchReadOf, hi], by simp [patchReadOf, hd, childProgramClient.srcReads]⟩
  · intro hd
    simp [patchReadOf, hd]

/-- C4 (amended) on the dirty node `sampleDirty`, decoded against `sampleBranch`. -/
theorem C4_patch_wire_round_trip_witness :
    (sampleDirty.shaped ∧ sampleDirty.inRange ∧
      sampleBranch.srcs.length = sampleDirty.src.length ∧
      childProgramClient.nthApp [sampleBranch] sampleDirty.origIndex.toNat = some sampleBranch) ∧
    ∃ msg tail r log,
      parentProgram.encodePatch sampleDirty = some msg ∧
      readInt (msg ++ [9]) = some (0, tail) ∧
      childProgramClient.patchEntry [sampleBranch] 0 tail = some (r, log, [9]) ∧
      log.instDirty = some 1 ∧ log.pcOpcode = some (4096, 31) ∧
      log.srcs = [{ temp := 1, opnd := some { type := 7, longParam := 12288, p1 := 0, p2 := 0 } }] :=
  ⟨⟨by decide, by decide, by decide, by decide⟩,
    (C4_patch_wire_round_trip sampleDirty [sampleBranch] sampleBranch [9] (by decide) (by decide)
      (by decide) (by decide)).imp fun _ h1 => h1.imp fun _ h2 => h2.imp fun _ h3 => h3.imp
        fun _ h4 => ⟨h4.1, h4.2.1, h4.2.2.1, (h4.2.2.2.2.2.1 (by decide)).1,
          (h4.2.2.2.2.2.1 (by decide)).2.1 (by decide),
          (h4.2.2.2.2.2.1 (by decide)).2.2.2⟩⟩

/-! ## Applying a patch stream -/

namespace childProgramClient

theorem nthApp_eq_getElem? : ∀ (bb : List instr_t) (n : Nat), nthApp bb n = bb[n]? := by
  intro bb
  induction bb with
  | nil => intro n; simp [nthApp]
  | cons i rest ih =>
    intro n
    cases n with
    | zero => simp [nthApp]
    | succ n => simp [nthApp, ih]

theorem copyBack_eq : ∀ (newInsts : List instr_t) (bb : instrlist_t),
    copyBack newInsts bb = { bb with instrs := bb.instrs ++ newInsts } := by
  intro newInsts
  induction newInsts with
  | nil => intro bb; simp [copyBack]
  | cons i rest ih =>
    intro bb
    simp [copyBack, ih, instrlist_append, instr_clone]

theorem patchLoop_entries (bb : List instr_t) (sentinel : List Nat) (more : List (List Nat))
    (hsent : entryIndex sentinel = some (-1)) :
    ∀ (entries : List (List Nat)) (outs acc : List instr_t),
      List.Forall₂ (fun buf out => ∃ idx tail log rest, readInt buf = some (idx, tail) ∧
        idx ≠ -1 ∧ patchEntry bb idx tail = some (out, log, rest)) entries outs →
      patchLoop bb (entries ++ sentinel :: more) acc = some (acc ++ outs, more) := by
  intro entries outs acc hrel
  induction hrel generalizing acc with
  | nil =>
    unfold entryIndex at hsent
    split at hsent
    · simp at hsent
    · rename_i i tail hread
      simp only [Option.some.injEq] at hsent
      subst hsent
      simp [patchLoop, hread]
  | @cons buf out entries outs hbuf _ ih =>
    obtain ⟨idx, tail, log, rest, hread, hne, hentry⟩ := hbuf
    simp only [List.cons_append, patchLoop, hread, hne, if_false, hentry]
    have := ih (acc ++ [out])
    simpa using this

end childProgramClient

/-- The patch loop over entries that are applicable one by one collects their results, and
the block is replaced by them. -/
theorem applyPatches_entries (bb : childProgramClient.instrlist_t) (entries : List (List Nat))
    (outs : List childProgramClient.instr_t) (sentinel ft : List Nat) (more : List (List Nat))
    (f : Nat) (ftRest : List Nat)
    (hent : List.Forall₂ (fun buf out => ∃ idx tail base log rest,
      readInt buf = some (idx, tail) ∧ 0 ≤ idx ∧ idx < bb.instrs.length ∧
      bb.instrs[idx.toNat]? = some base ∧
      childProgramClient.applyEntry (childProgramClient.instr_clone base) idx tail
        = some (out, log, rest)) entries outs)
    (hsent : entryIndex sentinel = some (-1)) (hft : readPtr ft = some (f, ftRest)) :
    childProgramClient.applyPatches bb (entries ++ sentinel :: ft :: more) =
      some { instrs := outs, fall_through := if f ≠ 0 then f else bb.fall_through } ∧
    outs.length = entries.length ∧
    List.Forall₂ (fun buf out => ∀ idx tail tail',
      readInt buf = some (idx, tail) → readInt tail = some (0, tail') →
      bb.instrs[idx.toNat]? = some out) entries outs := by
  have hrel : List.Forall₂ (fun buf out => ∃ idx tail log rest, readInt buf = some (idx, tail) ∧
      idx ≠ -1 ∧ childProgramClient.patchEntry bb.instrs idx tail = some (out, log, rest))
      entries outs := by
    refine hent.imp ?_
    rintro buf out ⟨idx, tail, base, log, rest, h1, h2, _, h4, h5⟩
    refine ⟨idx, tail, log, rest, h1, by omega, ?_⟩
    simp only [childProgramClient.patchEntry, childProgramClient.nthApp_eq_getElem?, h4, h5]
  refine ⟨?_, hent.length_eq.symm, ?_⟩
  · simp only [childProgramClient.applyPatches,
      childProgramClient.patchLoop_entries bb.instrs sentinel (ft :: more) hsent entries outs []
        hrel, hft, childProgramClient.copyBack_eq, childProgramClient.instrlist_clear,
      childProgramClient.instrlist_set_fall_through_target, List.nil_append]
    split <;> rfl
  · refine hent.imp ?_
    rintro buf out ⟨idx, tail, base, log, rest, h1, _, _, h4, h5⟩ idx' tail0 tail' hr1 hr2
    rw [h1] at hr1
    simp only [Option.some.injEq, Prod.mk.injEq] at hr1
    obtain ⟨rfl, rfl⟩ := hr1
    simp only [childProgramClient.applyEntry, hr2, ne_eq, not_true_eq_false, if_false,
      Option.some.injEq, Prod.mk.injEq, childProgramClient.instr_clone] at h5
    rw [h4, h5.1]

/-! ## A block that the optimizer leaves alone -/

theorem recvRecord_encodeInstrs (stale : Nat → Nat → instr_opnd_t × Nat)
    (hstale : ∀ j k, (stale j k).1.inRange) :
    ∀ (instrs : List childProgramClient.instr_t) (j : Nat),
      (∀ i ∈ instrs, i.srcs.length ≤ 8 ∧ i.dsts.length ≤ 8 ∧ i.inRange) →
      List.Forall₂ (fun buf r => parentProgram.recvRecord buf = some r)
        (childProgramClient.encodeInstrs stale j instrs)
        (childProgramClient.recordsOf stale j instrs) := by
  intro instrs
  induction instrs with
  | nil => intro j _; exact List.Forall₂.nil
  | cons i rest ih =>
    intro j hwf
    obtain ⟨h1, h2, h3⟩ := hwf i (List.mem_cons_self _ _)
    refine List.Forall₂.cons ?_ (ih (j + 1) (fun x hx => hwf x (List.mem_cons_of_mem _ hx)))
    have := recvRecord_encodeInstr (stale j) i [] h1 h2 h3 (hstale j)
    simpa [childProgramClient.recordOf] using this

theorem recordsOf_length (stale : Nat → Nat → instr_opnd_t × Nat) :
    ∀ (instrs : List childProgramClient.instr_t) (j : Nat),
      (childProgramClient.recordsOf stale j instrs).length = instrs.length := by
  intro instrs
  induction instrs with
  | nil => intro j; rfl
  | cons i rest ih => intro j; simp [childProgramClient.recordsOf, ih]

theorem recordsOf_counts (stale : Nat → Nat → instr_opnd_t × Nat) :
    ∀ (instrs : List childProgramClient.instr_t) (j : Nat),
      (∀ i ∈ instrs, i.srcs.length ≤ 8 ∧ i.dsts.length ≤ 8 ∧ i.inRange) →
      ∀ r ∈ childProgramClient.recordsOf stale j instrs, r.1.numSrc ≤ 8 ∧ r.1.numDst ≤ 8 := by
  intro instrs
  induction instrs with
  | nil => intro j _ r hr; simp [childProgramClient.recordsOf] at hr
  | cons i rest ih =>
    intro j hwf r hr
    simp only [childProgramClient.recordsOf, List.mem_cons] at hr
    rcases hr with rfl | hr
    · obtain ⟨h1, h2, _⟩ := hwf i (List.mem_cons_self _ _)
      simp only [childProgramClient.recordOf, childProgramClient.headerOf,
        childProgramClient.instr_num_srcs, childProgramClient.instr_num_dsts]
      omega
    · exact ih (j + 1) (fun x hx => hwf x (List.mem_cons_of_mem _ hx)) r hr

namespace parentProgram

theorem patchBytes_clean (n : instr_t) (j : Nat) (h1 : n.origIndex = j) (h2 : n.dirty = 0) :
    patchBytes n = cleanEntry j := by
  simp [patchBytes, patchTail, cleanEntry, h1, h2]

theorem serveBlock_untouched (fuel : Nat) (fresh : Nat → instr_t) (h : Heap)
    (reads : List (List Nat))
    (recs : List (instr_data_t × List instr_opnd_t × List instr_opnd_t))
    (hfresh : ∀ j, (fresh j).dirtySrc.length = 8 ∧ (fresh j).dirtyDst.length = 8)
    (hrecs : List.Forall₂ (fun buf r => recvRecord buf = some r) reads recs)
    (hcount : ∀ r ∈ recs, r.1.numSrc ≤ 8 ∧ r.1.numDst ≤ 8) (hfuel : recs.length < fuel) :
    serveBlock optimize fuel fresh h (recs.length : Int) reads =
      some ((List.range recs.length).map cleanEntry ++
        [writeIntToBuf [] (-1), writePtrToBuf [] 0]) := by
  obtain ⟨h1, bb, hloop, hl, hlen, hft, _, hnew⟩ :=
    receiveLoop_spec fresh hfresh reads recs hrecs hcount 0 h instrlist_create []
      ⟨by simp [linked, instrlist_create], by simp [instrlist_create], List.nodup_nil⟩
      (by intro p hp; simp at hp)
  rw [List.nil_append] at hl
  have hshape : ∀ p ∈ List.range' h.length recs.length, ∀ n, h1[p]? = some n → n.shaped := by
    intro p hp n hn
    rw [List.mem_range'_1] at hp
    obtain ⟨m, hm, hrec⟩ := hnew (p - h.length) (by omega)
    rw [show h.length + (p - h.length) = p by omega, hn] at hm
    simp only [Option.some.injEq] at hm
    subst hm
    exact hrec.2.2.2.2.2.2.1
  obtain ⟨nodes, hnodes, hsend⟩ := sendLoop_linked h1 _ none bb.first fuel hl.1
    (by simpa using hfuel) hshape
  have hnl : nodes.length = recs.length := by
    have := hnodes.length_eq
    simpa using this.symm
  have hmap : nodes.map patchBytes = (List.range recs.length).map cleanEntry := by
    apply List.ext_getElem
    · simp [hnl]
    · intro i hi1 hi2
      simp only [List.length_map] at hi1
      simp only [List.getElem_map, List.getElem_range]
      have hpi := (List.forall₂_iff_get.mp hnodes).2 i (by simp; omega) hi1
      simp only [List.get_eq_getElem, List.getElem_range'_1] at hpi
      obtain ⟨m, hm, hrec⟩ := hnew i (by omega)
      rw [hpi] at hm
      simp only [Option.some.injEq] at hm
      subst hm
      exact patchBytes_clean _ i (by simpa using hrec.2.2.2.1) hrec.2.2.2.2.1
  have hft0 : bb.fall_through = 0 := by rw [hft]; rfl
  simp only [serveBlock, Int.toNat_ofNat, hloop, optimize, sendPatches, hsend, hmap, hft0]

end parentProgram

namespace childProgramClient

theorem applyPatches_untouched (bb : instrlist_t) (hN : isInt32 bb.instrs.length) :
    applyPatches bb ((List.range bb.instrs.length).map cleanEntry ++
      [parentProgram.writeIntToBuf [] (-1), parentProgram.writePtrToBuf [] 0]) = some bb := by
  have hrel : List.Forall₂ (fun buf out => ∃ idx tail log rest, readInt buf = some (idx, tail) ∧
      idx ≠ -1 ∧ patchEntry bb.instrs idx tail = some (out, log, rest))
      ((List.range bb.instrs.length).map cleanEntry) bb.instrs := by
    rw [List.forall₂_iff_get]
    refine ⟨by simp, fun i hi1 hi2 => ?_⟩
    simp only [List.get_eq_getElem, List.getElem_map, List.getElem_range]
    have hi : isInt32 (i : Int) := by
      unfold isInt32 at hN ⊢
      omega
    refine ⟨(i : Int), le32 (intBits 0),
      { baseIndex := i, dirty := 0, instDirty := none, pcOpcode := none, srcs := [] }, [],
      by simp only [cleanEntry, readInt_le32 _ hi], by omega, ?_⟩
    have h0 : readInt (le32 (intBits 0)) = some (0, []) := by decide
    simp only [patchEntry, Int.toNat_ofNat, nthApp_eq_getElem?, List.getElem?_eq_getElem hi2,
      applyEntry, h0, ne_eq, not_true_eq_false, if_false, instr_clone]
  have hsent : entryIndex (parentProgram.writeIntToBuf [] (-1)) = some (-1) := by decide
  have hft : readPtr (parentProgram.writePtrToBuf [] 0) = some (0, []) := by decide
  have hloop := patchLoop_entries bb.instrs _ [parentProgram.writePtrToBuf [] 0] hsent _ _ [] hrel
  simp only [applyPatches, hloop, hft, copyBack_eq, instrlist_clear, List.nil_append, ne_eq,
    not_true_eq_false, if_false]

end childProgramClient

/-- C1: for a block of `N ≥ 0` instructions, each with at most 8 sources and 8
destinations, and the optimizer that changes nothing (`optimize`, whose body is empty): from
the count and the records the client sends, the optimizer process emits the patch stream (0, not dirty),
(1, not dirty), ..., (N-1, not dirty), the sentinel -1 and a null fall-through address, and
the client applying that stream to its block ends with exactly the same `N` instructions
in the same order and the same fall-through target. -/
theorem C1_identity_end_to_end (fuel : Nat) (stale : Nat → Nat → instr_opnd_t × Nat)
    (fresh : Nat → parentProgram.instr_t) (h : parentProgram.Heap)
    (bb : childProgramClient.instrlist_t)
    (hwf : ∀ i ∈ bb.instrs, i.srcs.length ≤ 8 ∧ i.dsts.length ≤ 8 ∧ i.inRange)
    (hN : isInt32 bb.instrs.length)
    (hstale : ∀ j k, (stale j k).1.inRange)
    (hfresh : ∀ j, (fresh j).dirtySrc.length = 8 ∧ (fresh j).dirtyDst.length = 8)
    (hfuel : bb.instrs.length < fuel) :
    ∃ stream,
      parentProgram.serveCycle parentProgram.optimize fuel fresh h
        (childProgramClient.sendBlock stale bb).1 (childProgramClient.sendBlock stale bb).2
        = some stream ∧
      stream =
        List.map (fun j : Nat => le32 (intBits (j : Int)) ++ le32 (intBits 0))
            (List.range bb.instrs.length)
          ++ [le32 (intBits (-1)), le64 0] ∧
      childProgramClient.event_instruction_change true true stale bb stream
        = some ((childProgramClient.sendBlock stale bb).2, bb) := by
  have hrecs := recvRecord_encodeInstrs stale hstale bb.instrs 0 hwf
  have hcount := recordsOf_counts stale bb.instrs 0 hwf
  have hlen := recordsOf_length stale bb.instrs 0
  have hserve := parentProgram.serveBlock_untouched fuel fresh h _ _ hfresh hrecs hcount
    (by rw [hlen]; exact hfuel)
  rw [hlen] at hserve
  have hne : ((bb.instrs.length : Nat) : Int) ≠ -1 := by omega
  refine ⟨List.map cleanEntry (List.range bb.instrs.length) ++
    [parentProgram.writeIntToBuf [] (-1), parentProgram.writePtrToBuf [] 0], ?_, rfl, ?_⟩
  · simp only [parentProgram.serveCycle, childProgramClient.sendBlock]
    rw [← List.append_nil (le32 (intBits (bb.instrs.length : Int))), readInt_le32 _ hN]
    simp only [hne, if_false]
    exact hserve
  simp only [childProgramClient.event_instruction_change, Bool.not_true, Bool.or_self,
    Bool.false_eq_true, if_false, childProgramClient.applyPatches_untouched bb hN]

/-- C1 on the one-instruction block `sampleBlock`: the stream is the entry (0, not dirty), the
sentinel and a null address, and the block comes back unchanged. -/
theorem C1_identity_end_to_end_witness :
    ((∀ i ∈ sampleBlock.instrs, i.srcs.length ≤ 8 ∧ i.dsts.length ≤ 8 ∧ i.inRange) ∧
      isInt32 sampleBlock.instrs.length ∧ sampleBlock.instrs.length < 2) ∧
    ∃ stream,
      parentProgram.serveCycle parentProgram.optimize 2 sampleFresh []
        (childProgramClient.sendBlock (fun _ => sampleStale) sampleBlock).1
        (childProgramClient.sendBlock (fun _ => sampleStale) sampleBlock).2 = some stream ∧
      stream = [[0, 0, 0, 0, 0, 0, 0, 0], [255, 255, 255, 255], [0, 0, 0, 0, 0, 0, 0, 0]] ∧
      childProgramClient.event_instruction_change true true (fun _ => sampleStale) sampleBlock
        stream = some ((childProgramClient.sendBlock (fun _ => sampleStale) sampleBlock).2,
          sampleBlock) :=
  ⟨⟨by decide, by decide, by decide⟩,
    C1_identity_end_to_end 2 (fun _ => sampleStale) sampleFresh [] sampleBlock (by decide)
      (by decide) (fun _ => sampleStale_inRange) (fun _ => ⟨rfl, rfl⟩) (by decide)⟩

/-! ## Edits of a node and its patch entry -/

namespace parentProgram

theorem cloneNode_eq (n : instr_t) (hs : n.shaped) :
    cloneNode n = some { n with next := none, prev := none } := by
  obtain ⟨_, _, h3, _, h5, _, h7, h8⟩ := hs
  have e1 : copyOpnds n.iData.numSrc n.src = some n.src := by
    unfold copyOpnds
    rw [← h7]
    simp [h3]
  have e2 : copyOpnds n.iData.numDst n.dst = some n.dst := by
    unfold copyOpnds
    rw [← h8]
    simp [h5]
  simp only [cloneNode, e1, e2]

end parentProgram

namespace parentProgram

theorem isInt32_one : isInt32 1 := by decide

theorem editedFrom_clone (n : instr_t) (d : instr_data_t) (j : Int) (h : n.editedFrom d j) :
    instr_t.editedFrom { n with next := none, prev := none } d j := h

theorem editedFrom_set_translation (n : instr_t) (d : instr_data_t) (j : Int) (pc : Nat)
    (h : n.editedFrom d j) (hpc : isPtr pc) : (instr_set_translation n pc).editedFrom d j := by
  obtain ⟨hs, hr, h3, h4, _, _, h7, h8⟩ := h
  obtain ⟨r1, _, _, ⟨_, r4, r5, r6, r7⟩, r8, r9, r10, r11⟩ := hr
  refine ⟨hs, ⟨r1, isInt32_one, isInt32_one, ⟨hpc, r4, r5, r6, r7⟩, r8, r9, r10, r11⟩, h3, h4,
    fun _ => Int.one_ne_zero, fun hh => absurd hh Int.one_ne_zero, h7, fun hp hf => ?_⟩
  exact ⟨Int.one_ne_zero, (h8 hp hf).2⟩

theorem editedFrom_set_opcode (n : instr_t) (d : instr_data_t) (j : Int) (opcode : Int)
    (h : n.editedFrom d j) (hop : isInt32 opcode) : (instr_set_opcode n opcode).editedFrom d j := by
  obtain ⟨hs, hr, h3, h4, _, _, h7, h8⟩ := h
  obtain ⟨r1, _, _, ⟨r3, _, r5, r6, r7⟩, r8, r9, r10, r11⟩ := hr
  refine ⟨hs, ⟨r1, isInt32_one, isInt32_one, ⟨r3, hop, r5, r6, r7⟩, r8, r9, r10, r11⟩, h3, h4,
    fun _ => Int.one_ne_zero, fun hh => absurd hh Int.one_ne_zero, h7, fun hp hf => ?_⟩
  exact ⟨Int.one_ne_zero, (h8 hp hf).2⟩

theorem editedFrom_set_branch_target_pc (n n1 : instr_t) (d : instr_data_t) (j : Int) (pc : Nat)
    (h : n.editedFrom d j) (hh : instr_set_branch_target_pc n pc = some n1) :
    n1.editedFrom d j := by
  unfold instr_set_branch_target_pc at hh
  split at hh
  · simp only [Option.some.injEq] at hh; subst hh; exact h
  · split at hh
    · simp at hh
    · rename_i s0 hs0
      split at hh
      · simp only [Option.some.injEq] at hh; subst hh; exact h
      · rename_i h7
        split at hh
        · simp only [Option.some.injEq] at hh; subst hh; exact h
        · split at hh
          · rename_i hlen
            simp only [Option.some.injEq] at hh
            subst hh
            obtain ⟨hs, hr, h3, h4, h5, h6, h7', _⟩ := h
            obtain ⟨r1, _, r3, r4, r8, r9, r10, r11⟩ := hr
            obtain ⟨s1, s2, s3, s4, s5, s6, s7, s8⟩ := hs
            have hslt : 0 < n.src.length := (List.getElem?_eq_some.mp hs0).1
            have hs0r : s0.inRange := r8 s0 (List.getElem?_mem hs0)
            refine ⟨⟨by simpa using s1, s2, s3, s4, s5, s6, by simpa using s7, s8⟩,
              ⟨r1, isInt32_one, r3, r4, ?_, r9, ?_, r11⟩, h3, h4, fun _ => Int.one_ne_zero, h6,
              ?_, ?_⟩
            · intro o ho
              rcases List.mem_or_eq_of_mem_set ho with ho | rfl
              · exact r8 o ho
              · exact ⟨hs0r.1, isInt64_toInt64 pc, hs0r.2.2.1, hs0r.2.2.2⟩
            · intro x hx
              rcases List.mem_or_eq_of_mem_set hx with hx | rfl
              · exact r10 x hx
              · exact isInt32_one
            · intro s hs1 hs2
              simp only at hs2 ⊢
              rw [List.getElem?_set_ne (by omega)]
              exact h7' s hs1 hs2
            · intro _ _
              refine ⟨Int.one_ne_zero, { s0 with longParam := toInt64 pc }, ?_, ?_⟩
              · simp only [List.getElem?_set_self hslt]
              · simpa using h7
          · simp at hh

theorem editedFrom_applyNodeEdits (d : instr_data_t) (j : Int) :
    ∀ (edits : List NodeEdit) (n n1 : instr_t), n.editedFrom d j →
      (∀ e ∈ edits, e.inRange) → applyNodeEdits edits n = some n1 → n1.editedFrom d j := by
  intro edits
  induction edits with
  | nil =>
    intro n n1 h _ hh
    simp only [applyNodeEdits, Option.some.injEq] at hh
    subst hh
    exact h
  | cons e es ih =>
    intro n n1 h hr hh
    simp only [applyNodeEdits] at hh
    split at hh
    · simp at hh
    · rename_i n2 he
      refine ih n2 n1 ?_ (fun x hx => hr x (List.mem_cons_of_mem _ hx)) hh
      have her := hr e (List.mem_cons_self _ _)
      cases e with
      | clone =>
        simp only [applyNodeEdit, cloneNode_eq n h.1, Option.some.injEq] at he
        subst he
        exact editedFrom_clone n d j h
      | set_translation pc =>
        simp only [applyNodeEdit, Option.some.injEq] at he
        subst he
        exact editedFrom_set_translation n d j pc h her
      | set_opcode opcode =>
        simp only [applyNodeEdit, Option.some.injEq] at he
        subst he
        exact editedFrom_set_opcode n d j opcode h her
      | set_branch_target_pc pc =>
        exact editedFrom_set_branch_target_pc n n2 d j pc h he

end parentProgram

namespace childProgramClient

theorem applySrcs_zero :
    ∀ (ds : List Int) (os : List instr_opnd_t) (s : Nat) (inst : instr_t),
      (∀ d ∈ ds, d = 0) → applySrcs s ds os inst = inst := by
  intro ds
  induction ds with
  | nil => intro os s inst _; simp [applySrcs]
  | cons d ds ih =>
    intro os s inst hz
    cases os with
    | nil => simp [applySrcs]
    | cons o os =>
      have hd : d = 0 := hz d (List.mem_cons_self _ _)
      simp only [applySrcs, hd, ne_eq, not_true_eq_false, false_and, if_false]
      exact ih os (s + 1) inst (fun x hx => hz x (List.mem_cons_of_mem _ hx))

theorem applySrcs_fields :
    ∀ (ds : List Int) (os : List instr_opnd_t) (s : Nat) (inst : instr_t),
      (applySrcs s ds os inst).app_pc = inst.app_pc ∧
      (applySrcs s ds os inst).opcode = inst.opcode ∧
      (applySrcs s ds os inst).dsts = inst.dsts ∧
      (applySrcs s ds os inst).length = inst.length := by
  intro ds
  induction ds with
  | nil => intro os s inst; simp [applySrcs]
  | cons d ds ih =>
    intro os s inst
    cases os with
    | nil => simp [applySrcs]
    | cons o os =>
      simp only [applySrcs]
      obtain ⟨h1, h2, h3, h4⟩ := ih os (s + 1)
        (if d ≠ 0 ∧ o.type = 7 then
          { inst with srcs := inst.srcs.set s (opnd_create_pc (longBits o.longParam)) }
        else inst)
      rw [h1, h2, h3, h4]
      split <;> simp

end childProgramClient

theorem patched_editedFrom (node : parentProgram.instr_t) (d : instr_data_t) (j : Int)
    (orig : childProgramClient.instr_t) (h : node.editedFrom d j)
    (hpc : orig.app_pc = d.app_pc) (hop : orig.opcode = d.opcode) :
    (patched node orig).app_pc = node.iData.app_pc ∧
    (patched node orig).opcode = node.iData.opcode ∧
    (patched node orig).dsts = orig.dsts ∧
    (patched node orig).length = orig.length ∧
    (0 < node.iData.numSrc → node.dirtySrc[0]? ≠ some 0 →
      ∃ s0, node.src[0]? = some s0 ∧
        (patched node orig).srcs =
          orig.srcs.set 0 (childProgramClient.opnd_create_pc (longBits s0.longParam))) ∧
    ((node.iData.numSrc ≤ 0 ∨ node.dirtySrc[0]? = some 0) → (patched node orig).srcs = orig.srcs) := by
  obtain ⟨hs, _, _, _, h5, h6, h7, h8⟩ := h
  obtain ⟨s1, _, s3, s4, _, _, s7, _⟩ := hs
  by_cases hd : node.dirty = 0
  · have hi : node.dirtyInst = 0 := by
      by_contra hne
      exact h5 hne hd
    obtain ⟨e1, e2⟩ := h6 hi
    have hp : patched node orig = orig := by simp [patched, hd]
    rw [hp]
    refine ⟨by rw [hpc, e1], by rw [hop, e2], rfl, rfl, fun hpos hf => ?_, fun _ => rfl⟩
    exact absurd hd (h8 hpos hf).1
  · have hbase : ∀ base : childProgramClient.instr_t,
        (0 < node.iData.numSrc → node.dirtySrc[0]? ≠ some 0 →
          ∃ s0, node.src[0]? = some s0 ∧
            (childProgramClient.applySrcs 0 (node.dirtySrc.take node.src.length) node.src
              base).srcs =
              base.srcs.set 0 (childProgramClient.opnd_create_pc (longBits s0.longParam))) ∧
        ((node.iData.numSrc ≤ 0 ∨ node.dirtySrc[0]? = some 0) →
          (childProgramClient.applySrcs 0 (node.dirtySrc.take node.src.length) node.src
            base).srcs = base.srcs) := by
      intro base
      cases hsrc : node.src with
      | nil =>
        rw [hsrc] at s7
        simp only [List.length_nil] at s7
        refine ⟨fun hpos => by omega, fun _ => ?_⟩
        simp [childProgramClient.applySrcs]
      | cons s0 srest =>
        cases hfl : node.dirtySrc with
        | nil => rw [hfl] at s1; simp at s1
        | cons d0 drest =>
          rw [hsrc] at s7
          simp only [List.length_cons] at s7
          have hz : ∀ x ∈ drest.take srest.length, x = 0 := by
            intro x hx
            obtain ⟨i, hi⟩ := List.mem_iff_getElem?.mp hx
            have hilt : i < srest.length := by
              by_contra hge
              rw [List.getElem?_take_eq_none (by omega)] at hi
              simp at hi
            rw [List.getElem?_take_of_lt hilt] at hi
            have := h7 (i + 1) (by omega) (by omega)
            rw [hfl, List.getElem?_cons_succ, hi] at this
            simpa using this
          have hstep : childProgramClient.applySrcs 0
              (List.take (srest.length + 1) (d0 :: drest)) (s0 :: srest) base =
              (if d0 ≠ 0 ∧ s0.type = 7 then
                { base with
                  srcs := base.srcs.set 0
                    (childProgramClient.opnd_create_pc (longBits s0.longParam)) }
              else base) := by
            simp only [List.take_succ_cons, childProgramClient.applySrcs]
            exact childProgramClient.applySrcs_zero _ _ _ _ hz
          simp only [List.length_cons, hstep, List.getElem?_cons_zero, ne_eq,
            Option.some.injEq]
          refine ⟨fun hpos hf => ?_, fun hor => ?_⟩
          · have h8' := (h8 hpos (by rw [hfl]; simpa using hf)).2
            rw [hsrc] at h8'
            simp only [List.getElem?_cons_zero, Option.some.injEq, exists_eq_left'] at h8'
            exact ⟨s0, rfl, by simp [hf, h8']⟩
          · rcases hor with hle | hf0
            · omega
            · simp [hf0]
    have hfields := childProgramClient.applySrcs_fields (node.dirtySrc.take node.src.length)
      node.src 0
    by_cases hi : node.dirtyInst = 0
    · obtain ⟨e1, e2⟩ := h6 hi
      have hp : patched node orig =
          childProgramClient.applySrcs 0 (node.dirtySrc.take node.src.length) node.src orig := by
        simp [patched, hd, hi]
      rw [hp]
      obtain ⟨f1, f2, f3, f4⟩ := hfields orig
      exact ⟨by rw [f1, hpc, e1], by rw [f2, hop, e2], f3, f4, (hbase orig).1, (hbase orig).2⟩
    · have hp : patched node orig =
          childProgramClient.applySrcs 0 (node.dirtySrc.take node.src.length) node.src
            (childProgramClient.instr_set_opcode
              (childProgramClient.instr_set_translation orig node.iData.app_pc)
              node.iData.opcode) := by
        simp [patched, hd, hi]
      rw [hp]
      obtain ⟨f1, f2, f3, f4⟩ := hfields (childProgramClient.instr_set_opcode
        (childProgramClient.instr_set_translation orig node.iData.app_pc) node.iData.opcode)
      exact ⟨by rw [f1]; rfl, by rw [f2]; rfl, by rw [f3]; rfl, by rw [f4]; rfl,
        (hbase _).1, (hbase _).2⟩

namespace parentProgram

theorem isInt32_zero : isInt32 0 := by decide

theorem clearFlags_range :
    ∀ (k op : Nat) (flags r : List Int), clearFlags k op flags = some r →
      (∀ d ∈ flags, isInt32 d) → ∀ d ∈ r, isInt32 d := by
  intro k
  induction k with
  | zero =>
    intro op flags r h hf
    simp only [clearFlags, Option.some.injEq] at h
    subst h
    exact hf
  | succ k ih =>
    intro op flags r h hf
    simp only [clearFlags] at h
    split at h
    · refine ih (op + 1) _ r h (fun d hd => ?_)
      rcases List.mem_or_eq_of_mem_set hd with hd | rfl
      · exact hf d hd
      · decide
    · simp at h

theorem recvInstr_inRange (fresh : instr_t) (buf : List Nat) (j : Int)
    (r : instr_data_t × List instr_opnd_t × List instr_opnd_t) (node : instr_t)
    (hr : recvRecord buf = some r) (hnode : recvInstr fresh buf j = some node)
    (hj : isInt32 j) (hd : r.1.inRange) (hsrc : ∀ o ∈ r.2.1, o.inRange)
    (hdst : ∀ o ∈ r.2.2, o.inRange)
    (hf : (∀ x ∈ fresh.dirtySrc, isInt32 x) ∧ (∀ x ∈ fresh.dirtyDst, isInt32 x)) :
    node.inRange := by
  obtain ⟨iData, src, dst⟩ := r
  simp only [recvInstr, hr, instr_create] at hnode
  split at hnode
  · simp at hnode
  · rename_i ds hds
    split at hnode
    · simp at hnode
    · rename_i dd hdd
      simp only [Option.some.injEq] at hnode
      subst hnode
      exact ⟨hj, isInt32_zero, isInt32_zero, hd, hsrc, hdst,
        clearFlags_range _ _ _ _ hds hf.1, clearFlags_range _ _ _ _ hdd hf.2⟩

theorem editedFrom_received (node : instr_t)
    (r : instr_data_t × List instr_opnd_t × List instr_opnd_t) (j : Int)
    (hrec : node.receivedAs r j) (hrange : node.inRange) : node.editedFrom r.1 j := by
  obtain ⟨h1, _, _, h4, h5, h6, h7, h8, _⟩ := hrec
  refine ⟨h7, hrange, h4, by rw [h1], fun hne => absurd h6 hne, fun _ => by rw [h1]; exact ⟨rfl, rfl⟩,
    fun s _ hs => h8 s hs, fun hpos hf => ?_⟩
  exact absurd (h8 0 (by simpa using hpos)) hf

theorem applyNodeEdit_iData {n n1 : instr_t} {e : NodeEdit} (h : applyNodeEdit n e = some n1) :
    ((∀ pc, e ≠ .set_translation pc) → n1.iData.app_pc = n.iData.app_pc) ∧
    ((∀ op, e ≠ .set_opcode op) → n1.iData.opcode = n.iData.opcode) ∧
    ((∀ pc, e ≠ .set_branch_target_pc pc) → n1.dirtySrc = n.dirtySrc) := by
  cases e with
  | clone =>
    simp only [applyNodeEdit, cloneNode] at h
    split at h
    · simp only [Option.some.injEq] at h
      subst h
      exact ⟨fun _ => rfl, fun _ => rfl, fun _ => rfl⟩
    · simp at h
  | set_translation pc =>
    simp only [applyNodeEdit, Option.some.injEq] at h
    subst h
    exact ⟨fun hh => absurd rfl (hh pc), fun _ => rfl, fun _ => rfl⟩
  | set_opcode opcode =>
    simp only [applyNodeEdit, Option.some.injEq] at h
    subst h
    exact ⟨fun _ => rfl, fun hh => absurd rfl (hh opcode), fun _ => rfl⟩
  | set_branch_target_pc pc =>
    refine ⟨fun _ => ?_, fun _ => ?_, fun hh => absurd rfl (hh pc)⟩
    all_goals
      simp only [applyNodeEdit, instr_set_branch_target_pc] at h
      repeat' split at h
      all_goals first
        | (simp at h; done)
        | (simp only [Option.some.injEq] at h
           subst h
           rfl)

theorem applyNodeEdits_iData :
    ∀ (edits : List NodeEdit) (n n1 : instr_t), applyNodeEdits edits n = some n1 →
      ((∀ pc, NodeEdit.set_translation pc ∉ edits) → n1.iData.app_pc = n.iData.app_pc) ∧
      ((∀ op, NodeEdit.set_opcode op ∉ edits) → n1.iData.opcode = n.iData.opcode) ∧
      ((∀ pc, NodeEdit.set_branch_target_pc pc ∉ edits) → n1.dirtySrc = n.dirtySrc) := by
  intro edits
  induction edits with
  | nil =>
    intro n n1 h
    simp only [applyNodeEdits, Option.some.injEq] at h
    subst h
    exact ⟨fun _ => rfl, fun _ => rfl, fun _ => rfl⟩
  | cons e es ih =>
    intro n n1 h
    simp only [applyNodeEdits] at h
    split at h
    · simp at h
    · rename_i n2 he
      obtain ⟨a1, a2, a3⟩ := applyNodeEdit_iData he
      obtain ⟨b1, b2, b3⟩ := ih n2 n1 h
      refine ⟨fun hh => ?_, fun hh => ?_, fun hh => ?_⟩
      · rw [b1 (fun pc hm => hh pc (List.mem_cons_of_mem _ hm)),
          a1 (fun pc he' => hh pc (he' ▸ List.mem_cons_self _ _))]
      · rw [b2 (fun op hm => hh op (List.mem_cons_of_mem _ hm)),
          a2 (fun op he' => hh op (he' ▸ List.mem_cons_self _ _))]
      · rw [b3 (fun pc hm => hh pc (List.mem_cons_of_mem _ hm)),
          a3 (fun pc he' => hh pc (he' ▸ List.mem_cons_self _ _))]

end parentProgram

theorem parseOpnds_inRange (stale : Nat → instr_opnd_t × Nat)
    (hstale : ∀ k, (stale k).1.inRange) :
    ∀ (ops : List childProgramClient.opnd_t) (slot : Nat), (∀ o ∈ ops, o.inRange) →
      ∀ o ∈ childProgramClient.parseOpnds stale slot ops, o.inRange := by
  intro ops
  induction ops with
  | nil => intro slot _ o ho; simp [childProgramClient.parseOpnds] at ho
  | cons a ops ih =>
    intro slot hin o ho
    simp only [childProgramClient.parseOpnds, List.mem_cons] at ho
    rcases ho with rfl | ho
    · exact parse_opnd_inRange _ _ (hstale slot) (hin a (List.mem_cons_self _ _))
    · exact ih (slot + 1) (fun x hx => hin x (List.mem_cons_of_mem _ hx)) o ho

namespace parentProgram

theorem applyNodeEdit_total (n : instr_t) (d : instr_data_t) (j : Int) (e : NodeEdit)
    (h : n.editedFrom d j) : ∃ n1, applyNodeEdit n e = some n1 := by
  cases e with
  | clone => exact ⟨_, cloneNode_eq n h.1⟩
  | set_translation pc => exact ⟨_, rfl⟩
  | set_opcode opcode => exact ⟨_, rfl⟩
  | set_branch_target_pc pc =>
    obtain ⟨s1, _, s3, _, _, _, s7, _⟩ := h.1
    simp only [applyNodeEdit, instr_set_branch_target_pc]
    by_cases h0 : n.iData.numSrc = 0
    · exact ⟨n, by simp [h0]⟩
    · have hlt : 0 < n.src.length := by omega
      have hfl : 0 < n.dirtySrc.length := by omega
      simp only [h0, if_false, List.getElem?_eq_getElem hlt, hfl, if_true]
      split
      · exact ⟨_, rfl⟩
      · split <;> exact ⟨_, rfl⟩

theorem applyNodeEdits_total (d : instr_data_t) (j : Int) :
    ∀ (edits : List NodeEdit) (n : instr_t), n.editedFrom d j → (∀ e ∈ edits, e.inRange) →
      ∃ n1, applyNodeEdits edits n = some n1 := by
  intro edits
  induction edits with
  | nil => intro n _ _; exact ⟨n, rfl⟩
  | cons e es ih =>
    intro n h hr
    obtain ⟨n2, hn2⟩ := applyNodeEdit_total n d j e h
    have h2 : n2.editedFrom d j :=
      editedFrom_applyNodeEdits d j [e] n n2 h
        (fun x hx => hr x (by simp only [List.mem_singleton] at hx; simp [hx]))
        (by simp [applyNodeEdits, hn2])
    obtain ⟨n1, hn1⟩ := ih n2 h2 (fun x hx => hr x (List.mem_cons_of_mem _ hx))
    exact ⟨n1, by simp [applyNodeEdits, hn2, hn1]⟩

end parentProgram

namespace parentProgram

/-- A call that changes the source operands of a node sets the flag of source 0: as long as
that flag is clear (or the node has no source), the source operands are still `src0`. -/
theorem srcFlag_applyNodeEdit (n n1 : instr_t) (src0 : List instr_opnd_t) (e : NodeEdit)
    (hs : n.shaped) (h : applyNodeEdit n e = some n1)
    (hp : n.src ≠ src0 → 0 < n.iData.numSrc ∧ n.dirtySrc[0]? ≠ some 0) :
    n1.src ≠ src0 → 0 < n1.iData.numSrc ∧ n1.dirtySrc[0]? ≠ some 0 := by
  cases e with
  | clone =>
    simp only [applyNodeEdit, cloneNode_eq n hs, Option.some.injEq] at h
    subst h
    exact hp
  | set_translation pc =>
    simp only [applyNodeEdit, Option.some.injEq] at h
    subst h
    exact hp
  | set_opcode opcode =>
    simp only [applyNodeEdit, Option.some.injEq] at h
    subst h
    exact hp
  | set_branch_target_pc pc =>
    obtain ⟨s1, _, s3, _, _, _, _, _⟩ := hs
    simp only [applyNodeEdit, instr_set_branch_target_pc] at h
    split at h
    · simp only [Option.some.injEq] at h; subst h; exact hp
    · rename_i h0
      split at h
      · simp at h
      · split at h
        · simp only [Option.some.injEq] at h; subst h; exact hp
        · split at h
          · simp only [Option.some.injEq] at h; subst h; exact hp
          · split at h
            · rename_i hlen
              simp only [Option.some.injEq] at h
              subst h
              intro _
              have hpos : 0 < n.iData.numSrc := by omega
              refine ⟨hpos, ?_⟩
              show (n.dirtySrc.set 0 1)[0]? ≠ some 0
              rw [List.getElem?_set_self hlen]
              simp
            · simp at h

theorem srcFlag_applyNodeEdits (d : instr_data_t) (j : Int) (src0 : List instr_opnd_t) :
    ∀ (edits : List NodeEdit) (n n1 : instr_t), n.editedFrom d j →
      (∀ e ∈ edits, e.inRange) → applyNodeEdits edits n = some n1 →
      (n.src ≠ src0 → 0 < n.iData.numSrc ∧ n.dirtySrc[0]? ≠ some 0) →
      n1.src ≠ src0 → 0 < n1.iData.numSrc ∧ n1.dirtySrc[0]? ≠ some 0 := by
  intro edits
  induction edits with
  | nil =>
    intro n n1 _ _ hh hp
    simp only [applyNodeEdits, Option.some.injEq] at hh
    subst hh
    exact hp
  | cons e es ih =>
    intro n n1 h hr hh hp
    simp only [applyNodeEdits] at hh
    split at hh
    · simp at hh
    · rename_i n2 he
      have h2 : n2.editedFrom d j :=
        editedFrom_applyNodeEdits d j [e] n n2 h
          (fun x hx => hr x (by simp only [List.mem_singleton] at hx; simp [hx]))
          (by simp [applyNodeEdits, he])
      exact ih n2 n1 h2 (fun x hx => hr x (List.mem_cons_of_mem _ hx)) hh
        (srcFlag_applyNodeEdit n n2 src0 e h.1 he hp)

end parentProgram

/-- C2: take the node the optimizer process receives for the instruction at position `j` of
the client's block and change it only by `instr_clone`, `instr_set_translation`,
`instr_set_opcode` and `instr_set_branch_target_pc`.  The client, applying the patch entry
encoded for the resulting node to the original instruction at `origIndex = j`, obtains an
instruction with the node's address and opcode, and, when the branch target was changed
(the source operands of the node are no longer the received ones, or the flag of source 0
is set), with the direct address of the node's source 0 as its source 0.  What the
optimizer did not change keeps the original's value: the address without
`instr_set_translation`, the opcode without `instr_set_opcode`, all sources without
`instr_set_branch_target_pc`; the sources behind the first, the destinations and the length
in every case. -/
theorem C2_edits_propagate (stale : Nat → instr_opnd_t × Nat) (fresh : parentProgram.instr_t)
    (bb : List childProgramClient.instr_t) (j : Nat) (orig : childProgramClient.instr_t)
    (edits : List parentProgram.NodeEdit) (rest0 rest : List Nat)
    (horig : bb[j]? = some orig)
    (hs : orig.srcs.length ≤ 8) (hd : orig.dsts.length ≤ 8) (hin : orig.inRange)
    (hj : isInt32 j) (hstale : ∀ k, (stale k).1.inRange)
    (hfresh : fresh.dirtySrc.length = 8 ∧ fresh.dirtyDst.length = 8)
    (hfreshr : (∀ x ∈ fresh.dirtySrc, isInt32 x) ∧ (∀ x ∈ fresh.dirtyDst, isInt32 x))
    (hedits : ∀ e ∈ edits, e.inRange) :
    ∃ node0 node msg tail result log,
      parentProgram.recvInstr fresh (childProgramClient.encodeInstr stale orig ++ rest0) j
        = some node0 ∧
      parentProgram.applyNodeEdits edits node0 = some node ∧
      parentProgram.encodePatch node = some msg ∧
      readInt (msg ++ rest) = some ((j : Int), tail) ∧
      childProgramClient.patchEntry bb j tail = some (result, log, rest) ∧
      result.app_pc = node.iData.app_pc ∧ result.opcode = node.iData.opcode ∧
      (node.src ≠ node0.src →
        ∃ s0, node.src[0]? = some s0 ∧
          result.srcs[0]? = some (childProgramClient.opnd_create_pc (longBits s0.longParam))) ∧
      (0 < node.iData.numSrc → node.dirtySrc[0]? ≠ some 0 →
        ∃ s0, node.src[0]? = some s0 ∧
          result.srcs[0]? = some (childProgramClient.opnd_create_pc (longBits s0.longParam))) ∧
      ((∀ pc, parentProgram.NodeEdit.set_translation pc ∉ edits) →
        result.app_pc = orig.app_pc) ∧
      ((∀ op, parentProgram.NodeEdit.set_opcode op ∉ edits) → result.opcode = orig.opcode) ∧
      ((∀ pc, parentProgram.NodeEdit.set_branch_target_pc pc ∉ edits) →
        result.srcs = orig.srcs) ∧
      (∀ s : Nat, 1 ≤ s → result.srcs[s]? = orig.srcs[s]?) ∧
      result.dsts = orig.dsts ∧ result.length = orig.length := by
  have hrec := recvRecord_encodeInstr stale orig rest0 hs hd hin hstale
  have hhead := headerOf_inRange orig hin hs hd
  obtain ⟨node0, hrecv, g1, g2, g3, g4, g5, g6, _, _, g9, g10, g11⟩ :=
    parentProgram.recvInstr_spec fresh _ (j : Int) _ hrec
      (by simp only [childProgramClient.headerOf, childProgramClient.instr_num_srcs]; omega)
      (by simp only [childProgramClient.headerOf, childProgramClient.instr_num_dsts]; omega)
      hfresh
  have hrange0 := parentProgram.recvInstr_inRange fresh _ (j : Int) _ node0 hrec hrecv hj hhead
    (parseOpnds_inRange stale hstale _ _ hin.2.2.2.1)
    (parseOpnds_inRange stale hstale _ _ hin.2.2.2.2) hfreshr
  have hed0 := parentProgram.editedFrom_received node0 _ (j : Int)
    ⟨g1, g2, g3, g4, g5, g6, g9, g10, g11⟩ hrange0
  obtain ⟨node, hrun⟩ := parentProgram.applyNodeEdits_total _ _ edits node0 hed0 hedits
  have hed := parentProgram.editedFrom_applyNodeEdits _ _ edits node0 node hed0 hedits hrun
  obtain ⟨hshape, hrange, hidx, hnum, _⟩ := hed
  have hn : orig.srcs.length = node.src.length := by
    rw [hshape.2.2.2.2.2.2.1, hnum]
    simp [childProgramClient.headerOf, childProgramClient.instr_num_srcs]
  have hres : childProgramClient.nthApp bb node.origIndex.toNat = some orig := by
    rw [hidx, Int.toNat_ofNat, childProgramClient.nthApp_eq_getElem?, horig]
  obtain ⟨p1, p2⟩ := patchEntry_patchBytes node bb orig rest hshape hrange hn hres
  rw [hidx] at p1 p2
  obtain ⟨q1, q2, q3, q4, q5, q6⟩ := patched_editedFrom node _ (j : Int) orig
    ⟨hshape, hrange, hidx, hnum, ‹_›⟩ rfl rfl
  obtain ⟨r1, r2, r3⟩ := parentProgram.applyNodeEdits_iData edits node0 node hrun
  have hnumpos : 0 < node.iData.numSrc → 0 < orig.srcs.length := by
    intro hpos
    rw [hnum] at hpos
    simpa [childProgramClient.headerOf, childProgramClient.instr_num_srcs] using hpos
  have hsf := parentProgram.srcFlag_applyNodeEdits _ (j : Int) node0.src edits node0 node hed0
    hedits hrun (fun hne => absurd rfl hne)
  refine ⟨node0, node, _, _, _, _, hrecv, hrun, parentProgram.encodePatch_eq node hshape, p1, p2,
    q1, q2, ?_, ?_, ?_, ?_, ?_, ?_, q3, q4⟩
  · intro hne
    obtain ⟨hpos, hf⟩ := hsf hne
    obtain ⟨s0, hs0, hsrcs⟩ := q5 hpos hf
    exact ⟨s0, hs0, by rw [hsrcs, List.getElem?_set_self (hnumpos hpos)]⟩
  · intro hpos hf
    obtain ⟨s0, hs0, hsrcs⟩ := q5 hpos hf
    exact ⟨s0, hs0, by rw [hsrcs, List.getElem?_set_self (hnumpos hpos)]⟩
  · intro hh
    rw [q1, r1 hh, g1]; rfl
  · intro hh
    rw [q2, r2 hh, g1]; rfl
  · intro hh
    apply q6
    by_cases hpos : 0 < node.iData.numSrc
    · right
      rw [r3 hh]
      exact g10 0 (by rw [g1, ← hnum]; simpa using hpos)
    · left; omega
  · intro s hs1
    by_cases hcase : 0 < node.iData.numSrc ∧ node.dirtySrc[0]? ≠ some 0
    · obtain ⟨s0, _, hsrcs⟩ := q5 hcase.1 hcase.2
      rw [hsrcs, List.getElem?_set_ne (by omega)]
    · rw [q6 (by
        by_cases hpos : 0 < node.iData.numSrc
        · right
          by_contra hne
          exact hcase ⟨hpos, hne⟩
        · left; omega)]

theorem sampleNodeEdits_inRange : ∀ e ∈ sampleNodeEdits, e.inRange := by
  intro e he
  simp only [sampleNodeEdits, List.mem_cons, List.mem_singleton, List.not_mem_nil,
    or_false] at he
  rcases he with rfl | rfl | rfl
  · trivial
  · show isInt32 31
    decide
  · show isPtr 12288
    decide

/-- C2 on `sampleBranch` with the calls `sampleNodeEdits`: the node is retargeted to
`0x3000`, and so is source 0 of the client's result. -/
theorem C2_edits_propagate_witness :
    ([sampleBranch][0]? = some sampleBranch ∧ sampleBranch.inRange ∧
      ∀ e ∈ sampleNodeEdits, e.inRange) ∧
    ∃ node0 node msg tail result log,
      parentProgram.recvInstr (sampleFresh 0)
        (childProgramClient.encodeInstr sampleStale sampleBranch ++ []) (0 : Nat)
        = some node0 ∧
      parentProgram.applyNodeEdits sampleNodeEdits node0 = some node ∧
      parentProgram.encodePatch node = some msg ∧
      readInt (msg ++ []) = some (((0 : Nat) : Int), tail) ∧
      childProgramClient.patchEntry [sampleBranch] (0 : Nat) tail = some (result, log, []) ∧
      result.app_pc = node.iData.app_pc ∧ result.opcode = node.iData.opcode ∧
      node.src ≠ node0.src ∧
      result.srcs[0]? = some (childProgramClient.opnd_create_pc 12288) ∧
      result.dsts = sampleBranch.dsts := by
  obtain ⟨node0, node, msg, tail, result, log, h1, h2, h3, h4, h5, h6, h7, h8, _, _, _, _, _,
      h14, _⟩ :=
    C2_edits_propagate sampleStale (sampleFresh 0) [sampleBranch] 0 sampleBranch
      sampleNodeEdits [] [] (by decide) (by decide) (by decide)
      (by decide) (by decide) sampleStale_inRange ⟨rfl, rfl⟩ ⟨by decide, by decide⟩
      sampleNodeEdits_inRange
  have e0 : parentProgram.recvInstr (sampleFresh 0)
      (childProgramClient.encodeInstr sampleStale sampleBranch ++ []) ((0 : Nat) : Int)
      = some sampleClean := by decide
  have hn0 : node0 = sampleClean := Option.some.inj (h1.symm.trans e0)
  subst hn0
  have e1 : parentProgram.applyNodeEdits sampleNodeEdits sampleClean = some sampleDirty := by
    decide
  have hn1 : node = sampleDirty := Option.some.inj (h2.symm.trans e1)
  subst hn1
  have hne : sampleDirty.src ≠ sampleClean.src := by decide
  obtain ⟨s0, hs0, hres⟩ := h8 hne
  have e2 : sampleDirty.src[0]? = some { type := 7, longParam := 12288, p1 := 0, p2 := 0 } := by
    decide
  have hs : s0 = { type := 7, longParam := 12288, p1 := 0, p2 := 0 } :=
    Option.some.inj (hs0.symm.trans e2)
  subst hs
  exact ⟨⟨by decide, by decide, sampleNodeEdits_inRange⟩, sampleClean, sampleDirty, msg, tail,
    result, log, h1, h2, h3, h4, h5, h6, h7, hne, hres.trans (by decide), h14⟩

/-- The sample run of C2, evaluated: receiving `sampleBranch`, the calls `sampleNodeEdits`
give `sampleDirty`, and the client makes `sampleRetargeted` of the original. -/
theorem sampleNodeEdits_run :
    parentProgram.recvInstr (sampleFresh 0)
        (childProgramClient.encodeInstr sampleStale sampleBranch) 0 = some sampleClean ∧
    parentProgram.applyNodeEdits sampleNodeEdits sampleClean = some sampleDirty ∧
    patched sampleDirty sampleBranch = sampleRetargeted := by
  decide

/-! ## Patch entries in a buffer that is long enough -/

theorem readInt_total (buf : List Nat) (h : 4 ≤ buf.length) :
    ∃ v rest, readInt buf = some (v, rest) ∧ rest.length + 4 = buf.length := by
  match buf, h with
  | b0 :: b1 :: b2 :: b3 :: rest, _ => exact ⟨_, rest, rfl, by simp⟩

theorem readPtr_total (buf : List Nat) (h : 8 ≤ buf.length) :
    ∃ v rest, readPtr buf = some (v, rest) ∧ rest.length + 8 = buf.length := by
  match buf, h with
  | b0 :: b1 :: b2 :: b3 :: b4 :: b5 :: b6 :: b7 :: rest, _ => exact ⟨_, rest, rfl, by simp⟩

namespace childProgramClient

theorem readPatchOpnd_total (buf : List Nat) (h : 20 ≤ buf.length) :
    ∃ o rest, readPatchOpnd buf = some (o, rest) ∧ rest.length + 20 = buf.length := by
  obtain ⟨v1, r1, e1, l1⟩ := readInt_total buf (by omega)
  obtain ⟨v2, r2, e2, l2⟩ := readPtr_total r1 (by omega)
  obtain ⟨v3, r3, e3, l3⟩ := readInt_total r2 (by omega)
  obtain ⟨v4, r4, e4, l4⟩ := readInt_total r3 (by omega)
  simp only [readPatchOpnd, e1, readLong, e2, e3, e4]
  exact ⟨_, r4, rfl, by omega⟩

theorem replace_src_total (inst : instr_t) (s : Nat) (type longParam p1 p2 : Int)
    (hs : s < inst.srcs.length) :
    ∃ r, replace_src inst s type longParam p1 p2 = some r ∧ r.srcs.length = inst.srcs.length := by
  rw [replace_src_eq inst s type longParam p1 p2 hs]
  split
  · exact ⟨_, rfl, by simp⟩
  · exact ⟨_, rfl, rfl⟩

theorem patchSrcs_total :
    ∀ (k s : Nat) (inst : instr_t) (buf : List Nat), s + k ≤ inst.srcs.length →
      24 * k ≤ buf.length → ∃ r, patchSrcs k (s : Int) inst buf = some r := by
  intro k
  induction k with
  | zero => intro s inst buf _ _; exact ⟨_, rfl⟩
  | succ k ih =>
    intro s inst buf hs hb
    have hcast : ((s : Int) + 1) = ((s + 1 : Nat) : Int) := by push_cast; rfl
    obtain ⟨temp, b1, e1, l1⟩ := readInt_total buf (by omega)
    simp only [patchSrcs, e1, hcast]
    by_cases ht : temp = 0
    · obtain ⟨r, hr⟩ := ih (s + 1) inst b1 (by omega) (by omega)
      obtain ⟨r1, log, b⟩ := r
      simp only [ht, ne_eq, not_true_eq_false, if_false, hr]
      exact ⟨_, rfl⟩
    · obtain ⟨o, b5, e5, l5⟩ := readPatchOpnd_total b1 (by omega)
      obtain ⟨inst1, hrep, hlen⟩ := replace_src_total inst s o.type o.longParam o.p1 o.p2
        (by omega)
      obtain ⟨r, hr⟩ := ih (s + 1) inst1 b5 (by rw [hlen]; omega) (by omega)
      obtain ⟨r1, log, b⟩ := r
      simp only [ne_eq, ht, not_false_eq_true, if_true, e5, hrep, hr]
      exact ⟨_, rfl⟩

theorem applyEntry_total (newInst : instr_t) (baseIndex : Int) (bufRead : List Nat)
    (h : 20 + 24 * newInst.srcs.length ≤ bufRead.length) :
    ∃ r, applyEntry newInst baseIndex bufRead = some r := by
  obtain ⟨temp, b1, e1, l1⟩ := readInt_total bufRead (by omega)
  simp only [applyEntry, e1]
  by_cases ht : temp = 0
  · simp only [ht, ne_eq, not_true_eq_false, if_false]
    exact ⟨_, rfl⟩
  · obtain ⟨temp1, b2, e2, l2⟩ := readInt_total b1 (by omega)
    simp only [ne_eq, ht, not_false_eq_true, if_true, e2]
    by_cases ht1 : temp1 = 0
    · obtain ⟨r, hr⟩ := patchSrcs_total newInst.srcs.length 0 newInst b2 (by omega) (by omega)
      obtain ⟨r1, log, b⟩ := r
      simp only [Nat.cast_zero] at hr
      simp only [ht1, not_true_eq_false, if_false, hr]
      exact ⟨_, rfl⟩
    · obtain ⟨pc, b3, e3, l3⟩ := readPtr_total b2 (by omega)
      obtain ⟨opcode, b4, e4, l4⟩ := readInt_total b3 (by omega)
      obtain ⟨r, hr⟩ := patchSrcs_total newInst.srcs.length 0
        (instr_set_opcode (instr_set_translation newInst pc) opcode) b4
        (by simp only [instr_set_opcode, instr_set_translation]; omega) (by omega)
      obtain ⟨r1, log, b⟩ := r
      simp only [Nat.cast_zero] at hr
      have hlen : (instr_set_opcode (instr_set_translation newInst pc) opcode).srcs.length
          = newInst.srcs.length := rfl
      simp only [ht1, not_false_eq_true, if_true, e3, e4, hlen, hr]
      exact ⟨_, rfl⟩

end childProgramClient

theorem entries_applicable (bb : childProgramClient.instrlist_t)
    (hsrcs : ∀ i ∈ bb.instrs, i.srcs.length ≤ 8) :
    ∀ (entries : List (List Nat)),
      (∀ buf ∈ entries, 216 ≤ buf.length ∧
        ∃ idx, entryIndex buf = some idx ∧ 0 ≤ idx ∧ idx < bb.instrs.length) →
      ∃ outs, List.Forall₂ (fun buf out => ∃ idx tail base log rest,
        readInt buf = some (idx, tail) ∧ 0 ≤ idx ∧ idx < bb.instrs.length ∧
        bb.instrs[idx.toNat]? = some base ∧
        childProgramClient.applyEntry (childProgramClient.instr_clone base) idx tail
          = some (out, log, rest)) entries outs := by
  intro entries
  induction entries with
  | nil => intro _; exact ⟨[], List.Forall₂.nil⟩
  | cons buf entries ih =>
    intro h
    obtain ⟨outs, houts⟩ := ih (fun b hb => h b (List.mem_cons_of_mem _ hb))
    obtain ⟨hlen, idx, hidx, h0, hN⟩ := h buf (List.mem_cons_self _ _)
    obtain ⟨v, tail, hread, htl⟩ := readInt_total buf (by omega)
    have hv : v = idx := by
      simp only [entryIndex, hread, Option.some.injEq] at hidx
      exact hidx
    subst hv
    have hlt : v.toNat < bb.instrs.length := by omega
    have hbase : bb.instrs[v.toNat]? = some bb.instrs[v.toNat] := List.getElem?_eq_getElem hlt
    have hs := hsrcs bb.instrs[v.toNat] (List.getElem_mem _)
    obtain ⟨⟨out, log, rest⟩, hr⟩ := childProgramClient.applyEntry_total
      (childProgramClient.instr_clone bb.instrs[v.toNat]) v tail
      (by simp only [childProgramClient.instr_clone]; omega)
    exact ⟨out :: outs,
      List.Forall₂.cons ⟨v, tail, _, log, rest, hread, h0, hN, hbase, hr⟩ houts⟩

/-! ## The patch loop on pointers, and what a patch entry does to a clone -/

namespace childProgramClient.mem

/-- Storing at `p` what is there already changes nothing. -/
theorem set_same (h : Heap) (p : Nat) (v : instr_t) (hv : h[p]? = some v) : h.set p v = h := by
  apply List.ext_getElem?
  intro i
  rw [List.getElem?_set]
  split
  · rename_i e
    subst e
    rw [if_pos (List.getElem?_eq_some.mp hv).1, hv]
  · rfl

theorem getElem?_set_same (h : Heap) (p : Nat) (v r : instr_t) (hv : h[p]? = some v) :
    (h.set p r)[p]? = some r :=
  List.getElem?_set_self (List.getElem?_eq_some.mp hv).1

/-- The function `replace_src` on the pointer `p`: the instruction at `p` becomes what
`replace_src` makes of it, and nothing else is stored. -/
theorem replace_src_view (h : Heap) (p : Nat) (v : instr_t) (index type longParam p1 p2 : Int)
    (hv : h[p]? = some v) :
    replace_src h p index type longParam p1 p2 =
      match childProgramClient.replace_src v index type longParam p1 p2 with
      | none => none
      | some r => some (h.set p r) := by
  unfold replace_src childProgramClient.replace_src
  by_cases ht : type = 7
  · simp only [ht, ne_eq, not_true_eq_false, if_false, instr_set_src, hv]
  · simp only [ne_eq, ht, not_false_eq_true, if_true, set_same h p v hv]

/-- The source loop of the decoder on the pointer `p`. -/
theorem patchSrcs_view :
    ∀ (k : Nat) (s : Int) (h : Heap) (p : Nat) (v : instr_t) (buf : List Nat),
      h[p]? = some v →
      patchSrcs k s h p buf =
        match childProgramClient.patchSrcs k s v buf with
        | none => none
        | some (r, _, b) => some (h.set p r, b) := by
  intro k
  induction k with
  | zero =>
    intro s h p v buf hv
    simp only [patchSrcs, childProgramClient.patchSrcs, set_same h p v hv]
  | succ k ih =>
    intro s h p v buf hv
    simp only [patchSrcs, childProgramClient.patchSrcs]
    cases readInt buf with
    | none => rfl
    | some tb =>
      obtain ⟨temp, b1⟩ := tb
      dsimp only
      by_cases ht : temp = 0
      · simp only [ht, ne_eq, not_true_eq_false, if_false]
        rw [ih (s + 1) h p v b1 hv]
        cases childProgramClient.patchSrcs k (s + 1) v b1 with
        | none => rfl
        | some r =>
          obtain ⟨r1, log, b⟩ := r
          rfl
      · simp only [ne_eq, ht, not_false_eq_true, if_true]
        cases readPatchOpnd b1 with
        | none => rfl
        | some ob =>
          obtain ⟨o, b5⟩ := ob
          dsimp only
          rw [replace_src_view h p v s o.type o.longParam o.p1 o.p2 hv]
          cases hr : childProgramClient.replace_src v s o.type o.longParam o.p1 o.p2 with
          | none => rfl
          | some v1 =>
            dsimp only
            rw [ih (s + 1) (h.set p v1) p v1 b5 (getElem?_set_same h p v v1 hv)]
            cases childProgramClient.patchSrcs k (s + 1) v1 b5 with
            | none => rfl
            | some r =>
              obtain ⟨r1, log, b⟩ := r
              simp only [List.set_set]

/-- Applying an entry through the pointer `p`: the instruction at `p` becomes what
`childProgramClient.applyEntry` makes of it, and nothing else is stored. -/
theorem applyEntry_view (h : Heap) (p : Nat) (v : instr_t) (baseIndex : Int) (buf : List Nat)
    (hv : h[p]? = some v) :
    applyEntry h p buf =
      match childProgramClient.applyEntry v baseIndex buf with
      | none => none
      | some (r, _, b) => some (h.set p r, b) := by
  simp only [applyEntry, childProgramClient.applyEntry, hv]
  cases readInt buf with
  | none => rfl
  | some tb =>
    obtain ⟨temp, b1⟩ := tb
    dsimp only
    by_cases ht : temp = 0
    · simp only [ht, ne_eq, not_true_eq_false, if_false, set_same h p v hv]
    · simp only [ne_eq, ht, not_false_eq_true, if_true]
      cases readInt b1 with
      | none => rfl
      | some tb1 =>
        obtain ⟨temp1, b2⟩ := tb1
        dsimp only
        by_cases ht1 : temp1 = 0
        · simp only [ht1, ne_eq, not_true_eq_false, if_false]
          rw [patchSrcs_view v.srcs.length 0 h p v b2 hv]
          cases childProgramClient.patchSrcs v.srcs.length 0 v b2 with
          | none => rfl
          | some r =>
            obtain ⟨r1, log, b⟩ := r
            rfl
        · simp only [ne_eq, ht1, not_false_eq_true, if_true]
          cases readPtr b2 with
          | none => rfl
          | some pb =>
            obtain ⟨pc, b3⟩ := pb
            dsimp only
            simp only [instr_set_translation, hv]
            cases readInt b3 with
            | none => rfl
            | some ob =>
              obtain ⟨opcode, b4⟩ := ob
              dsimp only
              simp only [instr_set_opcode, getElem?_set_same h p v _ hv, List.set_set]
              rw [patchSrcs_view v.srcs.length 0 _ p
                (childProgramClient.instr_set_opcode
                  (childProgramClient.instr_set_translation v pc) opcode) b4
                (getElem?_set_same h p v _ hv)]
              have hlen : (childProgramClient.instr_set_opcode
                  (childProgramClient.instr_set_translation v pc) opcode).srcs.length
                  = v.srcs.length := rfl
              rw [hlen]
              cases childProgramClient.patchSrcs v.srcs.length 0
                  (childProgramClient.instr_set_opcode
                    (childProgramClient.instr_set_translation v pc) opcode) b4 with
              | none => rfl
              | some r =>
                obtain ⟨r1, log, b⟩ := r
                simp only [List.set_set]

end childProgramClient.mem

namespace childProgramClient.mem

theorem set_concat (h : Heap) (v r : instr_t) : (h ++ [v]).set h.length r = h ++ [r] := by
  apply List.ext_getElem?
  intro i
  rw [List.getElem?_set]
  by_cases hi : h.length = i
  · subst hi
    simp
  · rw [if_neg hi]
    by_cases hlt : i < h.length
    · rw [List.getElem?_append_left hlt, List.getElem?_append_left hlt]
    · rw [List.getElem?_eq_none (by simp; omega), List.getElem?_eq_none (by simp; omega)]

/-- Resolving an index on the pointers of the block and cloning the instruction reached,
for a block whose pointers lead to the instructions `bbv`. -/
theorem clone_walk_view (h : Heap) :
    ∀ (bbp : List Nat) (bbv : List instr_t), List.Forall₂ (fun p i => h[p]? = some i) bbp bbv →
      ∀ baseIndex : Int,
      (match walkBase bbp baseIndex with
        | none => none
        | some baseInst => instr_clone h baseInst) =
        match nthApp bbv baseIndex.toNat with
        | none => none
        | some i => some (h ++ [i], h.length) := by
  intro bbp bbv hrel
  induction hrel with
  | nil =>
    intro baseIndex
    simp only [walkBase, nthApp]
    by_cases hb : baseIndex > 0
    · simp only [hb, if_true]
    · simp only [hb, if_false, instr_clone]
  | cons hp _ ih =>
    rename_i p i bbp1 bbv1
    intro baseIndex
    by_cases hb : baseIndex > 0
    · have e : baseIndex.toNat = (baseIndex - 1).toNat + 1 := by omega
      simp only [walkBase, hb, if_true]
      rw [e]
      simp only [nthApp]
      exact ih (baseIndex - 1)
    · have e : baseIndex.toNat = 0 := by omega
      simp only [walkBase, hb, if_false, instr_clone, hp, e, nthApp]
      rfl

/-- One entry on the pointers of the block: the instructions allocated before stay as they
are, and one instruction is added, the one `childProgramClient.patchEntry` yields. -/
theorem patchEntry_view (h : Heap) (bbp : List Nat) (bbv : List instr_t)
    (hrel : List.Forall₂ (fun p i => h[p]? = some i) bbp bbv) (baseIndex : Int)
    (buf : List Nat) :
    patchEntry h bbp baseIndex buf =
      match childProgramClient.patchEntry bbv baseIndex buf with
      | none => none
      | some (r, _, rest) => some (h ++ [r], h.length, rest) := by
  have hc := clone_walk_view h bbp bbv hrel baseIndex
  unfold patchEntry childProgramClient.patchEntry
  cases hw : walkBase bbp baseIndex with
  | none =>
    rw [hw] at hc
    cases hn : nthApp bbv baseIndex.toNat with
    | none => rfl
    | some i => rw [hn] at hc; simp at hc
  | some baseInst =>
    rw [hw] at hc
    dsimp only at hc ⊢
    rw [hc]
    cases hn : nthApp bbv baseIndex.toNat with
    | none => rfl
    | some i =>
      dsimp only
      have hv : (h ++ [i])[h.length]? = some (childProgramClient.instr_clone i) := by
        simp [childProgramClient.instr_clone]
      rw [applyEntry_view (h ++ [i]) h.length (childProgramClient.instr_clone i) baseIndex buf hv]
      cases childProgramClient.applyEntry (childProgramClient.instr_clone i) baseIndex buf with
      | none => rfl
      | some r =>
        obtain ⟨r1, log, b⟩ := r
        simp only [set_concat]

/-- The patch loop on the pointers of the block: whatever it returns on the instructions
`bbv`, it leaves every instruction allocated before as it is, allocates one instruction per
entry, and appends their addresses to `newInsts` in order. -/
theorem patchLoop_view (bbp : List Nat) (bbv : List instr_t) :
    ∀ (reads : List (List Nat)) (h : Heap) (acc : List Nat) (accv outs : List instr_t)
      (rest : List (List Nat)), List.Forall₂ (fun p i => h[p]? = some i) bbp bbv →
      childProgramClient.patchLoop bbv reads accv = some (outs, rest) →
      ∃ news, outs = accv ++ news ∧
        patchLoop bbp reads h acc =
          some (h ++ news, acc ++ List.range' h.length news.length, rest) := by
  intro reads
  induction reads with
  | nil => intro h acc accv outs rest _ hv; simp [childProgramClient.patchLoop] at hv
  | cons buf reads ih =>
    intro h acc accv outs rest hrel hv
    simp only [childProgramClient.patchLoop] at hv
    simp only [patchLoop]
    cases hr : readInt buf with
    | none => rw [hr] at hv; simp at hv
    | some ib =>
      obtain ⟨baseIndex, bufRead⟩ := ib
      rw [hr] at hv
      dsimp only at hv ⊢
      by_cases hi : baseIndex = -1
      · simp only [hi, if_true, Option.some.injEq, Prod.mk.injEq] at hv ⊢
        exact ⟨[], by simp [hv.1], by simp [hv.2]⟩
      · simp only [hi, if_false] at hv ⊢
        rw [patchEntry_view h bbp bbv hrel baseIndex bufRead]
        cases he : childProgramClient.patchEntry bbv baseIndex bufRead with
        | none => rw [he] at hv; simp at hv
        | some r =>
          obtain ⟨r1, log, b⟩ := r
          rw [he] at hv
          dsimp only at hv ⊢
          have hrel1 : List.Forall₂ (fun p i => (h ++ [r1])[p]? = some i) bbp bbv := by
            refine hrel.imp (fun p i hp => ?_)
            rw [List.getElem?_append_left (List.getElem?_eq_some.mp hp).1]
            exact hp
          obtain ⟨news, e1, e2⟩ := ih (h ++ [r1]) (acc ++ [h.length]) (accv ++ [r1]) outs rest
            hrel1 hv
          refine ⟨r1 :: news, by rw [e1]; simp, ?_⟩
          rw [e2]
          simp only [List.length_append, List.length_singleton, List.append_assoc,
            List.singleton_append, List.length_cons, List.range'_succ, List.length_nil,
            Nat.zero_add]

end childProgramClient.mem

namespace childProgramClient

/-- The sources the decoder's source loop leaves, one by one: the sources before `s` stay,
and source `s + k` becomes the direct address of the `k`-th operand when the `k`-th flag is
set and the operand has type 7, and stays otherwise. -/
theorem applySrcs_getElem? :
    ∀ (ds : List Int) (os : List instr_opnd_t) (s : Nat) (inst : instr_t),
      s + os.length ≤ inst.srcs.length →
      (∀ k : Nat, k < s → (applySrcs s ds os inst).srcs[k]? = inst.srcs[k]?) ∧
      (∀ (k : Nat) (d : Int) (o : instr_opnd_t), ds[k]? = some d → os[k]? = some o →
        (applySrcs s ds os inst).srcs[s + k]? =
          if d ≠ 0 ∧ o.type = 7 then some (opnd_create_pc (longBits o.longParam))
          else inst.srcs[s + k]?) := by
  intro ds
  induction ds with
  | nil =>
    intro os s inst _
    refine ⟨fun k _ => by simp [applySrcs], fun k d o hd _ => ?_⟩
    simp at hd
  | cons d0 ds ih =>
    intro os s inst hlen
    cases os with
    | nil =>
      refine ⟨fun k _ => by simp [applySrcs], fun k d o _ ho => ?_⟩
      simp at ho
    | cons o0 os =>
      simp only [List.length_cons] at hlen
      have hs : s < inst.srcs.length := by omega
      have hstep : ∀ k : Nat, k ≠ s →
          (if d0 ≠ 0 ∧ o0.type = 7 then
            { inst with srcs := inst.srcs.set s (opnd_create_pc (longBits o0.longParam)) }
          else inst).srcs[k]? = inst.srcs[k]? := by
        intro k hk
        split
        · exact List.getElem?_set_ne (fun e => hk e.symm)
        · rfl
      have hlen1 : s + 1 + os.length ≤
          (if d0 ≠ 0 ∧ o0.type = 7 then
            { inst with srcs := inst.srcs.set s (opnd_create_pc (longBits o0.longParam)) }
          else inst).srcs.length := by
        split
        · simp only [List.length_set]; omega
        · omega
      obtain ⟨i1, i2⟩ := ih os (s + 1) _ hlen1
      simp only [applySrcs]
      refine ⟨fun k hk => ?_, fun k d o hd ho => ?_⟩
      · rw [i1 k (by omega), hstep k (by omega)]
      · cases k with
        | zero =>
          simp only [List.getElem?_cons_zero, Option.some.injEq] at hd ho
          subst hd
          subst ho
          refine Eq.trans (i1 s (by omega)) ?_
          split
          · exact List.getElem?_set_self hs
          · rfl
        | succ k =>
          simp only [List.getElem?_cons_succ] at hd ho
          have e : s + (k + 1) = s + 1 + k := by omega
          rw [e, i2 k d o hd ho, hstep (s + 1 + k) (by omega)]

end childProgramClient

/-- What the instruction `patched node base` is, field by field: address and opcode are the
node's when `dirty` and `dirtyInst` are set and the original's otherwise; source `s` is the
direct address of the node's operand `s` when `dirty` and the flag of `s` are set and the
operand has type 7, and the original's otherwise; destinations, length and the number of
sources are the original's. -/
theorem patched_fields (node : parentProgram.instr_t) (base : childProgramClient.instr_t)
    (hn : base.srcs.length = node.src.length) :
    (patched node base).app_pc =
      (if node.dirty ≠ 0 ∧ node.dirtyInst ≠ 0 then node.iData.app_pc else base.app_pc) ∧
    (patched node base).opcode =
      (if node.dirty ≠ 0 ∧ node.dirtyInst ≠ 0 then node.iData.opcode else base.opcode) ∧
    (patched node base).dsts = base.dsts ∧ (patched node base).length = base.length ∧
    (patched node base).srcs.length = base.srcs.length ∧
    (∀ (s : Nat) (d : Int) (o : instr_opnd_t), node.dirtySrc[s]? = some d →
      node.src[s]? = some o →
      (patched node base).srcs[s]? =
        if node.dirty ≠ 0 ∧ d ≠ 0 ∧ o.type = 7 then
          some (childProgramClient.opnd_create_pc (longBits o.longParam))
        else base.srcs[s]?) := by
  by_cases hd : node.dirty = 0
  · have hp : patched node base = base := by simp [patched, hd]
    rw [hp]
    simp [hd]
  · by_cases hi : node.dirtyInst = 0
    · have hp : patched node base =
          childProgramClient.applySrcs 0 (node.dirtySrc.take node.src.length) node.src base := by
        simp [patched, hd, hi]
      obtain ⟨f1, f2, f3, f4⟩ := childProgramClient.applySrcs_fields
        (node.dirtySrc.take node.src.length) node.src 0 base
      obtain ⟨_, g2⟩ := childProgramClient.applySrcs_getElem?
        (node.dirtySrc.take node.src.length) node.src 0 base (by omega)
      rw [hp]
      refine ⟨by rw [f1]; simp [hi], by rw [f2]; simp [hi], f3, f4,
        applySrcs_length _ _ _ _, fun s d o hsd hso => ?_⟩
      have hslt : s < node.src.length := (List.getElem?_eq_some.mp hso).1
      have := g2 s d o (by rw [List.getElem?_take, if_pos hslt]; exact hsd) hso
      rw [Nat.zero_add] at this
      rw [this]
      simp [hd]
    · have hp : patched node base =
          childProgramClient.applySrcs 0 (node.dirtySrc.take node.src.length) node.src
            (childProgramClient.instr_set_opcode
              (childProgramClient.instr_set_translation base node.iData.app_pc)
              node.iData.opcode) := by
        simp [patched, hd, hi]
      obtain ⟨f1, f2, f3, f4⟩ := childProgramClient.applySrcs_fields
        (node.dirtySrc.take node.src.length) node.src 0
        (childProgramClient.instr_set_opcode
          (childProgramClient.instr_set_translation base node.iData.app_pc) node.iData.opcode)
      obtain ⟨_, g2⟩ := childProgramClient.applySrcs_getElem?
        (node.dirtySrc.take node.src.length) node.src 0
        (childProgramClient.instr_set_opcode
          (childProgramClient.instr_set_translation base node.iData.app_pc) node.iData.opcode)
        (by simp only [childProgramClient.instr_set_opcode,
              childProgramClient.instr_set_translation]; omega)
      rw [hp]
      refine ⟨by rw [f1]; simp [hd, hi, childProgramClient.instr_set_opcode,
          childProgramClient.instr_set_translation],
        by rw [f2]; simp [hd, hi, childProgramClient.instr_set_opcode],
        by rw [f3]; rfl, by rw [f4]; rfl,
        by rw [applySrcs_length]; rfl, fun s d o hsd hso => ?_⟩
      have hslt : s < node.src.length := (List.getElem?_eq_some.mp hso).1
      have := g2 s d o (by rw [List.getElem?_take, if_pos hslt]; exact hsd) hso
      rw [Nat.zero_add] at this
      rw [this]
      simp only [ne_eq, hd, not_false_eq_true, true_and]
      rfl

/-- C3: let the client read `k` patch entries whose indices are positions of the original
block, each in a buffer that holds a whole entry (216 bytes suffice for the at most 8
sources of an instruction), then the sentinel `-1` and the fall-through address.  It
leaves a block of exactly `k` instructions, the `i`-th being the result of applying the
`i`-th entry to a clone of the original instruction at that entry's index.  For an entry
that holds the bytes the optimizer writes for a node, that result is, field by field:
address and opcode of the node when `dirty` and `dirtyInst` are set, each source for which
`dirty` and its flag are set and whose operand has type 7 replaced by that operand's direct
address, and everything else as in the original.  An entry that is not dirty yields the
original instruction at its index whatever entries came before it.  On the pointers of the
block, the patch loop stores to no instruction allocated before it started, so the original
block is as it was; it allocates one instruction per entry, each at an address of its own,
and `newInsts` holds these addresses in order. -/
theorem C3_patch_application (bb : childProgramClient.instrlist_t) (entries : List (List Nat))
    (sentinel ft : List Nat) (more : List (List Nat)) (f : Nat) (ftRest : List Nat)
    (h : childProgramClient.mem.Heap) (bbp : List Nat)
    (hview : List.Forall₂ (fun p i => h[p]? = some i) bbp bb.instrs)
    (hsrcs : ∀ i ∈ bb.instrs, i.srcs.length ≤ 8)
    (hent : ∀ buf ∈ entries, 216 ≤ buf.length ∧
      ∃ idx, entryIndex buf = some idx ∧ 0 ≤ idx ∧ idx < bb.instrs.length)
    (hsent : entryIndex sentinel = some (-1)) (hft : readPtr ft = some (f, ftRest)) :
    ∃ outs,
      childProgramClient.applyPatches bb (entries ++ sentinel :: ft :: more) =
        some { instrs := outs, fall_through := if f ≠ 0 then f else bb.fall_through } ∧
      outs.length = entries.length ∧
      List.Forall₂ (fun buf out => ∃ idx tail base log rest,
        readInt buf = some (idx, tail) ∧ bb.instrs[idx.toNat]? = some base ∧
        childProgramClient.applyEntry (childProgramClient.instr_clone base) idx tail
          = some (out, log, rest)) entries outs ∧
      List.Forall₂ (fun buf out =>
        ∀ (node : parentProgram.instr_t) (pad : List Nat) (base : childProgramClient.instr_t),
          buf = parentProgram.patchBytes node ++ pad → node.shaped → node.inRange →
          bb.instrs[node.origIndex.toNat]? = some base →
          base.srcs.length = node.src.length →
          out = patched node base ∧
          out.app_pc =
            (if node.dirty ≠ 0 ∧ node.dirtyInst ≠ 0 then node.iData.app_pc else base.app_pc) ∧
          out.opcode =
            (if node.dirty ≠ 0 ∧ node.dirtyInst ≠ 0 then node.iData.opcode else base.opcode) ∧
          out.dsts = base.dsts ∧ out.length = base.length ∧
          out.srcs.length = base.srcs.length ∧
          (∀ (s : Nat) (d : Int) (o : instr_opnd_t), node.dirtySrc[s]? = some d →
            node.src[s]? = some o →
            out.srcs[s]? =
              if node.dirty ≠ 0 ∧ d ≠ 0 ∧ o.type = 7 then
                some (childProgramClient.opnd_create_pc (longBits o.longParam))
              else base.srcs[s]?)) entries outs ∧
      List.Forall₂ (fun buf out => ∀ idx tail tail',
        readInt buf = some (idx, tail) → readInt tail = some (0, tail') →
        bb.instrs[idx.toNat]? = some out) entries outs ∧
      childProgramClient.mem.patchLoop bbp (entries ++ sentinel :: ft :: more) h [] =
        some (h ++ outs, List.range' h.length outs.length, ft :: more) ∧
      (∀ (p : Nat) (i : childProgramClient.instr_t), h[p]? = some i →
        (h ++ outs)[p]? = some i) ∧
      List.Forall₂ (fun p i => (h ++ outs)[p]? = some i) bbp bb.instrs ∧
      (List.range' h.length outs.length).Nodup ∧
      (∀ k : Nat, k < outs.length →
        (h ++ outs)[(List.range' h.length outs.length)[k]?.getD 0]? = outs[k]?) := by
  obtain ⟨outs, houts⟩ := entries_applicable bb hsrcs entries hent
  obtain ⟨h1, h2, h3⟩ := applyPatches_entries bb entries outs sentinel ft more f ftRest houts
    hsent hft
  have hloop : childProgramClient.patchLoop bb.instrs (entries ++ sentinel :: ft :: more) [] =
      some ([] ++ outs, ft :: more) := by
    refine childProgramClient.patchLoop_entries bb.instrs sentinel (ft :: more) hsent entries
      outs [] (houts.imp ?_)
    rintro buf out ⟨idx, tail, base, log, rest, a1, a2, _, a4, a5⟩
    refine ⟨idx, tail, log, rest, a1, by omega, ?_⟩
    simp only [childProgramClient.patchEntry, childProgramClient.nthApp_eq_getElem?, a4, a5]
  obtain ⟨news, e1, e2⟩ := childProgramClient.mem.patchLoop_view bbp bb.instrs _ h [] [] _ _
    hview hloop
  simp only [List.nil_append] at e1 e2
  subst e1
  have hkeep : ∀ (p : Nat) (i : childProgramClient.instr_t), h[p]? = some i →
      (h ++ outs)[p]? = some i := by
    intro p i hp
    rw [List.getElem?_append_left (List.getElem?_eq_some.mp hp).1]
    exact hp
  refine ⟨outs, h1, h2, houts.imp ?_, houts.imp ?_, h3, e2, hkeep,
    hview.imp (fun p i hp => hkeep p i hp), List.nodup_range' _ _, ?_⟩
  · rintro buf out ⟨idx, tail, base, log, rest, a1, _, _, a4, a5⟩
    exact ⟨idx, tail, base, log, rest, a1, a4, a5⟩
  · rintro buf out ⟨idx, tail, base0, log, rest, a1, _, _, a4, a5⟩ node pad base hbuf hshape
      hrange hbase hn
    obtain ⟨p1, p2⟩ := patchEntry_patchBytes node bb.instrs base pad hshape hrange hn
      (by rw [childProgramClient.nthApp_eq_getElem?]; exact hbase)
    rw [hbuf, p1] at a1
    simp only [Option.some.injEq, Prod.mk.injEq] at a1
    obtain ⟨rfl, rfl⟩ := a1
    rw [hbase] at a4
    simp only [Option.some.injEq] at a4
    subst a4
    simp only [childProgramClient.patchEntry, childProgramClient.nthApp_eq_getElem?, hbase,
      a5, Option.some.injEq, Prod.mk.injEq] at p2
    have hout : out = patched node base := p2.1
    subst hout
    exact ⟨rfl, patched_fields node base hn⟩
  · intro k hk
    rw [List.getElem?_range' _ _ hk]
    simp only [Option.getD_some, Nat.one_mul]
    rw [List.getElem?_append_right (by omega)]
    congr 1
    omega

theorem sampleEntries_applicable :
    ∀ buf ∈ sampleEntries, 216 ≤ buf.length ∧
      ∃ idx, entryIndex buf = some idx ∧ 0 ≤ idx ∧ idx < sampleBlock.instrs.length := by
  intro buf hb
  simp only [sampleEntries, List.mem_cons, List.mem_singleton, List.not_mem_nil, or_false] at hb
  rcases hb with rfl | rfl
  · exact ⟨by rw [List.length_append, List.length_replicate]; omega, 0, by decide, by decide,
      by decide⟩
  · exact ⟨by rw [List.length_append, List.length_replicate]; omega, 0, by decide, by decide,
      by decide⟩

/-- C3 on `sampleBlock`, held at address 0, with the two entries `sampleEntries` for index
0, the first dirty and the second not: the outputs are the retargeted branch and the
original branch, allocated at addresses 1 and 2, and the instruction at address 0 is as it
was. -/
theorem C3_patch_application_witness :
    (List.Forall₂ (fun p i => [sampleBranch][p]? = some i) [0] sampleBlock.instrs ∧
      (∀ i ∈ sampleBlock.instrs, i.srcs.length ≤ 8) ∧
      entryIndex (le32 (intBits (-1))) = some (-1) ∧
      readPtr (le64 20480) = some (20480, [])) ∧
    childProgramClient.applyPatches sampleBlock
        (sampleEntries ++ le32 (intBits (-1)) :: le64 20480 :: []) =
      some { instrs := [sampleRetargeted, sampleBranch], fall_through := 20480 } ∧
    childProgramClient.mem.patchLoop [0]
        (sampleEntries ++ le32 (intBits (-1)) :: le64 20480 :: []) [sampleBranch] [] =
      some ([sampleBranch, sampleRetargeted, sampleBranch], [1, 2], [le64 20480]) ∧
    sampleRetargeted = patched sampleDirty sampleBranch ∧
    sampleRetargeted.srcs[0]? = some (childProgramClient.opnd_create_pc 12288) := by
  have hview : List.Forall₂ (fun p i => [sampleBranch][p]? = some i) [0] sampleBlock.instrs :=
    List.Forall₂.cons rfl List.Forall₂.nil
  obtain ⟨outs, h1, _, _, h4, _, h6, _⟩ :=
    C3_patch_application sampleBlock sampleEntries (le32 (intBits (-1))) (le64 20480) [] 20480
      [] [sampleBranch] [0] hview (by decide) sampleEntries_applicable (by decide) (by decide)
  have hrun : childProgramClient.applyPatches sampleBlock
      (sampleEntries ++ le32 (intBits (-1)) :: le64 20480 :: []) =
      some { instrs := [sampleRetargeted, sampleBranch], fall_through := 20480 } := by decide
  have houts : outs = [sampleRetargeted, sampleBranch] := by
    rw [h1] at hrun
    simp only [Option.some.injEq, childProgramClient.instrlist_t.mk.injEq] at hrun
    exact hrun.1
  subst houts
  have hfirst := (List.forall₂_cons.mp h4).1 sampleDirty (List.replicate 216 0) sampleBranch
    rfl (by decide) (by decide) (by decide) (by decide)
  exact ⟨⟨hview, by decide, by decide, by decide⟩, h1, h6, hfirst.1,
    (hfirst.2.2.2.2.2.2 0 1 { type := 7, longParam := 12288, p1 := 0, p2 := 0 }
      (by decide) (by decide)).trans (by decide)⟩

/-- The sample run of C3, evaluated: index 0 patched and index 0 unpatched give the
retargeted branch followed by the original branch, with the new fall-through target. -/
theorem sampleEntries_run :
    childProgramClient.applyPatches sampleBlock
        (sampleEntries ++ le32 (intBits (-1)) :: le64 20480 :: []) =
      some { instrs := [sampleRetargeted, sampleBranch], fall_through := 20480 } := by
  decide

/-! ## Size of a patch entry -/

namespace parentProgram

theorem srcFlagBytes_length :
    ∀ (ds : List Int) (os : List instr_opnd_t), ds.length ≤ os.length →
      (srcFlagBytes ds os).length = 4 * ds.length + 20 * (ds.filter (fun d => d ≠ 0)).length := by
  intro ds
  induction ds with
  | nil => intro os _; cases os <;> simp [srcFlagBytes]
  | cons d ds ih =>
    intro os hl
    cases os with
    | nil => simp at hl
    | cons o os =>
      have hl1 : ds.length ≤ os.length := by simpa using hl
      by_cases hd : d = 0
      · simp [srcFlagBytes, hd, ih os hl1, le32]
        omega
      · simp [srcFlagBytes, hd, ih os hl1, le32, le64]
        omega

theorem patchBytes_length (n : instr_t) (h7 : n.iData.numSrc.toNat ≤ n.src.length)
    (h1 : n.iData.numSrc.toNat ≤ n.dirtySrc.length) :
    (patchBytes n).length =
      if n.dirty = 0 then 8
      else 12 + (if n.dirtyInst ≠ 0 then 12 else 0) + 4 * n.iData.numSrc.toNat +
        20 * dirtySources n := by
  have hlen : (n.dirtySrc.take n.iData.numSrc.toNat).length = n.iData.numSrc.toNat := by
    rw [List.length_take]; omega
  have hsrc := srcFlagBytes_length (n.dirtySrc.take n.iData.numSrc.toNat) n.src (by omega)
  rw [hlen] at hsrc
  unfold patchBytes patchTail dirtySources
  by_cases hd : n.dirty = 0
  · simp [hd, le32]
  · by_cases hi : n.dirtyInst = 0
    · simp [hd, hi, le32, hsrc]
      omega
    · simp [hd, hi, le32, le64, hsrc]
      omega

theorem dirtySources_le (n : instr_t) : dirtySources n ≤ n.iData.numSrc.toNat := by
  unfold dirtySources
  refine le_trans (List.length_filter_le _ _) ?_
  rw [List.length_take]
  omega

end parentProgram

/-- C18: the patch entry of a node with at most eight sources takes 8 bytes when the node is
not dirty and otherwise 12 bytes, 12 more when `dirtyInst` is set, 4 per source and 20 per
source whose flag is set; that is at most 216 bytes, within the 2000-byte buffer. -/
theorem C18_patch_entry_size (n : parentProgram.instr_t) (hs : n.shaped) :
    ∃ msg, parentProgram.encodePatch n = some msg ∧
      msg.length =
        (if n.dirty = 0 then 8
         else 12 + (if n.dirtyInst ≠ 0 then 12 else 0) + 4 * n.iData.numSrc.toNat +
           20 * parentProgram.dirtySources n) ∧
      msg.length ≤ 216 ∧ msg.length ≤ 2000 := by
  have hs1 := hs
  obtain ⟨h1, _, h3, h4, _, _, h7, _⟩ := hs1
  have hlen := parentProgram.patchBytes_length n (by omega) (by omega)
  have hle := parentProgram.dirtySources_le n
  refine ⟨_, parentProgram.encodePatch_eq n hs, hlen, ?_, ?_⟩ <;>
  · rw [hlen]
    split
    · omega
    · split <;> omega

/-- C18 on the node `sampleDirty`: one source, `dirtyInst` and the flag of the source set,
48 bytes. -/
theorem C18_patch_entry_size_witness :
    sampleDirty.shaped ∧
    ∃ msg, parentProgram.encodePatch sampleDirty = some msg ∧
      msg.length =
        (if sampleDirty.dirty = 0 then 8
         else 12 + (if sampleDirty.dirtyInst ≠ 0 then 12 else 0) +
           4 * sampleDirty.iData.numSrc.toNat + 20 * parentProgram.dirtySources sampleDirty) ∧
      msg.length ≤ 216 ∧ msg.length ≤ 2000 :=
  ⟨by decide, C18_patch_entry_size sampleDirty (by decide)⟩

/-! ## Index resolution of the patch decoder -/

namespace childProgramClient

theorem walkBase_eq :
    ∀ (bb : List instr_t) (baseIndex : Int) (steps : Nat),
      walkBase bb baseIndex steps =
        if baseIndex.toNat ≤ bb.length then
          some (bb.drop baseIndex.toNat, steps + baseIndex.toNat)
        else none := by
  intro bb
  induction bb with
  | nil =>
    intro baseIndex steps
    unfold walkBase
    by_cases hb : baseIndex > 0
    · have : ¬ baseIndex.toNat ≤ 0 := by omega
      simp [hb, this]
    · have h0 : baseIndex.toNat = 0 := by omega
      simp [hb, h0]
  | cons i rest ih =>
    intro baseIndex steps
    unfold walkBase
    by_cases hb : baseIndex > 0
    · have h1 : baseIndex.toNat = (baseIndex - 1).toNat + 1 := by omega
      simp only [hb, if_true, ih]
      rw [h1]
      simp only [List.length_cons, Nat.add_le_add_iff_right, List.drop_succ_cons]
      split
      · simp only [Option.some.injEq, Prod.mk.injEq, true_and]; omega
      · rfl
    · have h0 : baseIndex.toNat = 0 := by omega
      simp [hb, h0]

/-- The walk as the patch decoder is written, and the position it stands for. -/
theorem baseInstOf_eq_nthApp (bb : List instr_t) (baseIndex : Int) :
    baseInstOf bb baseIndex = nthApp bb baseIndex.toNat := by
  unfold baseInstOf
  rw [walkBase_eq, nthApp_eq_getElem?]
  by_cases hb : baseIndex.toNat ≤ bb.length
  · simp only [hb, if_true]
    rw [List.head?_drop]
  · simp only [hb, if_false]
    rw [List.getElem?_eq_none]
    omega

/-- The index of an entry only labels what the decoder loaded. -/
theorem applyEntry_index (newInst : instr_t) (baseIndex : Int) (bufRead : List Nat) :
    (applyEntry newInst baseIndex bufRead).map (fun r => (r.1, r.2.2)) =
      (applyEntry newInst 0 bufRead).map (fun r => (r.1, r.2.2)) := by
  unfold applyEntry
  cases readInt bufRead with
  | none => rfl
  | some v =>
    obtain ⟨temp, b1⟩ := v
    by_cases ht : temp = 0
    · simp [ht]
    · simp only [ne_eq, ht, not_false_eq_true, if_true]
      cases readInt b1 with
      | none => rfl
      | some v1 =>
        obtain ⟨temp1, b2⟩ := v1
        by_cases ht1 : temp1 = 0
        · simp only [ht1, ne_eq, not_true_eq_false, if_false]
          generalize patchSrcs _ _ _ _ = X
          rcases X with _ | ⟨r, log, b⟩ <;> rfl
        · simp only [ne_eq, ht1, not_false_eq_true, if_true]
          cases readPtr b2 with
          | none => rfl
          | some v2 =>
            obtain ⟨pc, b3⟩ := v2
            dsimp only
            cases readInt b3 with
            | none => rfl
            | some v3 =>
              obtain ⟨opcode, b4⟩ := v3
              dsimp only
              generalize patchSrcs _ _ _ _ = X
              rcases X with _ | ⟨r, log, b⟩ <;> rfl

end childProgramClient

namespace childProgramClient

/-- The patch loop only ever extends the list of instructions built so far. -/
theorem patchLoop_length (bb : List instr_t) :
    ∀ (reads : List (List Nat)) (acc r : List instr_t) (rs : List (List Nat)),
      patchLoop bb reads acc = some (r, rs) → acc.length ≤ r.length ∧ rs.length < reads.length := by
  intro reads
  induction reads with
  | nil => intro acc r rs h; simp [patchLoop] at h
  | cons buf reads ih =>
    intro acc r rs h
    unfold patchLoop at h
    split at h
    · simp at h
    · split at h
      · simp only [Option.some.injEq, Prod.mk.injEq] at h
        obtain ⟨rfl, rfl⟩ := h
        simp
      · split at h
        · simp at h
        · have := ih _ _ _ h
          simp only [List.length_append, List.length_singleton, List.length_cons] at this ⊢
          omega

/-- An index that is not below the number of instructions: the walk ends at `NULL` (index
equal to that number) or calls `instr_get_next_app` on `NULL` (larger index), and no
instruction is there to clone. -/
theorem walkBase_past_end (bb : List instr_t) (baseIndex : Int)
    (h : (bb.length : Int) ≤ baseIndex) :
    (walkBase bb baseIndex 0 = if baseIndex = bb.length then some ([], bb.length) else none) ∧
      baseInstOf bb baseIndex = none := by
  have hn : baseInstOf bb baseIndex = none := by
    rw [baseInstOf_eq_nthApp, nthApp_eq_getElem?, List.getElem?_eq_none]
    omega
  refine ⟨?_, hn⟩
  rw [walkBase_eq]
  by_cases he : baseIndex = bb.length
  · have h1 : baseIndex.toNat = bb.length := by omega
    simp [he]
  · have h1 : ¬ baseIndex.toNat ≤ bb.length := by omega
    simp [he, h1]

end childProgramClient

/-- C15 (the code at the failing input): for the one-instruction block `sampleBlock` and a
patch entry with index 1, the index walk makes its one step without any test and leaves
`baseInst` at `NULL`, which is then handed to `instr_clone`; with index 2 the walk calls
`instr_get_next_app` on `NULL`.  No instruction results and the run of
`event_instruction_change` has no defined outcome. -/
theorem C15_index_past_end_reaches_null :
    childProgramClient.walkBase sampleBlock.instrs 1 0 = some ([], 1) ∧
    childProgramClient.baseInstOf sampleBlock.instrs 1 = none ∧
    childProgramClient.walkBase sampleBlock.instrs 2 0 = none ∧
    entryIndex (cleanEntry 1 ++ List.replicate 216 0) = some 1 ∧
    childProgramClient.patchLoop sampleBlock.instrs sampleStray [] = none ∧
    childProgramClient.applyPatches sampleBlock sampleStray = none ∧
    childProgramClient.event_instruction_change true true (fun _ => sampleStale) sampleBlock
      sampleStray = none := by
  refine ⟨by decide, by decide, by decide, by decide, ?_, ?_, ?_⟩
  · decide
  · decide
  · decide

/-- C20: for a non-empty block and a patch entry whose index is negative but not `-1`, the
index walk makes no step and stays at the first instruction, just as for index 0; the entry
is applied to a clone of that instruction, with the instruction it yields for index 0, and
the patch loop goes on with the next entry.  An entry ends the loop exactly when its index
is `-1`. -/
theorem C20_negative_index_resolves_to_first (first : childProgramClient.instr_t)
    (rest : List childProgramClient.instr_t) (idx : Int) (buf tail : List Nat)
    (reads : List (List Nat)) (acc : List childProgramClient.instr_t)
    (hneg : idx < 0) (hne : idx ≠ -1) (hbuf : readInt buf = some (idx, tail)) :
    childProgramClient.walkBase (first :: rest) idx 0 = some (first :: rest, 0) ∧
    childProgramClient.walkBase (first :: rest) 0 0 = some (first :: rest, 0) ∧
    childProgramClient.baseInstOf (first :: rest) idx = some first ∧
    childProgramClient.patchEntry (first :: rest) idx tail =
      childProgramClient.applyEntry (childProgramClient.instr_clone first) idx tail ∧
    (childProgramClient.patchEntry (first :: rest) idx tail).map (fun r => (r.1, r.2.2)) =
      (childProgramClient.patchEntry (first :: rest) 0 tail).map (fun r => (r.1, r.2.2)) ∧
    childProgramClient.patchLoop (first :: rest) (buf :: reads) acc =
      (match childProgramClient.patchEntry (first :: rest) 0 tail with
       | none => none
       | some (newInst, _, _) =>
         childProgramClient.patchLoop (first :: rest) reads (acc ++ [newInst])) ∧
    (∀ (buf1 tail1 : List Nat) (idx1 : Int), readInt buf1 = some (idx1, tail1) →
      (childProgramClient.patchLoop (first :: rest) (buf1 :: reads) acc = some (acc, reads) ↔
        idx1 = -1)) := by
  have h0 : idx.toNat = 0 := by omega
  have hw : ¬ idx > 0 := by omega
  have hpe : childProgramClient.patchEntry (first :: rest) idx tail =
      childProgramClient.applyEntry (childProgramClient.instr_clone first) idx tail := by
    simp [childProgramClient.patchEntry, h0, childProgramClient.nthApp]
  have hpe0 : childProgramClient.patchEntry (first :: rest) 0 tail =
      childProgramClient.applyEntry (childProgramClient.instr_clone first) 0 tail := by
    simp [childProgramClient.patchEntry, childProgramClient.nthApp]
  have hmap := childProgramClient.applyEntry_index (childProgramClient.instr_clone first) idx tail
  refine ⟨?_, ?_, ?_, hpe, ?_, ?_, ?_⟩
  · simp [childProgramClient.walkBase, hw]
  · simp [childProgramClient.walkBase]
  · simp [childProgramClient.baseInstOf, childProgramClient.walkBase, hw]
  · rw [hpe, hpe0]; exact hmap
  · rw [childProgramClient.patchLoop]
    simp only [hbuf, hne, if_false]
    rw [hpe, hpe0]
    cases h1 : childProgramClient.applyEntry (childProgramClient.instr_clone first) idx tail with
    | none =>
      cases h2 : childProgramClient.applyEntry (childProgramClient.instr_clone first) 0 tail with
      | none => rfl
      | some v => rw [h1, h2] at hmap; simp at hmap
    | some u =>
      cases h2 : childProgramClient.applyEntry (childProgramClient.instr_clone first) 0 tail with
      | none => rw [h1, h2] at hmap; simp at hmap
      | some v =>
        rw [h1, h2] at hmap
        simp only [Option.map_some', Option.some.injEq, Prod.mk.injEq] at hmap
        obtain ⟨u1, u2, u3⟩ := u
        obtain ⟨v1, v2, v3⟩ := v
        simp only at hmap ⊢
        rw [hmap.1]
  · intro buf1 tail1 idx1 hb1
    rw [childProgramClient.patchLoop]
    simp only [hb1]
    by_cases h1 : idx1 = -1
    · simp [h1]
    · simp only [h1, if_false, iff_false]
      intro hcon
      split at hcon
      · simp at hcon
      · have := (childProgramClient.patchLoop_length _ _ _ _ _ hcon).1
        simp only [List.length_append, List.length_singleton] at this
        omega

/-- C20 on the block holding `sampleBranch` and an entry with index `-2`, followed by the
sentinel: the entry yields a copy of `sampleBranch` and the loop ends at the sentinel. -/
theorem C20_negative_index_resolves_to_first_witness :
    ((-2 : Int) < 0 ∧ (-2 : Int) ≠ -1 ∧
      readInt sampleNegative = some (-2, le32 (intBits 0))) ∧
    childProgramClient.walkBase [sampleBranch] (-2) 0 = some ([sampleBranch], 0) ∧
    childProgramClient.baseInstOf [sampleBranch] (-2) = some sampleBranch ∧
    childProgramClient.patchLoop [sampleBranch] [sampleNegative, le32 (intBits (-1))] [] =
      some ([sampleBranch], []) :=
  have h := C20_negative_index_resolves_to_first sampleBranch [] (-2) sampleNegative
    (le32 (intBits 0)) [le32 (intBits (-1))] [] (by decide) (by decide)
    (by decide)
  ⟨⟨by decide, by decide, by decide⟩, h.1, h.2.2.1, by rw [h.2.2.2.2.2.1]; decide⟩

/-! ## A record with more operands than the node has flags -/

/-- C14 (the code at the failing input): the message the client writes for the nine-source
instruction `sampleWide` is taken out of the buffer in full, header with `numSrc = 9` and
all nine operands, no count being compared with 8.  The loop that clears the flags then
runs nine times over the `int[8]` array: its first eight stores fill the array, the ninth
goes past its end.  So the node is built from the whole record, and the construction has
no defined outcome rather than a refusal. -/
theorem C14_nine_sources_not_rejected :
    parentProgram.recvRecord (childProgramClient.encodeInstr sampleStale sampleWide) =
      some (childProgramClient.headerOf sampleWide,
            List.replicate 9 { type := 7, longParam := 8192, p1 := 0, p2 := 0 }, []) ∧
    (childProgramClient.headerOf sampleWide).numSrc = 9 ∧
    parentProgram.clearFlags 8 0 (parentProgram.instr_create (sampleFresh 0)).dirtySrc =
      some (List.replicate 8 0) ∧
    parentProgram.clearFlags 1 8 (List.replicate 8 0) = none ∧
    parentProgram.clearFlags 9 0 (parentProgram.instr_create (sampleFresh 0)).dirtySrc = none ∧
    parentProgram.recvInstr (sampleFresh 0)
      (childProgramClient.encodeInstr sampleStale sampleWide) 0 = none := by
  refine ⟨by decide, by decide, by decide, by decide, by decide, by decide⟩

/-! ## The dirty flags cover every edit -/

namespace parentProgram

/-- Every call on a node of the declared shape returns, and keeps shape, index and the
cover of the edits by the flags. -/
theorem flagsCover_applyNodeEdit (n : instr_t)
    (r : instr_data_t × List instr_opnd_t × List instr_opnd_t) (e : NodeEdit)
    (hs : n.shaped) (hc : n.flagsCover r) :
    ∃ n1, applyNodeEdit n e = some n1 ∧ n1.shaped ∧ n1.origIndex = n.origIndex ∧
      n1.flagsCover r := by
  cases e with
  | clone => exact ⟨_, cloneNode_eq n hs, hs, rfl, hc⟩
  | set_translation pc =>
    refine ⟨_, rfl, hs, rfl, ?_⟩
    exact ⟨fun _ => Int.one_ne_zero, fun _ _ _ => Int.one_ne_zero,
      fun h => absurd h Int.one_ne_zero⟩
  | set_opcode opcode =>
    refine ⟨_, rfl, hs, rfl, ?_⟩
    exact ⟨fun _ => Int.one_ne_zero, fun _ _ _ => Int.one_ne_zero,
      fun h => absurd h Int.one_ne_zero⟩
  | set_branch_target_pc pc =>
    obtain ⟨s1, s2, s3, s4, s5, s6, s7, s8⟩ := hs
    have hs : n.shaped := ⟨s1, s2, s3, s4, s5, s6, s7, s8⟩
    simp only [applyNodeEdit, instr_set_branch_target_pc]
    by_cases h0 : n.iData.numSrc = 0
    · simp only [h0, if_true]
      exact ⟨n, rfl, hs, rfl, hc⟩
    · simp only [h0, if_false]
      have hlen : 0 < n.src.length := by omega
      obtain ⟨s0, hs0⟩ : ∃ s0, n.src[0]? = some s0 :=
        ⟨n.src[0], List.getElem?_eq_getElem hlen⟩
      simp only [hs0]
      by_cases h7 : s0.type ≠ 7
      · rw [if_pos h7]
        exact ⟨n, rfl, hs, rfl, hc⟩
      · rw [if_neg h7]
        by_cases hb : instr_is_cond_branch n = true
        · have hpos : 0 < n.dirtySrc.length := by omega
          simp only [hb, Bool.not_true, Bool.false_eq_true, if_false, hpos, if_true]
          refine ⟨_, rfl, ?_, rfl, ?_⟩
          · refine ⟨?_, s2, s3, s4, s5, s6, ?_, s8⟩
            · simp only [List.length_set]; exact s1
            · simp only [List.length_set]; exact s7
          · exact ⟨fun _ => Int.one_ne_zero, fun _ _ _ => Int.one_ne_zero,
              fun h => absurd h Int.one_ne_zero⟩
        · simp only [hb, Bool.not_false, if_true]
          exact ⟨n, rfl, hs, rfl, hc⟩

theorem flagsCover_applyNodeEdits
    (r : instr_data_t × List instr_opnd_t × List instr_opnd_t) :
    ∀ (edits : List NodeEdit) (n : instr_t), n.shaped → n.flagsCover r →
      ∃ n1, applyNodeEdits edits n = some n1 ∧ n1.shaped ∧ n1.origIndex = n.origIndex ∧
        n1.flagsCover r := by
  intro edits
  induction edits with
  | nil => intro n hs hc; exact ⟨n, rfl, hs, rfl, hc⟩
  | cons e es ih =>
    intro n hs hc
    obtain ⟨n1, h1, hs1, hj1, hc1⟩ := flagsCover_applyNodeEdit n r e hs hc
    obtain ⟨n2, h2, hs2, hj2, hc2⟩ := ih n1 hs1 hc1
    refine ⟨n2, ?_, hs2, by rw [hj2, hj1], hc2⟩
    simp only [applyNodeEdits, h1, h2]

end parentProgram

/-- C19: a node built from a received record (counts at most 8) as the `j`-th of its block
and then put through any sequence of `instr_clone`, `instr_set_translation`,
`instr_set_opcode` and `instr_set_branch_target_pc` (every call returns) still has
`origIndex = j`; if its `dirtyInst` is set, or the flag of any source below `numSrc`, then
its `dirty` is set; and if `dirty` is clear, its address, opcode and source operands are
those of the record received. -/
theorem C19_dirty_flags_cover_edits (fresh : parentProgram.instr_t) (buf : List Nat) (j : Int)
    (r : instr_data_t × List instr_opnd_t × List instr_opnd_t)
    (hr : parentProgram.recvRecord buf = some r) (hs : r.1.numSrc ≤ 8) (hd : r.1.numDst ≤ 8)
    (hf : fresh.dirtySrc.length = 8 ∧ fresh.dirtyDst.length = 8) :
    ∃ node0, parentProgram.recvInstr fresh buf j = some node0 ∧
      ∀ edits : List parentProgram.NodeEdit,
        ∃ node, parentProgram.applyNodeEdits edits node0 = some node ∧
          node.origIndex = j ∧
          (node.dirtyInst ≠ 0 → node.dirty ≠ 0) ∧
          (∀ s : Nat, (s : Int) < node.iData.numSrc → node.dirtySrc[s]? ≠ some 0 →
            node.dirty ≠ 0) ∧
          (node.dirty = 0 →
            node.iData.app_pc = r.1.app_pc ∧ node.iData.opcode = r.1.opcode ∧
              node.src = r.2.1) := by
  obtain ⟨node0, h0, e1, e2, _, e4, e5, e6, _, _, e9, e10, _⟩ :=
    parentProgram.recvInstr_spec fresh buf j r hr hs hd hf
  refine ⟨node0, h0, fun edits => ?_⟩
  have hc : node0.flagsCover r :=
    ⟨fun h => absurd e6 h, fun s hlt h => absurd (e10 s hlt) h,
      fun _ => ⟨by rw [e1], by rw [e1], e2⟩⟩
  obtain ⟨node, h1, _, hj, hc1⟩ := parentProgram.flagsCover_applyNodeEdits r edits node0 e9 hc
  exact ⟨node, h1, by rw [hj, e4], hc1.1, hc1.2.1, hc1.2.2⟩

/-- C19 on the record of `sampleBranch`, received at position 0 and put through
`sampleNodeEdits`. -/
theorem C19_dirty_flags_cover_edits_witness :
    (parentProgram.recvRecord (childProgramClient.encodeInstr sampleStale sampleBranch) =
        some sampleRecord ∧
      sampleRecord.1.numSrc ≤ 8 ∧ sampleRecord.1.numDst ≤ 8 ∧
      (sampleFresh 0).dirtySrc.length = 8 ∧ (sampleFresh 0).dirtyDst.length = 8) ∧
    ∃ node0, parentProgram.recvInstr (sampleFresh 0)
        (childProgramClient.encodeInstr sampleStale sampleBranch) 0 = some node0 ∧
      ∃ node, parentProgram.applyNodeEdits sampleNodeEdits node0 = some node ∧
        node.origIndex = 0 ∧ (node.dirtyInst ≠ 0 → node.dirty ≠ 0) :=
  ⟨⟨by decide, by decide, by decide, by decide, by decide⟩,
    (C19_dirty_flags_cover_edits (sampleFresh 0)
      (childProgramClient.encodeInstr sampleStale sampleBranch) 0 sampleRecord (by decide)
      (by decide) (by decide) ⟨by decide, by decide⟩).imp
      fun _ h => ⟨h.1, (h.2 sampleNodeEdits).imp fun _ g => ⟨g.1, g.2.1, g.2.2.1⟩⟩⟩

/-! ## Insertion behind a node -/

namespace parentProgram

/-- A store through a pointer to a node. -/
theorem updateNode_eq (h : Heap) (p : Nat) (f : instr_t → instr_t) (n : instr_t)
    (hn : h[p]? = some n) : updateNode h p f = some (h.set p (f n)) := by
  simp only [updateNode, hn]

/-- A chain of nodes only depends on the nodes in it. -/
theorem linked_congr (h h1 : Heap) :
    ∀ (ps : List Nat) (prev cur : Option Nat), (∀ p ∈ ps, h1[p]? = h[p]?) →
      linked h prev cur ps → linked h1 prev cur ps := by
  intro ps
  induction ps with
  | nil => intro _ _ _ hl; simpa [linked] using hl
  | cons p ps ih =>
    intro prev cur hsame hl
    simp only [linked] at hl ⊢
    rw [hsame p (List.mem_cons_self _ _)]
    cases hp : h[p]? with
    | none => rw [hp] at hl; exact absurd hl.2 (by simp)
    | some n =>
      rw [hp] at hl
      exact ⟨hl.1, hl.2.1, ih _ _ (fun q hq => hsame q (List.mem_cons_of_mem _ hq)) hl.2.2⟩

/-- The search loop finds exactly the members of the chain it walks. -/
theorem reaches_linked (h : Heap) (target : Nat) :
    ∀ (ps : List Nat) (prev cur : Option Nat) (fuel : Nat),
      linked h prev cur ps → ps.length < fuel →
      reaches h target fuel cur = some (decide (target ∈ ps)) := by
  intro ps
  induction ps with
  | nil =>
    intro prev cur fuel hl hf
    simp only [linked] at hl
    subst hl
    cases fuel with
    | zero => simp at hf
    | succ f => simp [reaches]
  | cons p ps ih =>
    intro prev cur fuel hl hf
    simp only [linked] at hl
    obtain ⟨hc, hrest⟩ := hl
    subst hc
    cases fuel with
    | zero => simp at hf
    | succ f =>
      cases hp : h[p]? with
      | none => rw [hp] at hrest; exact absurd hrest (by simp)
      | some n =>
        rw [hp] at hrest
        have hf1 : ps.length < f := by simpa using hf
        by_cases hpt : p = target
        · simp [reaches, hpt]
        · have hne : ¬ target = p := fun e => hpt e.symm
          simp only [reaches, hpt, if_false, hp, ih _ _ f hrest.2 hf1, List.mem_cons, hne,
            false_or]

/-- The node before the rest of a chain points to the head of that rest. -/
theorem linked_next (h : Heap) (a : Nat) (rest : List Nat) :
    ∀ (pre : List Nat) (prev cur : Option Nat), linked h prev cur (pre ++ a :: rest) →
      ∃ w, h[a]? = some w ∧ w.next = rest.head? := by
  intro pre
  induction pre with
  | nil =>
    intro prev cur hl
    simp only [List.nil_append, linked] at hl
    cases ha : h[a]? with
    | none => rw [ha] at hl; exact absurd hl.2 (by simp)
    | some w =>
      rw [ha] at hl
      refine ⟨w, rfl, ?_⟩
      cases rest with
      | nil => simpa [linked] using hl.2.2
      | cons b rest => simp only [linked] at hl; simpa using hl.2.2.1
  | cons p pre ih =>
    intro prev cur hl
    simp only [List.cons_append, linked] at hl
    cases hp : h[p]? with
    | none => rw [hp] at hl; exact absurd hl.2 (by simp)
    | some n =>
      rw [hp] at hl
      exact ih _ _ hl.2.2

/-- Splicing the node `n` into a chain behind `anchor`: the nodes before `anchor` are as
they were, `anchor` points on to `n`, `n` points back to `anchor` and on to what `anchor`
pointed to, and the node behind, if any, points back to `n`. -/
theorem linked_insert (h h1 : Heap) (anchor n : Nat) (w nn1 : instr_t) (post : List Nat)
    (hw : h[anchor]? = some w) (hw1 : h1[anchor]? = some { w with next := some n })
    (hn1 : h1[n]? = some nn1) (hnp : nn1.prev = some anchor) (hnn : nn1.next = w.next)
    (hpost : match post with
      | [] => True
      | nx :: post1 => ∃ x, h[nx]? = some x ∧ h1[nx]? = some { x with prev := some n } ∧
          ∀ p ∈ post1, h1[p]? = h[p]?) :
    ∀ (pre : List Nat) (prev cur : Option Nat), (∀ p ∈ pre, h1[p]? = h[p]?) →
      linked h prev cur (pre ++ anchor :: post) →
      linked h1 prev cur (pre ++ anchor :: n :: post) := by
  intro pre
  induction pre with
  | nil =>
    intro prev cur _ hl
    simp only [List.nil_append, linked, hw] at hl
    simp only [List.nil_append, linked, hw1, hn1]
    refine ⟨hl.1, hl.2.1, trivial, hnp, ?_⟩
    rw [hnn]
    cases post with
    | nil => simpa [linked] using hl.2.2
    | cons nx post1 =>
      obtain ⟨x, hx, hx1, hsame⟩ := hpost
      simp only [linked, hx] at hl
      simp only [linked, hx1]
      exact ⟨hl.2.2.1, trivial, linked_congr h h1 _ _ _ hsame hl.2.2.2.2⟩
  | cons p pre ih =>
    intro prev cur hsame hl
    simp only [List.cons_append, linked] at hl ⊢
    rw [hsame p (List.mem_cons_self _ _)]
    cases hp : h[p]? with
    | none => rw [hp] at hl; exact absurd hl.2 (by simp)
    | some np =>
      rw [hp] at hl
      exact ⟨hl.1, hl.2.1, ih _ _ (fun q hq => hsame q (List.mem_cons_of_mem _ hq)) hl.2.2⟩

/-- Overwriting a node by one with the same payload leaves every payload as it was. -/
theorem payload_set (h : Heap) (q : Nat) (n v : instr_t) (hq : h[q]? = some n)
    (hv : v.payload = n.payload) (p : Nat) :
    ((h.set q v)[p]?).map instr_t.payload = (h[p]?).map instr_t.payload := by
  by_cases hqp : q = p
  · subst hqp
    rw [List.getElem?_set_self (List.getElem?_eq_some.mp hq).1, hq]
    simp [hv]
  · rw [List.getElem?_set_ne hqp]

end parentProgram

namespace parentProgram

/-- What `instrlist_postinsert` does behind a member of a well-formed list. -/
theorem instrlist_postinsert_spec (fuel : Nat) (h : Heap) (ilist : instrlist_t)
    (pre post : List Nat) (anchor n : Nat) (nn : instr_t)
    (hl : isList h ilist (pre ++ anchor :: post)) (hn : h[n]? = some nn)
    (hnext : nn.next = none) (hfresh : n ∉ pre ++ anchor :: post)
    (hfuel : (pre ++ anchor :: post).length < fuel) :
    ∃ h1 ilist1, instrlist_postinsert fuel h ilist anchor n = some (h1, ilist1) ∧
      isList h1 ilist1 (pre ++ anchor :: n :: post) ∧
      ilist1.first = ilist.first ∧ ilist1.fall_through = ilist.fall_through ∧
      (ilist1.last = some n ↔ ilist.last = some anchor) ∧
      (∀ p : Nat, (h1[p]?).map instr_t.payload = (h[p]?).map instr_t.payload) := by
  obtain ⟨hlk, hlast, hnd⟩ := hl
  have hmem := linked_mem h _ _ _ hlk
  obtain ⟨w, hw, hwn⟩ := linked_next h anchor post pre none ilist.first hlk
  have hna : n ≠ anchor := by
    intro e; apply hfresh; rw [e]; simp
  have hnpre : ∀ p ∈ pre, n ≠ p := by
    intro p hp e; apply hfresh; rw [e]; simp [hp]
  have hapre : ∀ p ∈ pre, anchor ≠ p := by
    intro p hp e
    rw [List.nodup_middle, List.nodup_cons] at hnd
    apply hnd.1; rw [e]; simp [hp]
  have hnd2 : (pre ++ anchor :: n :: post).Nodup := by
    simp only [List.nodup_middle, List.nodup_cons, List.mem_append, List.mem_cons,
      not_or] at hnd hfresh ⊢
    exact ⟨⟨hnd.1.1, fun e => hna e.symm, hnd.1.2⟩, ⟨hfresh.1, hfresh.2.2⟩, hnd.2⟩
  have hwlt : anchor < h.length := (List.getElem?_eq_some.mp hw).1
  have hnlt : n < h.length := (List.getElem?_eq_some.mp hn).1
  cases post with
  | nil =>
    have hlast1 : some anchor = ilist.last := by
      rw [hlast, List.getLast?_concat]
    have hwn0 : w.next = none := by simpa using hwn
    have h1a : (h.set n { nn with prev := some anchor })[anchor]? = some w := by
      rw [List.getElem?_set_ne hna]; exact hw
    unfold instrlist_postinsert
    rw [if_pos hlast1, updateNode_eq h n _ nn hn]
    simp only [updateNode_eq _ anchor _ w h1a]
    refine ⟨_, _, rfl, ⟨?_, ?_, hnd2⟩, rfl, rfl, ?_, ?_⟩
    · refine linked_insert h _ anchor n w { nn with prev := some anchor } [] hw ?_ ?_ rfl
        (by rw [hwn0]; exact hnext) trivial pre none ilist.first ?_ hlk
      · rw [List.getElem?_set_self (by simpa using hwlt)]
      · rw [List.getElem?_set_ne (fun e => hna e.symm), List.getElem?_set_self hnlt]
      · intro p hp
        rw [List.getElem?_set_ne (hapre p hp), List.getElem?_set_ne (hnpre p hp)]
    · show some n = (pre ++ [anchor, n]).getLast?
      rw [List.getLast?_append_cons, List.getLast?_cons_cons]; rfl
    · simp [hlast1]
    · intro p
      rw [payload_set _ anchor w { w with next := some n } h1a rfl p,
        payload_set h n nn { nn with prev := some anchor } hn rfl p]
  | cons nx post1 =>
    have hwn1 : w.next = some nx := by simpa using hwn
    obtain ⟨x, hx⟩ := hmem nx (by simp)
    have hxlt : nx < h.length := (List.getElem?_eq_some.mp hx).1
    have hnnx : n ≠ nx := by
      intro e; apply hfresh; rw [e]; simp
    have hanx : anchor ≠ nx := by
      intro e
      rw [List.nodup_middle, List.nodup_cons] at hnd
      apply hnd.1; rw [e]; simp
    have hnxpre : ∀ p ∈ pre, nx ≠ p := by
      intro p hp e
      rw [List.nodup_append] at hnd
      exact hnd.2.2 hp (by rw [← e]; simp)
    have hpost1 : ∀ p ∈ post1, nx ≠ p ∧ n ≠ p ∧ anchor ≠ p := by
      intro p hp
      refine ⟨?_, ?_, ?_⟩
      · intro e
        rw [List.nodup_append] at hnd
        have := hnd.2.1
        simp only [List.nodup_cons] at this
        exact this.2.1 (by rw [e]; exact hp)
      · intro e; apply hfresh; rw [e]; simp [hp]
      · intro e
        rw [List.nodup_middle, List.nodup_cons] at hnd
        apply hnd.1; rw [e]; simp [hp]
    have hne_last : ¬ some anchor = ilist.last := by
      rw [hlast, List.getLast?_append_cons, List.getLast?_cons_cons]
      intro e
      have hm : anchor ∈ nx :: post1 := List.mem_of_mem_getLast? (by rw [← e]; rfl)
      rw [List.nodup_middle, List.nodup_cons] at hnd
      exact hnd.1 (List.mem_append_right _ hm)
    have hr := reaches_linked h anchor _ none ilist.first fuel hlk hfuel
    have hmemA : anchor ∈ pre ++ anchor :: nx :: post1 := by simp
    simp only [hmemA, decide_True] at hr
    have h1a : (h.set nx { x with prev := some n })[anchor]? = some w := by
      rw [List.getElem?_set_ne (fun e => hanx e.symm)]; exact hw
    have h1n : (h.set nx { x with prev := some n })[n]? = some nn := by
      rw [List.getElem?_set_ne (fun e => hnnx e.symm)]; exact hn
    have h2a : ((h.set nx { x with prev := some n }).set n
        { nn with next := w.next, prev := some anchor })[anchor]? = some w := by
      rw [List.getElem?_set_ne hna]; exact h1a
    unfold instrlist_postinsert
    rw [if_neg hne_last, hr]
    simp only [hw, hwn1, updateNode_eq h nx _ x hx, h1a]
    rw [← hwn1, updateNode_eq _ n _ nn h1n]
    simp only [updateNode_eq _ anchor _ w h2a]
    refine ⟨_, _, rfl, ⟨?_, ?_, hnd2⟩, rfl, rfl, ?_, ?_⟩
    · refine linked_insert h _ anchor n w { nn with next := w.next, prev := some anchor }
        (nx :: post1) hw ?_ ?_ rfl rfl ⟨x, hx, ?_, ?_⟩ pre none ilist.first ?_ hlk
      · rw [List.getElem?_set_self (by simpa using hwlt)]
      · rw [List.getElem?_set_ne (fun e => hna e.symm),
          List.getElem?_set_self (by simpa using hnlt)]
      · rw [List.getElem?_set_ne hanx, List.getElem?_set_ne hnnx, List.getElem?_set_self hxlt]
      · intro p hp
        obtain ⟨e1, e2, e3⟩ := hpost1 p hp
        rw [List.getElem?_set_ne e3, List.getElem?_set_ne e2, List.getElem?_set_ne e1]
      · intro p hp
        rw [List.getElem?_set_ne (hapre p hp), List.getElem?_set_ne (hnpre p hp),
          List.getElem?_set_ne (hnxpre p hp)]
    · rw [hlast]
      simp only [List.getLast?_append_cons, List.getLast?_cons_cons]
    · constructor
      · intro e
        have hm : n ∈ nx :: post1 := by
          apply List.mem_of_mem_getLast?
          rw [← List.getLast?_cons_cons, ← List.getLast?_append_cons pre, ← hlast, e]; rfl
        exact absurd (List.mem_append_right pre (List.mem_cons_of_mem anchor hm)) hfresh
      · intro e; exact absurd e.symm hne_last
    · intro p
      rw [payload_set _ anchor w { w with next := some n } h2a rfl p,
        payload_set _ n nn { nn with next := w.next, prev := some anchor } h1n rfl p,
        payload_set h nx x { x with prev := some n } hx rfl p]

/-- With an anchor outside the list the search runs to the end and nothing is stored. -/
theorem instrlist_postinsert_foreign (fuel : Nat) (h : Heap) (ilist : instrlist_t)
    (ps : List Nat) (anchor n : Nat) (hl : isList h ilist ps) (ha : anchor ∉ ps)
    (hfuel : ps.length < fuel) :
    instrlist_postinsert fuel h ilist anchor n = some (h, ilist) := by
  obtain ⟨hlk, hlast, _⟩ := hl
  have hne_last : ¬ some anchor = ilist.last := by
    rw [hlast]
    intro e
    exact ha (List.mem_of_mem_getLast? (by rw [← e]; rfl))
  have hr := reaches_linked h anchor _ none ilist.first fuel hlk hfuel
  simp only [ha, decide_False] at hr
  unfold instrlist_postinsert
  rw [if_neg hne_last, hr]

end parentProgram

/-- C11: for a well-formed list with the nodes `pre ++ anchor :: post` and a node `n` outside
it whose `next` is `NULL`, `instrlist_postinsert(list, anchor, n)` returns (the search given
more steps than the list is long) and leaves a well-formed list with the nodes
`pre ++ anchor :: n :: post`: `n` right behind `anchor`, the others in their order, one node
more, links consistent in both directions.  `first` and the fall-through address stay,
`last` is `n` exactly when `anchor` was the last node, and no node changes apart from its
links. -/
theorem C11_postinsert_splices (fuel : Nat) (h : parentProgram.Heap)
    (ilist : parentProgram.instrlist_t) (pre post : List Nat) (anchor n : Nat)
    (nn : parentProgram.instr_t)
    (hl : parentProgram.isList h ilist (pre ++ anchor :: post)) (hn : h[n]? = some nn)
    (hnext : nn.next = none) (hfresh : n ∉ pre ++ anchor :: post)
    (hfuel : (pre ++ anchor :: post).length < fuel) :
    ∃ h1 ilist1, parentProgram.instrlist_postinsert fuel h ilist anchor n = some (h1, ilist1) ∧
      parentProgram.isList h1 ilist1 (pre ++ anchor :: n :: post) ∧
      (pre ++ anchor :: n :: post).length = (pre ++ anchor :: post).length + 1 ∧
      ilist1.first = ilist.first ∧ ilist1.fall_through = ilist.fall_through ∧
      (ilist1.last = some n ↔ ilist.last = some anchor) ∧
      (∀ p : Nat, (h1[p]?).map parentProgram.instr_t.payload =
        (h[p]?).map parentProgram.instr_t.payload) := by
  obtain ⟨h1, ilist1, e1, e2, e3, e4, e5, e6⟩ :=
    parentProgram.instrlist_postinsert_spec fuel h ilist pre post anchor n nn hl hn hnext
      hfresh hfuel
  exact ⟨h1, ilist1, e1, e2, by simp only [List.length_append, List.length_cons]; omega,
    e3, e4, e5, e6⟩

/-- C11 on `sampleHeap`: the unlinked node 3 goes behind node 1 of the list 0, 1, 2. -/
theorem C11_postinsert_splices_witness :
    (parentProgram.isList sampleHeap sampleList ([0] ++ 1 :: [2]) ∧
      sampleHeap[3]? = some (sampleNode 7 none none) ∧
      (sampleNode 7 none none).next = none ∧ 3 ∉ [0] ++ 1 :: [2] ∧
      ([0] ++ 1 :: [2]).length < 4) ∧
    ∃ h1 ilist1, parentProgram.instrlist_postinsert 4 sampleHeap sampleList 1 3
        = some (h1, ilist1) ∧
      parentProgram.isList h1 ilist1 [0, 1, 3, 2] ∧ ilist1.last = some 2 :=
  ⟨⟨by decide, by decide, by decide, by decide, by decide⟩,
    (C11_postinsert_splices 4 sampleHeap sampleList [0] [2] 1 3 (sampleNode 7 none none)
      (by decide) (by decide) (by decide) (by decide) (by decide)).imp
      fun _ h => h.imp fun _ g => ⟨g.1, g.2.1, g.2.1.2.1⟩⟩

/-- C12: for a well-formed list and an anchor that is not one of its nodes,
`instrlist_postinsert(list, anchor, n)` returns (the search given more steps than the list
is long) without a single store: the heap, and with it every node of the list and `n`, and
the list record are what they were. -/
theorem C12_postinsert_foreign_anchor (fuel : Nat) (h : parentProgram.Heap)
    (ilist : parentProgram.instrlist_t) (ps : List Nat) (anchor n : Nat)
    (hl : parentProgram.isList h ilist ps) (ha : anchor ∉ ps) (hfuel : ps.length < fuel) :
    parentProgram.instrlist_postinsert fuel h ilist anchor n = some (h, ilist) ∧
      parentProgram.isList h ilist ps :=
  ⟨parentProgram.instrlist_postinsert_foreign fuel h ilist ps anchor n hl ha hfuel, hl⟩

/-- C12 on `sampleHeap` with one more unlinked node: node 4 behind node 3, which is not in
the list 0, 1, 2. -/
theorem C12_postinsert_foreign_anchor_witness :
    (parentProgram.isList (sampleHeap ++ [sampleNode 8 none none]) sampleList [0, 1, 2] ∧
      3 ∉ [0, 1, 2] ∧ [0, 1, 2].length < 4) ∧
    parentProgram.instrlist_postinsert 4 (sampleHeap ++ [sampleNode 8 none none]) sampleList 3 4
      = some (sampleHeap ++ [sampleNode 8 none none], sampleList) :=
  ⟨⟨by decide, by decide, by decide⟩,
    (C12_postinsert_foreign_anchor 4 (sampleHeap ++ [sampleNode 8 none none]) sampleList
      [0, 1, 2] 3 4 (by decide) (by decide) (by decide)).1⟩

/-! ## The copy made by `instr_clone` shares no storage with the original -/

namespace parentProgram.mem

/-- What `view` reads: the node, and the two arrays it points to. -/
theorem view_eq_some {m : Memory} {p : Nat} {v : instr_t} (h : view m p = some v) :
    ∃ n s d, m.nodes[p]? = some n ∧ m.arrays[n.src]? = some s ∧ m.arrays[n.dst]? = some d ∧
      v = { iData := n.iData, src := s, dst := d, origIndex := n.origIndex, dirty := n.dirty,
            dirtyInst := n.dirtyInst, dirtySrc := n.dirtySrc, dirtyDst := n.dirtyDst,
            next := n.next, prev := n.prev } := by
  unfold view at h
  cases hn : m.nodes[p]? with
  | none => simp [hn] at h
  | some n =>
    simp only [hn] at h
    cases hs : m.arrays[n.src]? with
    | none => simp [hs] at h
    | some s =>
      cases hd : m.arrays[n.dst]? with
      | none => simp [hs, hd] at h
      | some d =>
        simp only [hs, hd, Option.some.injEq] at h
        exact ⟨n, s, d, rfl, hs, hd, h.symm⟩

/-- The node seen at `p` only depends on the node and the two arrays it points to. -/
theorem view_congr (m m2 : Memory) (p : Nat) (n : Instr) (hn : m.nodes[p]? = some n)
    (hn2 : m2.nodes[p]? = some n) (hs : m2.arrays[n.src]? = m.arrays[n.src]?)
    (hd : m2.arrays[n.dst]? = m.arrays[n.dst]?) : view m2 p = view m p := by
  simp only [view, hn, hn2, hs, hd]

/-- The stores of a call on the node at `p`: no other node allocated before the call is
written, and of the arrays allocated before the call at most the one `src` points to. -/
theorem applyNodeEdit_frame {m m2 : Memory} {p : Nat} {e : NodeEdit}
    (h : applyNodeEdit m p e = some m2) :
    ∃ n, m.nodes[p]? = some n ∧
      (∀ q, q ≠ p → q < m.nodes.length → m2.nodes[q]? = m.nodes[q]?) ∧
      (∀ a, a ≠ n.src → a < m.arrays.length → m2.arrays[a]? = m.arrays[a]?) := by
  cases hn : m.nodes[p]? with
  | none => cases e <;> simp [applyNodeEdit, instr_clone, instr_set_translation, instr_set_opcode,
      instr_set_branch_target_pc, hn] at h
  | some n =>
    refine ⟨n, rfl, ?_⟩
    cases e with
    | clone =>
      simp only [applyNodeEdit, instr_clone, hn] at h
      cases hs : m.arrays[n.src]? with
      | none => simp [hs] at h
      | some s =>
        cases hd : m.arrays[n.dst]? with
        | none => simp [hs, hd] at h
        | some d =>
          simp only [hs, hd] at h
          cases h1 : copyOpnds n.iData.numSrc s with
          | none => simp [h1] at h
          | some s1 =>
            cases h2 : copyOpnds n.iData.numDst d with
            | none => simp [h1, h2] at h
            | some d1 =>
              simp only [h1, h2, Option.some.injEq] at h
              subst h
              exact ⟨fun q _ hq => List.getElem?_append_left hq,
                fun a _ ha => List.getElem?_append_left ha⟩
    | set_translation pc =>
      simp only [applyNodeEdit, instr_set_translation, hn, Option.some.injEq] at h
      subst h
      exact ⟨fun q hq _ => List.getElem?_set_ne (fun e => hq e.symm), fun a _ _ => rfl⟩
    | set_opcode opcode =>
      simp only [applyNodeEdit, instr_set_opcode, hn, Option.some.injEq] at h
      subst h
      exact ⟨fun q hq _ => List.getElem?_set_ne (fun e => hq e.symm), fun a _ _ => rfl⟩
    | set_branch_target_pc pc =>
      simp only [applyNodeEdit, instr_set_branch_target_pc, hn] at h
      repeat' split at h
      all_goals first
        | (simp at h; done)
        | (simp only [Option.some.injEq] at h
           subst h
           first
             | exact ⟨fun q _ _ => rfl, fun a _ _ => rfl⟩
             | exact ⟨fun q hq _ => List.getElem?_set_ne (fun e => hq e.symm),
                 fun a ha _ => List.getElem?_set_ne (fun e => ha e.symm)⟩)

/-- Copying as many operands as the array holds copies the array. -/
theorem copyOpnds_all (k : Int) (a : List instr_opnd_t) (h0 : 0 ≤ k) (hl : a.length = k.toNat) :
    copyOpnds k a = some a := by
  unfold copyOpnds
  rw [← hl]
  simp [h0]

/-- The copy `instr_clone` makes of a node of the declared shape: a new node with two new
arrays, which shows the same as the original apart from the links; the original is as it
was. -/
theorem instr_clone_view (m : Memory) (x : Nat) (vx : instr_t) (hv : view m x = some vx)
    (hs : vx.shaped) :
    ∃ m1 nx nc, instr_clone m x = some (m1, m.nodes.length) ∧
      m.nodes[x]? = some nx ∧ m1.nodes[x]? = some nx ∧ m1.nodes[m.nodes.length]? = some nc ∧
      nx.src < m.arrays.length ∧ nx.dst < m.arrays.length ∧
      nc.src = m.arrays.length ∧ nc.dst = m.arrays.length + 1 ∧
      m1.nodes.length = m.nodes.length + 1 ∧ m1.arrays.length = m.arrays.length + 2 ∧
      view m1 m.nodes.length = some { vx with next := none, prev := none } ∧
      view m1 x = some vx := by
  obtain ⟨nx, s, d, hn, hsa, hda, rfl⟩ := view_eq_some hv
  obtain ⟨_, _, s3, _, s5, _, s7, s8⟩ := hs
  have hxlt : x < m.nodes.length := (List.getElem?_eq_some.mp hn).1
  have hslt : nx.src < m.arrays.length := (List.getElem?_eq_some.mp hsa).1
  have hdlt : nx.dst < m.arrays.length := (List.getElem?_eq_some.mp hda).1
  have c1 := copyOpnds_all nx.iData.numSrc s s3 s7
  have c2 := copyOpnds_all nx.iData.numDst d s5 s8
  have a1 : (m.arrays ++ [s, d])[m.arrays.length]? = some s := by
    rw [List.getElem?_append_right (le_refl _)]; simp
  have a2 : (m.arrays ++ [s, d])[m.arrays.length + 1]? = some d := by
    rw [List.getElem?_append_right (by omega)]; simp
  have n1 : ∀ nc : Instr, (m.nodes ++ [nc])[m.nodes.length]? = some nc := by
    intro nc
    rw [List.getElem?_append_right (le_refl _)]; simp
  have n2 : ∀ nc : Instr, (m.nodes ++ [nc])[x]? = some nx := by
    intro nc
    rw [List.getElem?_append_left hxlt]; exact hn
  simp only [instr_clone, hn, hsa, hda, c1, c2]
  refine ⟨_, nx, _, rfl, rfl, n2 _, n1 _, hslt, hdlt, rfl, rfl, ?_, ?_, ?_, ?_⟩
  · simp
  · simp
  · simp only [view, n1, a1, a2]
  · simp only [view, n2, List.getElem?_append_left hslt, List.getElem?_append_left hdlt,
      hsa, hda]

/-- Every call on a node of the declared shape returns. -/
theorem applyNodeEdit_returns (m : Memory) (p : Nat) (v : instr_t) (e : NodeEdit)
    (hv : view m p = some v) (hs : v.shaped) : ∃ m2, applyNodeEdit m p e = some m2 := by
  cases e with
  | clone =>
    obtain ⟨m1, _, _, h1, _⟩ := instr_clone_view m p v hv hs
    exact ⟨m1, by simp only [applyNodeEdit, h1]⟩
  | set_translation pc =>
    obtain ⟨n, s, d, hn, _, _, _⟩ := view_eq_some hv
    simp only [applyNodeEdit, instr_set_translation, hn]
    exact ⟨_, rfl⟩
  | set_opcode opcode =>
    obtain ⟨n, s, d, hn, _, _, _⟩ := view_eq_some hv
    simp only [applyNodeEdit, instr_set_opcode, hn]
    exact ⟨_, rfl⟩
  | set_branch_target_pc pc =>
    obtain ⟨n, s, d, hn, hsa, _, rfl⟩ := view_eq_some hv
    obtain ⟨s1, _, s3, _, _, _, s7, _⟩ := hs
    simp only [applyNodeEdit, instr_set_branch_target_pc, hn]
    by_cases h0 : n.iData.numSrc = 0
    · exact ⟨m, by rw [if_pos h0]⟩
    · rw [if_neg h0]
      have hlen : 0 < s.length := by
        have h7 : s.length = n.iData.numSrc.toNat := s7
        have h3 : 0 ≤ n.iData.numSrc := s3
        omega
      have hs0 : s[0]? = some s[0] := List.getElem?_eq_getElem hlen
      simp only [hsa, hs0]
      have hpos : 0 < n.dirtySrc.length := by
        have : n.dirtySrc.length = 8 := s1
        omega
      repeat' split
      all_goals exact ⟨_, rfl⟩

end parentProgram.mem

/-- C13: for a node `x` of the declared shape, `instr_clone(x)` returns a new node `c` that
shows what `x` shows (header with address, opcode, counts and length, `origIndex`, `dirty`,
`dirtyInst` and both flag arrays, and equal source and destination operands) with `next`
and `prev` `NULL`, and leaves `x` as it was.  The operand arrays of `c` are newly allocated
and differ from both arrays of `x`.  Whatever call (`instr_clone`, `instr_set_translation`,
`instr_set_opcode`, `instr_set_branch_target_pc`) is then made on `c`, it returns and `x` is
as before; and the same with `x` and `c` exchanged. -/
theorem C13_clone_detached (m : parentProgram.mem.Memory) (x : Nat)
    (vx : parentProgram.instr_t) (hv : parentProgram.mem.view m x = some vx)
    (hs : vx.shaped) :
    ∃ m1 c nx nc, parentProgram.mem.instr_clone m x = some (m1, c) ∧ c ≠ x ∧
      parentProgram.mem.view m1 c = some { vx with next := none, prev := none } ∧
      parentProgram.mem.view m1 x = some vx ∧
      m1.nodes[x]? = some nx ∧ m1.nodes[c]? = some nc ∧
      nc.src ≠ nx.src ∧ nc.src ≠ nx.dst ∧ nc.dst ≠ nx.src ∧ nc.dst ≠ nx.dst ∧
      nc.src ≠ nc.dst ∧
      (∀ e, ∃ m2, parentProgram.mem.applyNodeEdit m1 c e = some m2 ∧
        parentProgram.mem.view m2 x = some vx) ∧
      (∀ e, ∃ m2, parentProgram.mem.applyNodeEdit m1 x e = some m2 ∧
        parentProgram.mem.view m2 c = some { vx with next := none, prev := none }) := by
  obtain ⟨m1, nx, nc, e1, hn, hn1, hc1, hslt, hdlt, hcs, hcd, hnl, hal, hvc, hvx⟩ :=
    parentProgram.mem.instr_clone_view m x vx hv hs
  have hxlt : x < m.nodes.length := (List.getElem?_eq_some.mp hn).1
  have hcx : m.nodes.length ≠ x := by omega
  have hsc : ({ vx with next := none, prev := none } : parentProgram.instr_t).shaped := hs
  refine ⟨m1, m.nodes.length, nx, nc, e1, hcx, hvc, hvx, hn1, hc1, by omega, by omega,
    by omega, by omega, by omega, fun e => ?_, fun e => ?_⟩
  · obtain ⟨m2, h2⟩ := parentProgram.mem.applyNodeEdit_returns m1 m.nodes.length _ e hvc hsc
    obtain ⟨n, hn2, f1, f2⟩ := parentProgram.mem.applyNodeEdit_frame h2
    rw [hc1] at hn2
    have hnn : nc = n := Option.some.inj hn2
    subst hnn
    refine ⟨m2, h2, ?_⟩
    rw [← hvx]
    refine parentProgram.mem.view_congr m1 m2 x nx hn1 ?_ ?_ ?_
    · rw [f1 x (fun e => hcx e.symm) (by omega)]; exact hn1
    · exact f2 nx.src (by omega) (by omega)
    · exact f2 nx.dst (by omega) (by omega)
  · obtain ⟨m2, h2⟩ := parentProgram.mem.applyNodeEdit_returns m1 x vx e hvx hs
    obtain ⟨n, hn2, f1, f2⟩ := parentProgram.mem.applyNodeEdit_frame h2
    rw [hn1] at hn2
    have hnn : nx = n := Option.some.inj hn2
    subst hnn
    refine ⟨m2, h2, ?_⟩
    rw [← hvc]
    refine parentProgram.mem.view_congr m1 m2 m.nodes.length nc hc1 ?_ ?_ ?_
    · rw [f1 m.nodes.length hcx (by omega)]; exact hc1
    · exact f2 nc.src (by omega) (by omega)
    · exact f2 nc.dst (by omega) (by omega)

/-- C13 on `sampleMemory`: the copy of node 0 is node 1; retargeting the copy to `0x3000`
changes what the copy shows and leaves node 0 as it was. -/
theorem C13_clone_detached_witness :
    (parentProgram.mem.view sampleMemory 0 = some { sampleClean with next := some 5 } ∧
      ({ sampleClean with next := some 5 } : parentProgram.instr_t).shaped) ∧
    (∃ m1 c, parentProgram.mem.instr_clone sampleMemory 0 = some (m1, c) ∧
      parentProgram.mem.view m1 c = some sampleClean ∧
      ∃ m2, parentProgram.mem.applyNodeEdit m1 c (.set_branch_target_pc 12288) = some m2 ∧
        parentProgram.mem.view m2 0 = some { sampleClean with next := some 5 }) ∧
    ((parentProgram.mem.instr_clone sampleMemory 0).bind fun r =>
      (parentProgram.mem.applyNodeEdit r.1 r.2 (.set_branch_target_pc 12288)).bind fun m2 =>
        parentProgram.mem.view m2 r.2) =
      some { sampleClean with
        src := [{ type := 7, longParam := 12288, p1 := 0, p2 := 0 }]
        dirty := 1
        dirtySrc := [1, 0, 0, 0, 0, 0, 0, 0] } :=
  ⟨⟨by decide, by decide⟩,
    (C13_clone_detached sampleMemory 0 { sampleClean with next := some 5 } (by decide)
      (by decide)).imp fun _ h => h.imp fun _ g =>
        ⟨g.choose_spec.choose_spec.1, g.choose_spec.choose_spec.2.2.1,
          g.choose_spec.choose_spec.2.2.2.2.2.2.2.2.2.2.2.1 (.set_branch_target_pc 12288)⟩,
    by decide⟩

/-! ## The polling loop -/

namespace parentProgram

/-- Clearing a set flag lowers the number of set flags by one. -/
theorem running_set_zero :
    ∀ (l : List Int) (i : Nat) (f : Int), l[i]? = some f → f ≠ 0 →
      running (l.set i 0) + 1 = running l := by
  intro l
  induction l with
  | nil => intro i f h; simp at h
  | cons a l ih =>
    intro i f h hf
    cases i with
    | zero =>
      simp only [List.getElem?_cons_zero, Option.some.injEq] at h
      subst h
      simp [running, List.filter_cons, hf]
    | succ i =>
      simp only [List.getElem?_cons_succ] at h
      have := ih i f h hf
      simp only [running] at this ⊢
      rw [List.set_cons_succ, List.filter_cons, List.filter_cons]
      split
      · simp only [List.length_cons]; omega
      · exact this

/-- No flag is set exactly when the number of set flags is zero. -/
theorem running_eq_zero (l : List Int) : running l = 0 ↔ ∀ f ∈ l, f = 0 := by
  unfold running
  rw [List.length_eq_zero, List.filter_eq_nil_iff]
  constructor
  · intro h f hf
    have := h f hf
    simpa using this
  · intro h f hf
    simp [h f hf]

/-- What one pass of the loop body does, case by case. -/
theorem pollChild_cases (st : Reactor) (i : Nat) (r : Polled) :
    (((st.isRunning[i]? = none ∨ st.isRunning[i]? = some 0) ∧ pollChild st i r = .ok st) ∨
    (∃ f, st.isRunning[i]? = some f ∧ f ≠ 0 ∧
      ((r = .failed ∧
          pollChild st i r = .error { st with events := st.events ++ [Event.read i] }) ∨
        ((r = .wouldBlock ∨ r = .nothing) ∧
          pollChild st i r = .ok { st with events := st.events ++ [Event.read i] }) ∨
        (r = .message (-1) ∧
          pollChild st i r = .ok { isRunning := st.isRunning.set i 0,
                                   childrenLeft := st.childrenLeft - 1,
                                   events := st.events ++ [Event.read i, Event.ack i] }) ∨
        (∃ numInstrs, numInstrs ≠ -1 ∧ r = .message numInstrs ∧
          pollChild st i r = .ok { st with
            events := st.events ++ [Event.read i, Event.ack i, Event.block i numInstrs] })))) := by
  unfold pollChild
  cases hf : st.isRunning[i]? with
  | none => exact Or.inl ⟨Or.inl rfl, rfl⟩
  | some f =>
    by_cases h0 : f = 0
    · subst h0
      exact Or.inl ⟨Or.inr rfl, by simp⟩
    · refine Or.inr ⟨f, rfl, h0, ?_⟩
      simp only [h0, if_false]
      cases r with
      | wouldBlock => exact Or.inr (Or.inl ⟨Or.inl rfl, rfl⟩)
      | failed => exact Or.inl ⟨rfl, rfl⟩
      | nothing => exact Or.inr (Or.inl ⟨Or.inr rfl, rfl⟩)
      | message numInstrs =>
        by_cases hm : numInstrs = -1
        · subst hm
          refine Or.inr (Or.inr (Or.inl ⟨rfl, ?_⟩))
          simp
        · refine Or.inr (Or.inr (Or.inr ⟨numInstrs, hm, rfl, ?_⟩))
          simp [hm]

/-- The loop body keeps the number of children, the flags of the other children, and the
agreement of `childrenLeft` with the flags; and it never sets a flag. -/
theorem pollChild_keeps (st st1 : Reactor) (i : Nat) (r : Polled)
    (h : pollChild st i r = .ok st1 ∨ pollChild st i r = .error st1) :
    st1.isRunning.length = st.isRunning.length ∧
    (∀ j : Nat, j ≠ i → st1.isRunning[j]? = st.isRunning[j]?) ∧
    (∀ j : Nat, st.isRunning[j]? = some 0 → st1.isRunning[j]? = some 0) ∧
    (st.counted → st1.counted) := by
  rcases pollChild_cases st i r with ⟨_, e⟩ | ⟨f, hf, hf0, c⟩
  · rw [e] at h
    rcases h with h | h <;> cases h
    exact ⟨rfl, fun _ _ => rfl, fun _ hj => hj, fun hc => hc⟩
  · rcases c with ⟨_, e⟩ | ⟨_, e⟩ | ⟨_, e⟩ | ⟨_, _, _, e⟩
    all_goals
      rw [e] at h
      rcases h with h | h <;> cases h
    · exact ⟨rfl, fun _ _ => rfl, fun _ hj => hj, fun hc => hc⟩
    · exact ⟨rfl, fun _ _ => rfl, fun _ hj => hj, fun hc => hc⟩
    · refine ⟨by simp, fun j hj => List.getElem?_set_ne (fun e => hj e.symm), ?_, ?_⟩
      · intro j hj
        by_cases hji : i = j
        · subst hji
          exact List.getElem?_set_self (List.getElem?_eq_some.mp hf).1
        · show (st.isRunning.set i 0)[j]? = some 0
          rw [List.getElem?_set_ne hji]; exact hj
      · intro hc
        have := running_set_zero st.isRunning i f hf hf0
        unfold Reactor.counted at hc ⊢
        show st.childrenLeft - 1 = (running (st.isRunning.set i 0) : Int)
        omega
    · exact ⟨rfl, fun _ _ => rfl, fun _ hj => hj, fun hc => hc⟩

end parentProgram

namespace parentProgram

/-- A pass keeps the number of children and the agreement of `childrenLeft` with the
flags, and sets no flag. -/
theorem pollAll_keeps (reads : Nat → Polled) :
    ∀ (k i : Nat) (st st1 : Reactor),
      (pollAll reads k i st = .ok st1 ∨ pollAll reads k i st = .error st1) →
      st1.isRunning.length = st.isRunning.length ∧
      (∀ j : Nat, st.isRunning[j]? = some 0 → st1.isRunning[j]? = some 0) ∧
      (st.counted → st1.counted) := by
  intro k
  induction k with
  | zero =>
    intro i st st1 h
    simp only [pollAll] at h
    rcases h with h | h <;> cases h
    exact ⟨rfl, fun _ hj => hj, fun hc => hc⟩
  | succ k ih =>
    intro i st st1 h
    simp only [pollAll] at h
    cases hp : pollChild st i (reads i) with
    | error e =>
      rw [hp] at h
      rcases h with h | h <;> cases h
      obtain ⟨a, _, b, c⟩ := pollChild_keeps st _ i (reads i) (Or.inr hp)
      exact ⟨a, b, c⟩
    | ok s =>
      rw [hp] at h
      obtain ⟨a, _, b, c⟩ := pollChild_keeps st s i (reads i) (Or.inl hp)
      obtain ⟨a1, b1, c1⟩ := ih (i + 1) s st1 h
      exact ⟨by rw [a1, a], fun j hj => b1 j (b j hj), fun hc => c1 (c hc)⟩

/-- A pass is cut short only by a failed read from a child whose flag is set; nothing is
done after that read. -/
theorem pollAll_error (reads : Nat → Polled) :
    ∀ (k i : Nat) (st st1 : Reactor), pollAll reads k i st = .error st1 →
      ∃ (j : Nat) (f : Int), st1.isRunning[j]? = some f ∧ f ≠ 0 ∧ reads j = .failed ∧
        st1.events.getLast? = some (Event.read j) := by
  intro k
  induction k with
  | zero => intro i st st1 h; simp [pollAll] at h
  | succ k ih =>
    intro i st st1 h
    simp only [pollAll] at h
    cases hp : pollChild st i (reads i) with
    | error e =>
      rw [hp] at h
      cases h
      rcases pollChild_cases st i (reads i) with ⟨_, e1⟩ | ⟨f, hf, hf0, c⟩
      · rw [e1] at hp; cases hp
      · rcases c with ⟨hr, e1⟩ | ⟨_, e1⟩ | ⟨_, e1⟩ | ⟨_, _, _, e1⟩
        · rw [e1] at hp
          cases hp
          exact ⟨i, f, hf, hf0, hr, by simp⟩
        all_goals (rw [e1] at hp; cases hp)
    | ok s =>
      rw [hp] at h
      exact ih (i + 1) s st1 h

/-- A pass over `a + b` children is a pass over `a` followed by one over `b`. -/
theorem pollAll_append (reads : Nat → Polled) :
    ∀ (a b i : Nat) (st : Reactor),
      pollAll reads (a + b) i st =
        match pollAll reads a i st with
        | .error e => .error e
        | .ok s => pollAll reads b (i + a) s := by
  intro a
  induction a with
  | zero => intro b i st; simp [pollAll]
  | succ a ih =>
    intro b i st
    have e : a + 1 + b = (a + b) + 1 := by omega
    rw [e]
    simp only [pollAll]
    cases pollChild st i (reads i) with
    | error e => rfl
    | ok s =>
      simp only
      rw [ih b (i + 1) s]
      have e2 : i + 1 + a = i + (a + 1) := by omega
      rw [e2]

/-- How the loop can end: by `break` with every flag clear, or by `return 1` behind a
failed read with a flag still set; `childrenLeft` agrees with the flags either way. -/
theorem reactorLoop_outcome (reads : Nat → Nat → Polled) :
    ∀ (fuel t : Nat) (st : Reactor) (out : Outcome), st.counted →
      reactorLoop reads fuel t st = some out →
      match out with
      | .finished st1 => st1.counted ∧ ∀ f ∈ st1.isRunning, f = 0
      | .readFailed st1 =>
        st1.counted ∧ ∃ (j : Nat) (f : Int), st1.isRunning[j]? = some f ∧ f ≠ 0 ∧
          st1.events.getLast? = some (Event.read j) := by
  intro fuel
  induction fuel with
  | zero => intro t st out _ h; simp [reactorLoop] at h
  | succ fuel ih =>
    intro t st out hc h
    simp only [reactorLoop] at h
    cases hp : pollAll (reads t) st.isRunning.length 0 st with
    | error e =>
      rw [hp] at h
      simp only [Option.some.injEq] at h
      subst h
      obtain ⟨j, f, h1, h2, _, h4⟩ := pollAll_error (reads t) _ _ _ _ hp
      exact ⟨(pollAll_keeps (reads t) _ _ _ _ (Or.inr hp)).2.2 hc, j, f, h1, h2, h4⟩
    | ok s =>
      rw [hp] at h
      have hcs := (pollAll_keeps (reads t) _ _ _ _ (Or.inl hp)).2.2 hc
      by_cases h0 : s.childrenLeft = 0
      · simp only [h0, if_true, Option.some.injEq] at h
        subst h
        refine ⟨hcs, (running_eq_zero s.isRunning).mp ?_⟩
        unfold Reactor.counted at hcs
        omega
      · simp only [h0, if_false] at h
        exact ih (t + 1) s out hcs h

end parentProgram

/-- C16 (the claim fails as stated): with two children, of which the first announces `-1`
in the first pass and the second has a read fail in the second pass, the loop is left by
`return 1` while the flag of the second child is still set: it ends with a connection that
is not closed. -/
theorem C16_loop_left_with_open_connection :
    parentProgram.reactorLoop sampleReads 5 0 (parentProgram.Reactor.start 2) =
      some (.readFailed { isRunning := [0, 1], childrenLeft := 1,
                          events := [.read 0, .ack 0, .read 1, .read 1] }) := by
  decide

/-- C16 (amended): `childrenLeft` equals the number of set `isRunning` flags when the loop
is entered, and every pass of the loop body keeps it so.  A child whose flag is set has it
cleared by a pass of the body exactly when its read brings the count `-1`; it is then
written one acknowledgment, and the flags of the other children stay.  A child whose flag
is clear is neither read nor written nor counted again.  The loop is left by `break`
exactly at the end of a pass after which no flag is set; the only other way out is
`return 1` behind a failed read, with a flag still set. -/
theorem C16_reactor_bookkeeping (reads : Nat → Nat → parentProgram.Polled)
    (numChildren : Nat) :
    (parentProgram.Reactor.start numChildren).counted ∧
    (∀ (st st1 : parentProgram.Reactor) (i : Nat) (r : parentProgram.Polled), st.counted →
      (parentProgram.pollChild st i r = .ok st1 ∨ parentProgram.pollChild st i r = .error st1) →
      st1.counted) ∧
    (∀ (st st1 : parentProgram.Reactor) (i : Nat) (r : parentProgram.Polled) (f : Int),
      st.isRunning[i]? = some f → f ≠ 0 → parentProgram.pollChild st i r = .ok st1 →
      (st1.isRunning[i]? = some 0 ↔ r = .message (-1)) ∧
      (∀ j : Nat, j ≠ i → st1.isRunning[j]? = st.isRunning[j]?) ∧
      (r = .message (-1) → st1.events = st.events ++ [.read i, .ack i])) ∧
    (∀ (st : parentProgram.Reactor) (i : Nat) (r : parentProgram.Polled),
      st.isRunning[i]? = some 0 → parentProgram.pollChild st i r = .ok st) ∧
    (∀ (fuel t : Nat) (st : parentProgram.Reactor) (out : parentProgram.Outcome), st.counted →
      parentProgram.reactorLoop reads fuel t st = some out →
      match out with
      | .finished st1 => st1.counted ∧ ∀ f ∈ st1.isRunning, f = 0
      | .readFailed st1 =>
        st1.counted ∧ ∃ (j : Nat) (f : Int), st1.isRunning[j]? = some f ∧ f ≠ 0 ∧
          st1.events.getLast? = some (parentProgram.Event.read j)) ∧
    (∀ (fuel t : Nat) (st st1 : parentProgram.Reactor), st.counted →
      parentProgram.pollAll (reads t) st.isRunning.length 0 st = .ok st1 →
      ((∀ f ∈ st1.isRunning, f = 0) ↔
        parentProgram.reactorLoop reads (fuel + 1) t st = some (.finished st1))) := by
  refine ⟨?_, ?_, ?_, ?_, ?_, ?_⟩
  · unfold parentProgram.Reactor.counted parentProgram.Reactor.start parentProgram.running
    simp only
    rw [List.filter_eq_self.mpr]
    · simp
    · intro f hf
      rw [List.eq_of_mem_replicate hf]
      decide
  · intro st st1 i r hc h
    exact (parentProgram.pollChild_keeps st st1 i r h).2.2.2 hc
  · intro st st1 i r f hf hf0 h
    refine ⟨?_, (parentProgram.pollChild_keeps st st1 i r (Or.inl h)).2.1, ?_⟩
    · rcases parentProgram.pollChild_cases st i r with ⟨hz, _⟩ | ⟨f1, hf1, _, c⟩
      · rcases hz with hz | hz
        · rw [hz] at hf; cases hf
        · rw [hz] at hf; cases hf; exact absurd rfl hf0
      · rcases c with ⟨_, e⟩ | ⟨hr, e⟩ | ⟨hr, e⟩ | ⟨k, hk, hr, e⟩
        · rw [e] at h; cases h
        · rw [e] at h
          cases h
          constructor
          · intro h0
            rw [hf] at h0
            cases h0
            exact absurd rfl hf0
          · intro hm
            rcases hr with hr | hr <;> rw [hr] at hm <;> cases hm
        · rw [e] at h
          cases h
          exact ⟨fun _ => hr, fun _ =>
            List.getElem?_set_self (List.getElem?_eq_some.mp hf).1⟩
        · rw [e] at h
          cases h
          constructor
          · intro h0
            rw [hf] at h0
            cases h0
            exact absurd rfl hf0
          · intro hm
            rw [hr] at hm
            cases hm
            exact absurd rfl hk
    · intro hm
      subst hm
      rcases parentProgram.pollChild_cases st i (.message (-1)) with ⟨hz, _⟩ | ⟨f1, hf1, _, c⟩
      · rcases hz with hz | hz
        · rw [hz] at hf; cases hf
        · rw [hz] at hf; cases hf; exact absurd rfl hf0
      · rcases c with ⟨hr, _⟩ | ⟨hr, _⟩ | ⟨_, e⟩ | ⟨k, hk, hr, _⟩
        · cases hr
        · rcases hr with hr | hr <;> cases hr
        · rw [e] at h; cases h; rfl
        · cases hr; exact absurd rfl hk
  · intro st i r h0
    rcases parentProgram.pollChild_cases st i r with ⟨_, e⟩ | ⟨f1, hf1, hne, _⟩
    · exact e
    · rw [h0] at hf1; cases hf1; exact absurd rfl hne
  · exact parentProgram.reactorLoop_outcome reads
  · intro fuel t st st1 hc hp
    have hcs := (parentProgram.pollAll_keeps (reads t) _ _ _ _ (Or.inl hp)).2.2 hc
    simp only [parentProgram.reactorLoop, hp]
    constructor
    · intro hall
      have h0 : st1.childrenLeft = 0 := by
        have := (parentProgram.running_eq_zero st1.isRunning).mpr hall
        unfold parentProgram.Reactor.counted at hcs
        omega
      simp [h0]
    · intro h
      by_cases h0 : st1.childrenLeft = 0
      · apply (parentProgram.running_eq_zero st1.isRunning).mp
        unfold parentProgram.Reactor.counted at hcs
        omega
      · simp only [h0, if_false] at h
        have hcases := parentProgram.reactorLoop_outcome reads fuel (t + 1) st1 _ hcs h
        simp only at hcases
        exact hcases.2

/-- C16 on a run with two children that each announce one block and then `-1`: the loop is
left by `break` after the third pass, with both flags clear and `childrenLeft = 0`. -/
theorem C16_reactor_bookkeeping_witness :
    (parentProgram.Reactor.start 2).counted ∧
    parentProgram.reactorLoop sampleQuiet 5 0 (parentProgram.Reactor.start 2) =
      some (.finished sampleClosed) ∧
    (sampleClosed.counted ∧ ∀ f ∈ sampleClosed.isRunning, f = 0) :=
  have h := C16_reactor_bookkeeping sampleQuiet 2
  ⟨h.1, by decide,
    h.2.2.2.2.1 5 0 (parentProgram.Reactor.start 2) (.finished sampleClosed) h.1 (by decide)⟩

/-- C17 (the claim fails as stated): with two children, of which the first has its read
fail at once while the second has a block to announce, the loop is left by `return 1`
after that one read: the second child, whose flag is set, is never read. -/
theorem C17_failed_read_stops_all :
    parentProgram.reactorLoop sampleBroken 5 0 (parentProgram.Reactor.start 2) =
      some (.readFailed { isRunning := [1, 1], childrenLeft := 2, events := [.read 0] }) := by
  decide

/-- C17 (amended): when, in some pass, the read from a child whose flag is set fails with
an error other than would-block, `main` returns 1 there and then.  The state it leaves is
the one the pass had reached plus that read: every flag that was set is still set, and no
child is read, acknowledged or served after the failure. -/
theorem C17_read_failure_ends_reactor (reads : Nat → Nat → parentProgram.Polled)
    (fuel t : Nat) (st st1 : parentProgram.Reactor) (i : Nat) (f : Int)
    (hi : i < st.isRunning.length)
    (hbefore : parentProgram.pollAll (reads t) i 0 st = .ok st1)
    (hrun : st1.isRunning[i]? = some f) (hf : f ≠ 0) (hfail : reads t i = .failed) :
    parentProgram.reactorLoop reads (fuel + 1) t st =
      some (.readFailed { st1 with events := st1.events ++ [.read i] }) := by
  have hk : st.isRunning.length = i + ((st.isRunning.length - i - 1) + 1) := by omega
  have hp : parentProgram.pollChild st1 i (reads t i) =
      .error { st1 with events := st1.events ++ [.read i] } := by
    rcases parentProgram.pollChild_cases st1 i (reads t i) with ⟨hz, _⟩ | ⟨f1, _, _, c⟩
    · rcases hz with hz | hz
      · rw [hz] at hrun; cases hrun
      · rw [hz] at hrun; cases hrun; exact absurd rfl hf
    · rcases c with ⟨_, e⟩ | ⟨hr, _⟩ | ⟨hr, _⟩ | ⟨_, _, hr, _⟩
      · exact e
      · rw [hfail] at hr; rcases hr with hr | hr <;> cases hr
      · rw [hfail] at hr; cases hr
      · rw [hfail] at hr; cases hr
  have hall : parentProgram.pollAll (reads t) st.isRunning.length 0 st =
      .error { st1 with events := st1.events ++ [.read i] } := by
    rw [hk, parentProgram.pollAll_append, hbefore]
    simp only [parentProgram.pollAll, Nat.zero_add, hp]
  simp only [parentProgram.reactorLoop, hall]

/-- C17 on the run `sampleReads`: in the second pass the first child is closed and skipped,
and the failed read from the second child ends the loop. -/
theorem C17_read_failure_ends_reactor_witness :
    (1 < sampleHalfway.isRunning.length ∧
      parentProgram.pollAll (sampleReads 1) 1 0 sampleHalfway = .ok sampleHalfway ∧
      sampleHalfway.isRunning[1]? = some 1 ∧ (1 : Int) ≠ 0 ∧ sampleReads 1 1 = .failed) ∧
    parentProgram.reactorLoop sampleReads 1 1 sampleHalfway =
      some (.readFailed { sampleHalfway with events := sampleHalfway.events ++ [.read 1] }) :=
  ⟨⟨by decide, rfl, by decide, by decide, by decide⟩,
    C17_read_failure_ends_reactor sampleReads 0 1 sampleHalfway sampleHalfway 1 1 (by decide)
      rfl (by decide) (by decide) (by decide)⟩

/-! ## The load scan of the loop detector -/

namespace detectLoop

theorem recordedLoads_length_le (bb : List childProgramClient.instr_t) (ex : List Nat) :
    (recordedLoads bb ex).length ≤ 5 := by
  unfold recordedLoads
  rw [List.length_take]
  omega

/-- One more examination adds a recorded load exactly when the instruction has opcode 57
and fewer than five loads are recorded. -/
theorem recordedLoads_snoc (bb : List childProgramClient.instr_t) (ex : List Nat) (p : Nat) :
    recordedLoads bb (ex ++ [p]) =
      if isLoad bb p = true ∧ (recordedLoads bb ex).length < 5 then recordedLoads bb ex ++ [p]
      else recordedLoads bb ex := by
  unfold recordedLoads
  rw [List.filter_append]
  by_cases hp : isLoad bb p = true
  · have hf : List.filter (isLoad bb) [p] = [p] := by simp [List.filter, hp]
    rw [hf]
    by_cases hl : (List.filter (isLoad bb) ex).length < 5
    · have h1 : (List.take 5 (List.filter (isLoad bb) ex)).length < 5 := by
        rw [List.length_take]; omega
      rw [if_pos ⟨hp, h1⟩, List.take_of_length_le (by omega : (List.filter (isLoad bb) ex).length ≤ 5),
        List.take_of_length_le (by simp; omega)]
    · have h1 : ¬ (List.take 5 (List.filter (isLoad bb) ex)).length < 5 := by
        rw [List.length_take]; omega
      rw [if_neg (fun h => h1 h.2), List.take_append_of_le_length (by omega)]
  · have hf : List.filter (isLoad bb) [p] = [] := by simp [List.filter, hp]
    rw [hf, List.append_nil, if_neg (fun h => hp h.1)]

end detectLoop

namespace detectLoop

/-- One run of the loop body, with `currentInstr` and `prevInstr` at instructions of the
block: it returns, examines `currentInstr`, moves `currentInstr` behind the old `prevInstr`
and `prevInstr` to the old `currentInstr`, and keeps the arrays in agreement. -/
theorem scanBody_spec (bb : List childProgramClient.instr_t) (s : Scan) (p q : Nat)
    (hc : s.currentInstr = some p) (hp : p < bb.length) (hq : s.prevInstr = some q)
    (hqn : q < bb.length) (hr : s.recorded bb) :
    ∃ s1, scanBody bb s = some s1 ∧
      s1.currentInstr = (if q + 1 < bb.length then some (q + 1) else none) ∧
      s1.prevInstr = some p ∧ s1.examined = s.examined ++ [p] ∧ s1.recorded bb := by
  obtain ⟨h1, h2, h3, h4, h5, h6⟩ := hr
  have hle := recordedLoads_length_le bb s.examined
  have hi : bb[p]? = some bb[p] := List.getElem?_eq_getElem hp
  have hop : instr_get_opcode bb (some p) = some bb[p].opcode := by
    simp only [instr_get_opcode, hi]
  have hnext : instr_get_next_app bb (some q) =
      some (if q + 1 < bb.length then some (q + 1) else none) := by
    simp only [instr_get_next_app, hqn, if_true]
  have hsnoc := recordedLoads_snoc bb s.examined p
  by_cases h57 : bb[p].opcode = 57 ∧ s.numLoads < 5
  · obtain ⟨ho, hlt⟩ := h57
    have hload : isLoad bb p = true := by
      simp only [isLoad, hop, ho, decide_True]
    have hRlt : (recordedLoads bb s.examined).length < 5 := by omega
    rw [if_pos ⟨hload, hRlt⟩] at hsnoc
    have htn : s.numLoads.toNat = (recordedLoads bb s.examined).length := by omega
    have hcond : 0 ≤ s.numLoads ∧ s.numLoads.toNat < s.loads.length ∧
        s.numLoads.toNat < s.validLoads.length := by
      refine ⟨by omega, by omega, by omega⟩
    simp only [scanBody, hc, hop, ho, if_true, recordLoad, hlt, hcond, and_self, hq, hnext]
    refine ⟨_, rfl, rfl, rfl, rfl, ?_⟩
    · refine ⟨?_, ?_, ?_, ?_, ?_, by simp only [List.length_append, List.length_singleton, h6]⟩
      · show (s.loads.set _ _).length = 5
        rw [List.length_set]; exact h1
      · show (s.validLoads.set _ _).length = 5
        rw [List.length_set]; exact h2
      · show s.numLoads + 1 = ((recordedLoads bb (s.examined ++ [p])).length : Int)
        rw [hsnoc, List.length_append, List.length_singleton]
        omega
      · show ∀ i : Nat, i < (recordedLoads bb (s.examined ++ [p])).length →
          (s.loads.set s.numLoads.toNat (some p))[i]? =
              some ((recordedLoads bb (s.examined ++ [p]))[i]?) ∧
            (s.validLoads.set s.numLoads.toNat 1)[i]? = some 1
        intro i hi
        rw [hsnoc] at hi ⊢
        rw [htn]
        simp only [List.length_append, List.length_singleton] at hi
        by_cases he : i = (recordedLoads bb s.examined).length
        · subst he
          rw [List.getElem?_set_self (by omega), List.getElem?_set_self (by omega),
            List.getElem?_concat_length]
          exact ⟨rfl, rfl⟩
        · have hlt2 : i < (recordedLoads bb s.examined).length := by omega
          rw [List.getElem?_set_ne (fun e => he e.symm), List.getElem?_set_ne (fun e => he e.symm),
            List.getElem?_append_left hlt2]
          exact h4 i hlt2
      · show ∀ c ∈ s.counts ++ [s.numLoads + 1], 0 ≤ c ∧ c ≤ 5
        intro c hcm
        rcases List.mem_append.mp hcm with hcm | hcm
        · exact h5 c hcm
        · simp only [List.mem_singleton] at hcm
          omega
  · have hkeep : (if bb[p].opcode = 57 then recordLoad s else some s) = some s := by
      by_cases ho : bb[p].opcode = 57
      · have hge : ¬ s.numLoads < 5 := fun h => h57 ⟨ho, h⟩
        simp only [ho, if_true, recordLoad, hge, if_false]
      · simp only [ho, if_false]
    have hrec : recordedLoads bb (s.examined ++ [p]) = recordedLoads bb s.examined := by
      rw [hsnoc]
      apply if_neg
      rintro ⟨hload, hlt⟩
      apply h57
      simp only [isLoad, hop, decide_eq_true_eq, Option.some.injEq] at hload
      exact ⟨hload, by omega⟩
    simp only [scanBody, hc, hop, hkeep, hq, hnext]
    refine ⟨_, rfl, rfl, rfl, rfl, ?_⟩
    · refine ⟨h1, h2, ?_, ?_, ?_, by simp only [List.length_append, List.length_singleton, h6]⟩
      · show s.numLoads = ((recordedLoads bb (s.examined ++ [p])).length : Int)
        rw [hrec]; exact h3
      · show ∀ i : Nat, i < (recordedLoads bb (s.examined ++ [p])).length →
          s.loads[i]? = some ((recordedLoads bb (s.examined ++ [p]))[i]?) ∧
            s.validLoads[i]? = some 1
        rw [hrec]; exact h4
      · show ∀ c ∈ s.counts ++ [s.numLoads], 0 ≤ c ∧ c ≤ 5
        intro c hcm
        rcases List.mem_append.mp hcm with hcm | hcm
        · exact h5 c hcm
        · simp only [List.mem_singleton] at hcm
          omega

end detectLoop

namespace detectLoop

/-- The loop from a state with `currentInstr` and `prevInstr` both at position `k`, `m + 1`
instructions before the last: it ends, having examined `k` once and the `m` instructions
behind it twice each, in order. -/
theorem scanLoop_from (bb : List childProgramClient.instr_t) :
    ∀ (m k fuel : Nat) (s : Scan), k + m + 2 = bb.length → s.currentInstr = some k →
      s.prevInstr = some k → s.recorded bb → 2 * m + 2 ≤ fuel →
      ∃ s1, scanLoop bb fuel s = some s1 ∧
        s1.examined = s.examined ++ k :: doubled (k + 1) m ∧ s1.recorded bb ∧
        s1.currentInstr = some (k + m + 1) ∧ s1.prevInstr = some (k + m) := by
  intro m
  induction m with
  | zero =>
    intro k fuel s hn hc hp hr hf
    obtain ⟨f, rfl⟩ : ∃ f, fuel = f + 2 := ⟨fuel - 2, by omega⟩
    obtain ⟨s1, hb, c1, p1, e1, r1⟩ := scanBody_spec bb s k k hc (by omega) hp (by omega) hr
    have hk1 : k + 1 < bb.length := by omega
    have hk2 : ¬ k + 1 + 1 < bb.length := by omega
    rw [if_pos hk1] at c1
    refine ⟨s1, ?_, by rw [e1]; rfl, r1, c1, p1⟩
    have hk : k < bb.length := by omega
    simp only [scanLoop, hc, instr_get_next_app, hk, hk1, if_true, hb, c1, hk2, if_false]
  | succ m ih =>
    intro k fuel s hn hc hp hr hf
    obtain ⟨f, rfl⟩ : ∃ f, fuel = f + 2 := ⟨fuel - 2, by omega⟩
    obtain ⟨s1, hb, c1, p1, e1, r1⟩ := scanBody_spec bb s k k hc (by omega) hp (by omega) hr
    have hk : k < bb.length := by omega
    have hk1 : k + 1 < bb.length := by omega
    have hk2 : k + 1 + 1 < bb.length := by omega
    rw [if_pos hk1] at c1
    obtain ⟨s2, hb2, c2, p2, e2, r2⟩ :=
      scanBody_spec bb s1 (k + 1) k c1 hk1 p1 hk r1
    rw [if_pos hk1] at c2
    obtain ⟨s3, h3, e3, r3, c3, p3⟩ := ih (k + 1) f s2 (by omega) c2 p2 r2 (by omega)
    refine ⟨s3, ?_, ?_, r3, ?_, ?_⟩
    · simp only [scanLoop, hc, instr_get_next_app, hk, hk1, if_true, hb, c1, hk2, hb2, h3]
    · rw [e3, e2, e1]
      simp [doubled]
    · rw [c3]; congr 1; omega
    · rw [p3]; congr 1; omega

/-- How often a position occurs among positions listed twice each. -/
theorem count_doubled :
    ∀ (k a p : Nat), (doubled a k).count p = if a ≤ p ∧ p < a + k then 2 else 0 := by
  intro k
  induction k with
  | zero =>
    intro a p
    have h0 : ¬ (a ≤ p ∧ p < a + 0) := by omega
    rw [if_neg h0]
    rfl
  | succ k ih =>
    intro a p
    simp only [doubled, List.count_cons, ih (a + 1) p, beq_iff_eq]
    by_cases h1 : a = p
    · subst h1
      have c1 : ¬ (a + 1 ≤ a ∧ a < a + 1 + k) := by omega
      have c2 : a ≤ a ∧ a < a + (k + 1) := by omega
      simp [c1, c2]
    · by_cases h2 : a + 1 ≤ p ∧ p < a + 1 + k
      · have c2 : a ≤ p ∧ p < a + (k + 1) := by omega
        simp [h1, h2, c2]
      · have c2 : ¬ (a ≤ p ∧ p < a + (k + 1)) := by omega
        simp [h1, h2, c2]

/-- The stated order has the first instruction once, those strictly between the first and
the last twice, and the last not at all. -/
theorem count_scanOrder (n p : Nat) :
    (scanOrder n).count p =
      if p = 0 then (if 2 ≤ n then 1 else 0) else if p + 1 < n then 2 else 0 := by
  unfold scanOrder
  by_cases hn : n < 2
  · have h2 : ¬ 2 ≤ n := by omega
    have h3 : ¬ p + 1 < n := by omega
    simp [hn, h2, h3]
  · have h2 : 2 ≤ n := by omega
    simp only [hn, if_false, List.count_cons, count_doubled, beq_iff_eq, h2, if_true]
    by_cases hp : p = 0
    · subst hp
      simp
    · have e1 : ¬ (0 = p) := fun e => hp e.symm
      by_cases h3 : p + 1 < n
      · have c : 1 ≤ p ∧ p < 1 + (n - 2) := by omega
        simp [hp, e1, h3, c]
      · have c : ¬ (1 ≤ p ∧ p < 1 + (n - 2)) := by omega
        simp [hp, e1, h3, c]

theorem length_doubled : ∀ (k a : Nat), (doubled a k).length = 2 * k := by
  intro k
  induction k with
  | zero => intro a; rfl
  | succ k ih => intro a; simp only [doubled, List.length_cons, ih]; omega

end detectLoop

/-- C21 (the claim fails as stated): in the block `sampleLoads` the three instructions
between the first and the last have opcode 57.  The scan examines positions
0, 1, 1, 2, 2, 3, 3 and fills `loads` with 1, 1, 2, 2, 3: the instruction at position 3,
strictly between the first and the last, is recorded once, not twice, because `numLoads` has
reached 5. -/
theorem C21_third_load_recorded_once :
    detectLoop.loadScan 10 sampleLoads (List.replicate 5 none) (List.replicate 5 0) =
      some sampleScanned ∧
    detectLoop.instr_get_opcode sampleLoads (some 3) = some 57 ∧
    sampleScanned.loads.count (some 3) = 1 := by
  refine ⟨by decide, by decide, by decide⟩

/-- C21 (amended): for a block of `n ≥ 1` application instructions the load scan ends (given
`2n` evaluations of the loop condition).  It examines the first instruction once, then each
instruction strictly between the first and the last twice, in order, and never the last:
`2n - 3` runs of the body for `n ≥ 2`, none for `n = 1`.  After every run `numLoads` is
between 0 and 5.  At the end `loads[0 .. numLoads)` point, in order, to the first five
examinations of an instruction with opcode 57, with `validLoads` 1.  So an instruction with
opcode 57 strictly between the first and the last is recorded twice if the examinations of
such instructions number at most five; beyond five they are not recorded. -/
theorem C21_load_scan (bb : List childProgramClient.instr_t) (loads : List (Option Nat))
    (validLoads : List Int) (fuel : Nat) (hn : 1 ≤ bb.length) (hl : loads.length = 5)
    (hv : validLoads.length = 5) (hfuel : 2 * bb.length ≤ fuel) :
    ∃ s, detectLoop.loadScan fuel bb loads validLoads = some s ∧
      s.examined = detectLoop.scanOrder bb.length ∧
      s.examined.length = (if bb.length = 1 then 0 else 2 * bb.length - 3) ∧
      (∀ p : Nat, s.examined.count p =
        if p = 0 then (if 2 ≤ bb.length then 1 else 0)
        else if p + 1 < bb.length then 2 else 0) ∧
      s.counts.length = s.examined.length ∧ (∀ c ∈ s.counts, 0 ≤ c ∧ c ≤ 5) ∧
      0 ≤ s.numLoads ∧ s.numLoads ≤ 5 ∧
      s.numLoads = ((detectLoop.recordedLoads bb s.examined).length : Int) ∧
      (∀ i : Nat, i < (detectLoop.recordedLoads bb s.examined).length →
        s.loads[i]? = some ((detectLoop.recordedLoads bb s.examined)[i]?) ∧
          s.validLoads[i]? = some 1) ∧
      ((s.examined.filter (detectLoop.isLoad bb)).length ≤ 5 →
        ∀ p : Nat, 0 < p → p + 1 < bb.length →
          detectLoop.instr_get_opcode bb (some p) = some 57 →
          (detectLoop.recordedLoads bb s.examined).count p = 2) := by
  have hinit : (detectLoop.scanStart 0 loads validLoads).recorded bb := by
    refine ⟨hl, hv, rfl, ?_, ?_, rfl⟩
    · intro i hi
      exact absurd hi (by simp [detectLoop.recordedLoads, detectLoop.scanStart])
    · intro c hc
      exact absurd hc (by simp [detectLoop.scanStart])
  have hfirst : detectLoop.instrlist_first_app bb = some 0 := by
    simp only [detectLoop.instrlist_first_app]
    rw [if_pos (by omega)]
  have key : ∃ s, detectLoop.loadScan fuel bb loads validLoads = some s ∧
      s.examined = detectLoop.scanOrder bb.length ∧ s.recorded bb := by
    by_cases h1 : bb.length = 1
    · obtain ⟨f, rfl⟩ : ∃ f, fuel = f + 1 := ⟨fuel - 1, by omega⟩
      refine ⟨_, ?_, ?_, hinit⟩
      · simp only [detectLoop.loadScan, hfirst, detectLoop.scanLoop,
          detectLoop.instr_get_next_app, h1]
        rfl
      · rw [h1]; rfl
    · obtain ⟨s1, e1, e2, e3, _, _⟩ := detectLoop.scanLoop_from bb (bb.length - 2) 0 fuel
        (detectLoop.scanStart 0 loads validLoads) (by omega) rfl rfl hinit (by omega)
      refine ⟨s1, ?_, ?_, e3⟩
      · simp only [detectLoop.loadScan, hfirst]
        exact e1
      · rw [e2]
        have h2 : ¬ bb.length < 2 := by omega
        simp only [detectLoop.scanOrder, h2, if_false, detectLoop.scanStart, List.nil_append,
          Nat.zero_add]
  obtain ⟨s, hs, hex, hr⟩ := key
  obtain ⟨_, _, h3, h4, h5, h6⟩ := hr
  have hle := detectLoop.recordedLoads_length_le bb s.examined
  refine ⟨s, hs, hex, ?_, ?_, h6, h5, by omega, by omega, h3, h4, ?_⟩
  · rw [hex]
    unfold detectLoop.scanOrder
    by_cases h1 : bb.length = 1
    · have : bb.length < 2 := by omega
      simp [h1]
    · have h2 : ¬ bb.length < 2 := by omega
      simp only [h2, if_false, List.length_cons, detectLoop.length_doubled, h1]
      omega
  · intro p
    rw [hex]
    exact detectLoop.count_scanOrder bb.length p
  · intro hfew p hp0 hp1 hop
    have hload : detectLoop.isLoad bb p = true := by
      simp only [detectLoop.isLoad, hop, decide_True]
    unfold detectLoop.recordedLoads
    rw [List.take_of_length_le hfew, List.count_filter hload, hex,
      detectLoop.count_scanOrder]
    have : p ≠ 0 := by omega
    simp [this, hp1]

/-- C21 (amended) on a block of four instructions with two loads in the middle: the scan
examines 0, 1, 1, 2, 2 and records both loads twice. -/
theorem C21_load_scan_witness :
    (1 ≤ [sampleInstr 10, sampleInstr 57, sampleInstr 57, sampleInstr 10].length ∧
      (List.replicate 5 (none : Option Nat)).length = 5 ∧
      (List.replicate 5 (0 : Int)).length = 5 ∧
      2 * [sampleInstr 10, sampleInstr 57, sampleInstr 57, sampleInstr 10].length ≤ 8) ∧
    ∃ s, detectLoop.loadScan 8 [sampleInstr 10, sampleInstr 57, sampleInstr 57, sampleInstr 10]
        (List.replicate 5 none) (List.replicate 5 0) = some s ∧
      s.examined = [0, 1, 1, 2, 2] ∧ s.numLoads ≤ 5 :=
  ⟨⟨by decide, by decide, by decide, by decide⟩,
    (C21_load_scan [sampleInstr 10, sampleInstr 57, sampleInstr 57, sampleInstr 10]
      (List.replicate 5 none) (List.replicate 5 0) 8 (by decide) (by decide) (by decide)
      (by decide)).imp fun _ h => ⟨h.1, h.2.1, h.2.2.2.2.2.2.2.1⟩⟩
